import Mathlib

/-!
Formal model of the Opencode Context Jar plugin's context-cleanup core.

The development shallowly embeds the TypeScript sources:
  * `src/patterns.ts`      — extension / glob protection predicate
  * `src/path-utils.ts`    — path normalization and primary-file extraction
  * `src/token.ts`         — token estimation (tokenizer kept abstract)
  * stats module           — per-session token-delta store
  * `src/cleanup.ts`       — `cleanupMessagesForContextJar` (consolidation)
  * finalize module        — `finalizeEditedFilesForNextStep` (finalization)

External platform facilities (the gpt tokenizer, `JSON.stringify`,
`os.homedir()`, `process.cwd()`, `Date.now()`) are abstracted into an
environment record `Env`; Node's posix `path` functions are given direct
Lean implementations of their documented behaviour.  Mutation of the
message window in place is modelled by returning the rewritten window.
-/

/-- Environment of external facilities used by the plugin:
`est` models the gpt tokenizer behind `estimateTokens`, `stringify` models
`JSON.stringify` on tool inputs, `homedir`/`cwd` model `os.homedir()` and
`process.cwd()`, and `now` models `Date.now()`. -/
structure ToolInputShape where
  filePath : Option String
  path : Option String
  content : Option String
  hasEdits : Bool
  extra : String
deriving DecidableEq

structure Env where
  est : String → Nat
  stringify : ToolInputShape → String
  homedir : String
  cwd : String
  now : Nat

/-! ## Character-list string helpers

The byte-position based `String` primitives do not reduce inside the
kernel, so all string manipulation is done on `List Char` (the kernel
model of `String`) and converted back at the boundaries. -/

/-- Pairs each element of a list with its index, starting at `n`. -/
def enumP {α : Type} : Nat → List α → List (Nat × α)
  | _, [] => []
  | n, a :: as => (n, a) :: enumP (n + 1) as

/-- `splitOn` for a single-character separator: `chSplit '/' "a/b".toList`
is `["a".toList, "b".toList]`, and the empty list splits to `[[]]`. -/
def chSplit (sep : Char) : List Char → List (List Char)
  | [] => [[]]
  | x :: xs =>
    let r := chSplit sep xs
    if x = sep then [] :: r
    else
      match r with
      | h :: t => (x :: h) :: t
      | [] => [[x]]

/-- Joins chunks with a single-character separator. -/
def chJoin (sep : Char) : List (List Char) → List Char
  | [] => []
  | [x] => x
  | x :: y :: t => x ++ sep :: chJoin sep (y :: t)

def chTrim (cs : List Char) : List Char :=
  ((cs.dropWhile Char.isWhitespace).reverse.dropWhile Char.isWhitespace).reverse

def chToLower (cs : List Char) : List Char := cs.map Char.toLower

/-! ## Node posix `path` model

Lean implementations of the documented behaviour of the Node `path`
functions used by the sources (`normalize`, `resolve`, `join`, `basename`,
`extname`, `relative`, `isAbsolute`), for posix separators. -/

def isAbsolutePath (p : String) : Bool :=
  match p.toList with
  | '/' :: _ => true
  | _ => false

/-- Segment normalization: drops empty and `.` segments and resolves `..`
(clamping at the root for absolute paths, keeping leading `..` otherwise). -/
def normSegs (isAbs : Bool) (acc : List (List Char)) :
    List (List Char) → List (List Char)
  | [] => acc.reverse
  | s :: rest =>
    if s = [] || s = ['.'] then normSegs isAbs acc rest
    else if s = ['.', '.'] then
      match acc with
      | [] => if isAbs then normSegs isAbs [] rest else normSegs isAbs [['.', '.']] rest
      | top :: t =>
        if top = ['.', '.'] then normSegs isAbs (s :: top :: t) rest else normSegs isAbs t rest
    else normSegs isAbs (s :: acc) rest

def pathNormalizeL (cs : List Char) : List Char :=
  let isAbs : Bool := match cs with | '/' :: _ => true | _ => false
  let segs := normSegs isAbs [] (chSplit '/' cs)
  if isAbs then '/' :: chJoin '/' segs
  else if segs.isEmpty then ['.'] else chJoin '/' segs

def pathNormalize (p : String) : String := String.mk (pathNormalizeL p.toList)

def pathJoin (a b : String) : String :=
  let joined : List Char :=
    if a = "" then b.toList else if b = "" then a.toList else a.toList ++ '/' :: b.toList
  if joined = [] then "." else String.mk (pathNormalizeL joined)

/-- `path.resolve(a, b)` relative to an ambient working directory. -/
def pathResolve (cwd a b : String) : String :=
  if isAbsolutePath b then pathNormalize b
  else if isAbsolutePath a then String.mk (pathNormalizeL (a.toList ++ '/' :: b.toList))
  else String.mk (pathNormalizeL (cwd.toList ++ '/' :: a.toList ++ '/' :: b.toList))

/-- `path.resolve(b)` relative to an ambient working directory. -/
def pathResolve1 (cwd b : String) : String :=
  if isAbsolutePath b then pathNormalize b
  else String.mk (pathNormalizeL (cwd.toList ++ '/' :: b.toList))

def pathBasenameL (cs : List Char) : List Char :=
  (((chSplit '/' cs).filter (fun s => s ≠ [])).getLast?).getD []

def pathBasename (p : String) : String := String.mk (pathBasenameL p.toList)

/-- Position of the last `.` of a chunk, if any. -/
def lastDotPos (b : List Char) : Option Nat :=
  ((enumP 0 b).filterMap (fun x => if x.2 = '.' then some x.1 else none)).getLast?

def pathExtnameL (cs : List Char) : List Char :=
  let b := pathBasenameL cs
  match lastDotPos b with
  | none => []
  | some 0 => []
  | some i => b.drop i

def pathExtname (p : String) : String := String.mk (pathExtnameL p.toList)

/-- `path.relative(from, to)` for posix paths (used only for labels). -/
def pathRelative (cwd fromPath toPath : String) : String :=
  let f := (chSplit '/' (pathResolve1 cwd fromPath).toList).filter (fun s => s ≠ [])
  let t := (chSplit '/' (pathResolve1 cwd toPath).toList).filter (fun s => s ≠ [])
  let rec dropCommon : List (List Char) → List (List Char) → List (List Char) × List (List Char)
    | a :: as, b :: bs => if a = b then dropCommon as bs else (a :: as, b :: bs)
    | a, b => (a, b)
  let (fRest, tRest) := dropCommon f t
  String.mk (chJoin '/' (List.replicate fRest.length ['.', '.'] ++ tRest))

/-! ## `src/patterns.ts` -/

def matchesExtension (filePath : String) (extensions : List String) : Bool :=
  let ext := String.mk (chToLower (pathExtnameL filePath.toList))
  if ext = "" then false
  else extensions.contains ext || extensions.contains (String.mk (ext.toList.drop 1))

/-- Glob matching with the semantics of the compiled regex in
`globToRegex`: `*` becomes `.*` and `?` becomes `.` in a JavaScript regex
without the dot-all flag, so neither crosses a newline; every other
character is escaped and matches literally.  A fuel argument (always
sufficient, each call shrinks pattern + subject) keeps the recursion
structural. -/
def globMatchF : Nat → List Char → List Char → Bool
  | 0, _, _ => false
  | _ + 1, [], s => s.isEmpty
  | fuel + 1, pc :: ps, s =>
    if pc = '*' then
      match s with
      | [] => globMatchF fuel ps []
      | c :: cs => globMatchF fuel ps (c :: cs) || (c ≠ '\n' && globMatchF fuel (pc :: ps) cs)
    else
      match s with
      | [] => false
      | c :: cs => (if pc = '?' then c ≠ '\n' else pc == c) && globMatchF fuel ps cs

def globMatch (p s : List Char) : Bool := globMatchF (p.length + s.length + 1) p s

def matchesPattern (filePath : String) (patterns : List String) : Bool :=
  let base := pathBasename filePath
  patterns.any fun pattern =>
    globMatch pattern.toList filePath.toList || globMatch pattern.toList base.toList

def isFileProtected (filePath : String) (extensions patterns : List String) : Bool :=
  if filePath = "" then false
  else matchesExtension filePath extensions || matchesPattern filePath patterns

/-! ## `src/token.ts` -/

/-- `estimateTokens`: empty text costs 0, otherwise the (abstract)
tokenizer decides; the length-heuristic fallback is one possible `env.est`. -/
def estimateTokens (env : Env) (text : String) : Nat :=
  if text = "" then 0 else env.est text

/-! ## Data model (`src/types.ts`) -/

/-- The shape of `state.metadata` as far as the engines inspect it:
`filediffAfter` is `metadata.filediff.after` when that is a string,
`resultsAfter` is `metadata.results[last].filediff.after` when that is a
string, `preview` is the synthetic-read preview field. -/
structure StateMetadata where
  filediffAfter : Option String
  resultsAfter : Option String
  preview : Option String
deriving DecidableEq

structure ToolStateCompletedData where
  input : ToolInputShape
  output : String
  title : String
  metadata : StateMetadata
  timeStart : Nat
  timeEnd : Nat
  compacted : Option Nat
deriving DecidableEq

inductive ToolState where
  | pending (input : ToolInputShape) (raw : String)
  | running (input : ToolInputShape)
  | completed (c : ToolStateCompletedData)
  | error (input : ToolInputShape) (error : String)
deriving DecidableEq

def ToolState.inputOf : ToolState → ToolInputShape
  | .pending i _ => i
  | .running i => i
  | .completed c => c.input
  | .error i _ => i

structure ToolPart where
  callID : Option String
  tool : String
  state : ToolState
deriving DecidableEq

inductive ChatMessagePart where
  | tool (p : ToolPart)
  | other (kind : String) (payload : String)
deriving DecidableEq

structure ChatMessage where
  role : String
  root : Option String
  parts : List ChatMessagePart
deriving DecidableEq

structure ProtectedFiles where
  extensions : List String
  patterns : List String
deriving DecidableEq

structure WhitelistConfig where
  allowedModels : List String
  enforced : Bool
  protectedFiles : Option ProtectedFiles
deriving DecidableEq

def isCompletedToolPart (tp : ToolPart) : Bool :=
  match tp.state with
  | .completed _ => true
  | _ => false

/-! ## `src/path-utils.ts` -/

def inferWorktreeRoot (messages : List ChatMessage) : Option String :=
  messages.reverse.findSome? fun m =>
    match m.root with
    | some r => if r ≠ "" then some r else none
    | none => none

/-- Strips one leading and one trailing quote character, as the regex
replacement of trimmed input does. -/
def stripOuterQuotes (cs : List Char) : List Char :=
  let s1 := match cs with
    | c :: rest => if c = '\'' || c = '"' then rest else cs
    | [] => []
  match s1.getLast? with
  | some c => if c = '\'' || c = '"' then s1.dropLast else s1
  | none => s1

def normalizeFilePath (env : Env) (filePath : Option String) (worktreeRoot : Option String) :
    Option String :=
  match filePath with
  | none => none
  | some fp =>
    if fp = "" then none
    else
      let trimmed := stripOuterQuotes (chTrim fp.toList)
      let expanded : String :=
        match trimmed with
        | '~' :: rest => pathJoin env.homedir (String.mk rest)
        | _ => String.mk trimmed
      if isAbsolutePath expanded then some (pathNormalize expanded)
      else
        match worktreeRoot with
        | some root => some (pathResolve env.cwd root expanded)
        | none => some (pathResolve1 env.cwd expanded)

/-- `extractPrimaryFilePath`: `input.filePath` wins (the multiedit branch
of the source also keys on `input.filePath` and is subsumed), then
`input.path`, otherwise unresolved. -/
def extractPrimaryFilePath (env : Env) (part : ToolPart) (worktreeRoot : Option String) :
    Option String :=
  let input := part.state.inputOf
  match input.filePath with
  | some fp => normalizeFilePath env (some fp) worktreeRoot
  | none =>
    match input.path with
    | some p => normalizeFilePath env (some p) worktreeRoot
    | none => none

/-! ## Stats module (`StepTokenDelta`, `SessionTokenStats`, tracker) -/

structure StepTokenDelta where
  tokensBefore : Nat
  tokensAfter : Nat
  readTokensBefore : Nat
  readTokensAfter : Nat
  editTokensBefore : Nat
  editTokensAfter : Nat
  invalidatedTokensBefore : Nat
  filesConsolidated : Nat
  filesInvalidated : Nat
deriving DecidableEq

def emptyDelta : StepTokenDelta :=
  { tokensBefore := 0, tokensAfter := 0, readTokensBefore := 0, readTokensAfter := 0,
    editTokensBefore := 0, editTokensAfter := 0, invalidatedTokensBefore := 0,
    filesConsolidated := 0, filesInvalidated := 0 }

structure SessionTokenStats where
  sessionID : String
  total : StepTokenDelta
  lastStep : StepTokenDelta
  lastUpdatedAt : Nat
  lastReportedAt : Option Nat
  lastReportedNetDelta : Option Int
deriving DecidableEq

def netDelta (d : StepTokenDelta) : Int := (d.tokensBefore : Int) - (d.tokensAfter : Int)

/-- Insertion-ordered map model of a JS `Map` (value updated in place on
an existing key, appended otherwise). -/
def mget {κ α : Type} [BEq κ] : List (κ × α) → κ → Option α
  | [], _ => none
  | e :: m, k => if e.1 == k then some e.2 else mget m k

def mset {κ α : Type} [BEq κ] : List (κ × α) → κ → α → List (κ × α)
  | [], k, v => [(k, v)]
  | e :: m, k, v => if e.1 == k then (k, v) :: m else e :: mset m k v

/-- Insertion-ordered model of a JS `Set`. -/
def sadd {α : Type} [BEq α] (s : List α) (x : α) : List α :=
  if s.contains x then s else s ++ [x]

/-- `createStatsTracker().record`: the stored snapshot is replaced, never
accumulated; only the report bookkeeping carries over. -/
def trackerRecord (bySession : List (String × SessionTokenStats)) (sessionID : String)
    (delta : StepTokenDelta) (now : Nat) : SessionTokenStats × List (String × SessionTokenStats) :=
  let prev := mget bySession sessionID
  let next : SessionTokenStats :=
    { sessionID := sessionID, total := delta, lastStep := delta, lastUpdatedAt := now,
      lastReportedAt := prev.bind (fun s => s.lastReportedAt),
      lastReportedNetDelta := prev.bind (fun s => s.lastReportedNetDelta) }
  (next, mset bySession sessionID next)

def trackerGet (bySession : List (String × SessionTokenStats)) (sessionID : String) :
    Option SessionTokenStats :=
  mget bySession sessionID

/-! ## Shared engine helpers (`src/cleanup.ts` and the finalize module) -/

def isFileTool (tool : String) : Bool :=
  tool == "read" || tool == "edit" || tool == "write" || tool == "multiedit"

/-- `replaceAll("\r\n", "\n")`, scanning left to right. -/
def replaceCRLF : List Char → List Char
  | [] => []
  | '\r' :: '\n' :: rest => '\n' :: replaceCRLF rest
  | c :: rest => c :: replaceCRLF rest

def padZeros (s : List Char) (n : Nat) : List Char := List.replicate (n - s.length) '0' ++ s

/-- Renders raw content in the shape of a genuine `read` output: numbered,
zero-padded lines inside a `<file>` block with a line-count footer. -/
def renderReadLikeOutput (rawContent : String) : String :=
  let normalized := replaceCRLF rawContent.toList
  let lines := chSplit '\n' normalized
  let numbered := (enumP 0 lines).map fun x =>
    padZeros (toString (x.1 + 1)).toList 5 ++ '|' :: ' ' :: (x.2 ++ ['\n'])
  String.mk ("<file>\n".toList ++ numbered.flatten
    ++ '\n' :: "(End of file - total ".toList ++ (toString lines.length).toList
    ++ " lines)\n</file>".toList)

/-- `metadata.filediff.after` when it is a string, otherwise the last
`results` entry's `filediff.after`. -/
def extractAfterFromEditMetadata (m : StateMetadata) : Option String :=
  match m.filediffAfter with
  | some a => some a
  | none => m.resultsAfter

/-- Token cost of a part: estimate of the serialized input plus estimate
of the output text; non-completed parts cost 0. -/
def toolPartTokens (env : Env) (tp : ToolPart) : Nat :=
  match tp.state with
  | .completed c => estimateTokens env (env.stringify c.input) + estimateTokens env c.output
  | _ => 0

def categorizeBeforeTokens (d : StepTokenDelta) (tool : String) (tokens : Nat) : StepTokenDelta :=
  let d := { d with tokensBefore := d.tokensBefore + tokens }
  if tool == "read" then { d with readTokensBefore := d.readTokensBefore + tokens }
  else if tool == "edit" || tool == "multiedit" || tool == "write" then
    { d with editTokensBefore := d.editTokensBefore + tokens }
  else d

def categorizeAfterTokens (d : StepTokenDelta) (tool : String) (tokens : Nat) : StepTokenDelta :=
  let d := { d with tokensAfter := d.tokensAfter + tokens }
  if tool == "read" then { d with readTokensAfter := d.readTokensAfter + tokens }
  else if tool == "edit" || tool == "multiedit" || tool == "write" then
    { d with editTokensAfter := d.editTokensAfter + tokens }
  else d

/-! ## `cleanupMessagesForContextJar` (`src/cleanup.ts`)

The in-place mutation of the window is modelled by identifying parts by
their position `(message index, part index)`; the pass-2 in-place rewrite
of the keeper read is a position-keyed replacement applied in pass 3. -/

abbrev PartPos := Nat × Nat

def enumParts (msgs : List ChatMessage) : List (PartPos × ChatMessagePart) :=
  (enumP 0 msgs).flatMap fun im =>
    (enumP 0 im.2.parts).map fun jp => ((im.1, jp.1), jp.2)

def allParts (msgs : List ChatMessage) : List ChatMessagePart :=
  msgs.flatMap fun m => m.parts

inductive ContentKind where
  | readOutput
  | rawText
deriving DecidableEq

structure LatestContent where
  content : String
  contentKind : ContentKind
deriving DecidableEq

structure CleanupScan where
  latestByFile : List (String × LatestContent)
  lastReadByFile : List (String × (PartPos × ToolPart))
  filesWithHistory : List String
  filesWithRead : List String

/-- Pass 1: collect file history, latest content, and the last read. -/
def cleanupP1Step (env : Env) (exts pats invalidatedFiles : List String)
    (root : Option String) (st : CleanupScan) (x : PartPos × ChatMessagePart) : CleanupScan :=
  match x.2 with
  | .other _ _ => st
  | .tool tp =>
    match tp.state with
    | .completed c =>
      if isFileTool tp.tool then
        match extractPrimaryFilePath env tp root with
        | none => st
        | some filePath =>
          if isFileProtected filePath exts pats then st
          else
            let st := { st with filesWithHistory := sadd st.filesWithHistory filePath }
            let st :=
              if tp.tool == "read" then
                { st with filesWithRead := sadd st.filesWithRead filePath }
              else st
            if invalidatedFiles.contains filePath then st
            else if tp.tool == "read" then
              if c.output ≠ "" then
                { st with
                  latestByFile := mset st.latestByFile filePath ⟨c.output, .readOutput⟩,
                  lastReadByFile := mset st.lastReadByFile filePath (x.1, tp) }
              else st
            else if tp.tool == "edit" || tp.tool == "multiedit" then
              match extractAfterFromEditMetadata c.metadata with
              | some after =>
                { st with latestByFile := mset st.latestByFile filePath ⟨after, .rawText⟩ }
              | none => st
            else if tp.tool == "write" then
              match c.input.content with
              | some content =>
                { st with latestByFile := mset st.latestByFile filePath ⟨content, .rawText⟩ }
              | none => st
            else st
      else st
    | _ => st

def cleanupScan (env : Env) (exts pats invalidatedFiles : List String)
    (root : Option String) (msgs : List ChatMessage) : CleanupScan :=
  (enumParts msgs).foldl (cleanupP1Step env exts pats invalidatedFiles root) ⟨[], [], [], []⟩

/-- The keeper read rewritten to the latest known state: output replaced
when a latest snapshot exists (rendered when it is not already read
output), `filePath` pinned in the input, compacted marker cleared. -/
def rewriteKeeper (filePath : String) (latest : Option LatestContent)
    (tp : ToolPart) : ToolPart :=
  match tp.state with
  | .completed c =>
    let normalizedOutput :=
      match latest with
      | some l =>
        match l.contentKind with
        | .readOutput => l.content
        | .rawText => renderReadLikeOutput l.content
      | none => c.output
    { tp with
      state := .completed
        { c with
          output := normalizedOutput,
          input := { c.input with filePath := some filePath },
          compacted := none } }
  | _ => tp

structure CleanupPlan where
  delta : StepTokenDelta
  keepCallIDs : List String
  filesToConsolidate : List String
  rewrites : List (PartPos × ToolPart)

/-- Pass 2: pick the keeper read per file (only if there is a real read),
rewriting it to the latest state. -/
def cleanupP2Step (scan : CleanupScan) (invalidatedFiles : List String)
    (st : CleanupPlan) (filePath : String) : CleanupPlan :=
  if invalidatedFiles.contains filePath then
    { st with delta.filesInvalidated := st.delta.filesInvalidated + 1 }
  else
    match mget scan.lastReadByFile filePath with
    | none => st
    | some (pos, tp) =>
      let newPart := rewriteKeeper filePath (mget scan.latestByFile filePath) tp
      { st with
        keepCallIDs := sadd st.keepCallIDs (tp.callID.getD ""),
        filesToConsolidate := sadd st.filesToConsolidate filePath,
        rewrites := mset st.rewrites pos newPart,
        delta.filesConsolidated := st.delta.filesConsolidated + 1 }

def cleanupPlanOf (scan : CleanupScan) (invalidatedFiles : List String) : CleanupPlan :=
  scan.filesWithRead.foldl (cleanupP2Step scan invalidatedFiles) ⟨emptyDelta, [], [], []⟩

/-- Invalidation is also recorded for files that had no read. -/
def cleanupInvalNoRead (scan : CleanupScan) (invalidatedFiles : List String)
    (d : StepTokenDelta) : StepTokenDelta :=
  scan.filesWithHistory.foldl
    (fun d f =>
      if !scan.filesWithRead.contains f && invalidatedFiles.contains f then
        { d with filesInvalidated := d.filesInvalidated + 1 }
      else d)
    d

/-- The part pass 3 sees at a position: the keeper object was mutated in
place by pass 2, every other part is unchanged. -/
def cleanupEffectivePart (rewrites : List (PartPos × ToolPart)) (pos : PartPos)
    (p : ChatMessagePart) : ChatMessagePart :=
  match mget rewrites pos with
  | some tp => .tool tp
  | none => p

/-- Pass 3 keep/drop decision for the (effective) part at one position. -/
def cleanupP3Keep (env : Env) (exts pats invalidatedFiles : List String) (root : Option String)
    (scan : CleanupScan) (plan : CleanupPlan) (pos : PartPos) (p : ChatMessagePart) :
    Option ChatMessagePart :=
  let q := cleanupEffectivePart plan.rewrites pos p
  match q with
  | .other _ _ => some q
  | .tool tp =>
    match tp.state with
    | .completed _ =>
      if !isFileTool tp.tool then some q
      else
        match extractPrimaryFilePath env tp root with
        | none => some q
        | some filePath =>
          if !scan.filesWithHistory.contains filePath then some q
          else if isFileProtected filePath exts pats then some q
          else if invalidatedFiles.contains filePath then none
          else if !plan.filesToConsolidate.contains filePath then some q
          else if tp.tool == "read" then
            match tp.callID with
            | some cid => if cid ≠ "" && plan.keepCallIDs.contains cid then some q else none
            | none => none
          else none
    | _ => some q

/-- Pass 3 token accounting for the (effective) part at one position,
mirroring the branching of `cleanupP3Keep`. -/
def cleanupP3Delta (env : Env) (exts pats invalidatedFiles : List String) (root : Option String)
    (scan : CleanupScan) (plan : CleanupPlan) (d : StepTokenDelta) (pos : PartPos)
    (p : ChatMessagePart) : StepTokenDelta :=
  let q := cleanupEffectivePart plan.rewrites pos p
  match q with
  | .other _ _ => d
  | .tool tp =>
    match tp.state with
    | .completed _ =>
      if !isFileTool tp.tool then d
      else
        match extractPrimaryFilePath env tp root with
        | none => d
        | some filePath =>
          if !scan.filesWithHistory.contains filePath then d
          else if isFileProtected filePath exts pats then d
          else if invalidatedFiles.contains filePath then
            let tokens := toolPartTokens env tp
            let d := categorizeBeforeTokens d tp.tool tokens
            { d with invalidatedTokensBefore := d.invalidatedTokensBefore + tokens }
          else if !plan.filesToConsolidate.contains filePath then d
          else
            let tokens := toolPartTokens env tp
            let d := categorizeBeforeTokens d tp.tool tokens
            let kept :=
              tp.tool == "read" &&
                (match tp.callID with
                 | some cid => cid ≠ "" && plan.keepCallIDs.contains cid
                 | none => false)
            if kept then categorizeAfterTokens d tp.tool (toolPartTokens env tp) else d
    | _ => d

def protectedExtensionsOf (config : WhitelistConfig) : List String :=
  (config.protectedFiles.map (fun p => p.extensions)).getD []

def protectedPatternsOf (config : WhitelistConfig) : List String :=
  (config.protectedFiles.map (fun p => p.patterns)).getD []

def cleanupMessagesForContextJar (env : Env) (messages : List ChatMessage)
    (config : WhitelistConfig) (invalidatedFiles : List String) :
    List ChatMessage × StepTokenDelta :=
  let exts := protectedExtensionsOf config
  let pats := protectedPatternsOf config
  let root := inferWorktreeRoot messages
  let scan := cleanupScan env exts pats invalidatedFiles root messages
  if scan.filesWithHistory.isEmpty then (messages, emptyDelta)
  else
    let plan := cleanupPlanOf scan invalidatedFiles
    let d := cleanupInvalNoRead scan invalidatedFiles plan.delta
    let outMsgs := (enumP 0 messages).map fun im =>
      { im.2 with
        parts := (enumP 0 im.2.parts).filterMap fun jp =>
          cleanupP3Keep env exts pats invalidatedFiles root scan plan (im.1, jp.1) jp.2 }
    let dOut := (enumParts messages).foldl
      (fun d x => cleanupP3Delta env exts pats invalidatedFiles root scan plan d x.1 x.2) d
    (outMsgs, dOut)

/-! ## `finalizeEditedFilesForNextStep` (finalize module) -/

structure FinalLatest where
  content : String
  isAlreadyReadFormatted : Bool
deriving DecidableEq

structure FinalizeScan where
  latestByFile : List (String × FinalLatest)
  editedFiles : List String
  allTouchedFiles : List String

/-- Gather latest content for edited files (edit/write snapshots win,
a read's output is only a fallback recorded on first sight). -/
def finalizeGatherStep (env : Env) (exts pats invalidatedFiles : List String)
    (root : Option String) (st : FinalizeScan) (p : ChatMessagePart) : FinalizeScan :=
  match p with
  | .other _ _ => st
  | .tool tp =>
    match tp.state with
    | .completed c =>
      match extractPrimaryFilePath env tp root with
      | none => st
      | some filePath =>
        if isFileProtected filePath exts pats then st
        else
          let st := { st with allTouchedFiles := sadd st.allTouchedFiles filePath }
          if invalidatedFiles.contains filePath then st
          else if tp.tool == "edit" || tp.tool == "multiedit" then
            match extractAfterFromEditMetadata c.metadata with
            | some after =>
              { st with
                editedFiles := sadd st.editedFiles filePath,
                latestByFile := mset st.latestByFile filePath ⟨after, false⟩ }
            | none => st
          else if tp.tool == "write" then
            match c.input.content with
            | some content =>
              { st with
                editedFiles := sadd st.editedFiles filePath,
                latestByFile := mset st.latestByFile filePath ⟨content, false⟩ }
            | none => st
          else if tp.tool == "read" then
            if c.output ≠ "" && (mget st.latestByFile filePath).isNone then
              { st with latestByFile := mset st.latestByFile filePath ⟨c.output, true⟩ }
            else st
          else st
    | _ => st

def finalizeScan (env : Env) (exts pats invalidatedFiles : List String)
    (root : Option String) (msgs : List ChatMessage) : FinalizeScan :=
  (allParts msgs).foldl (finalizeGatherStep env exts pats invalidatedFiles root) ⟨[], [], []⟩

/-- Wipe decision: every completed file-tool part of an edited or
invalidated (non-protected, resolvable) file is removed. -/
def finalizeWipeKeep (env : Env) (exts pats invalidatedFiles : List String)
    (root : Option String) (editedFiles : List String) (p : ChatMessagePart) :
    Option ChatMessagePart :=
  match p with
  | .other _ _ => some p
  | .tool tp =>
    match tp.state with
    | .completed _ =>
      match extractPrimaryFilePath env tp root with
      | none => some p
      | some filePath =>
        if isFileProtected filePath exts pats then some p
        else if !(editedFiles.contains filePath || invalidatedFiles.contains filePath) then some p
        else if isFileTool tp.tool then none
        else some p
    | _ => some p

/-- Wipe-phase token accounting, mirroring `finalizeWipeKeep`. -/
def finalizeWipeDelta (env : Env) (exts pats invalidatedFiles : List String)
    (root : Option String) (editedFiles : List String) (d : StepTokenDelta)
    (p : ChatMessagePart) : StepTokenDelta :=
  match p with
  | .other _ _ => d
  | .tool tp =>
    match tp.state with
    | .completed _ =>
      match extractPrimaryFilePath env tp root with
      | none => d
      | some filePath =>
        if isFileProtected filePath exts pats then d
        else if !(editedFiles.contains filePath || invalidatedFiles.contains filePath) then d
        else if isFileTool tp.tool then
          let tokens := toolPartTokens env tp
          let d := categorizeBeforeTokens d tp.tool tokens
          if invalidatedFiles.contains filePath then
            { d with invalidatedTokensBefore := d.invalidatedTokensBefore + tokens }
          else d
        else d
    | _ => d

def sanitizeLabel (label : String) : String :=
  String.mk (label.toList.map fun c =>
    if c.isAlpha || c.isDigit || c = '_' || c = '-' then c else '_')

def makeSyntheticReadPart (env : Env) (filePath output label : String) : ToolPart :=
  { callID := some ("context-jar-final-read-" ++ sanitizeLabel label),
    tool := "read",
    state := .completed
      { input := { filePath := some filePath, path := none, content := none,
                   hasEdits := false, extra := "" },
        output := output,
        title := label,
        metadata := { filediffAfter := none, resultsAfter := none,
                      preview := some (String.mk (chJoin '\n' ((chSplit '\n' output.toList).take 20))) },
        timeStart := env.now,
        timeEnd := env.now,
        compacted := none } }

/-- Index of the chronologically last assistant-authored message. -/
def findLastAssistantIdx (msgs : List ChatMessage) : Option Nat :=
  (enumP 0 msgs).foldl (fun acc im => if im.2.role == "assistant" then some im.1 else acc) none

/-- One synthetic read per edited file with recovered content, in edited
order. -/
def finalizeSynthetics (env : Env) (root : Option String) (scan : FinalizeScan) :
    List ChatMessagePart :=
  scan.editedFiles.filterMap fun filePath =>
    match mget scan.latestByFile filePath with
    | none => none
    | some l =>
      let label := match root with
        | some r => pathRelative env.cwd r filePath
        | none => filePath
      let output :=
        if l.isAlreadyReadFormatted then l.content else renderReadLikeOutput l.content
      some (.tool (makeSyntheticReadPart env filePath output label))

def finalizeEditedFilesForNextStep (env : Env) (messages : List ChatMessage)
    (config : WhitelistConfig) (invalidatedFiles : List String) :
    List ChatMessage × StepTokenDelta :=
  let exts := protectedExtensionsOf config
  let pats := protectedPatternsOf config
  let root := inferWorktreeRoot messages
  let scan := finalizeScan env exts pats invalidatedFiles root messages
  let d := scan.allTouchedFiles.foldl
    (fun d f =>
      if invalidatedFiles.contains f then { d with filesInvalidated := d.filesInvalidated + 1 }
      else d)
    emptyDelta
  if scan.editedFiles.isEmpty && d.filesInvalidated == 0 then (messages, d)
  else
    let wiped := messages.map fun m =>
      { m with
        parts := m.parts.filterMap
          (finalizeWipeKeep env exts pats invalidatedFiles root scan.editedFiles) }
    let d := (allParts messages).foldl
      (finalizeWipeDelta env exts pats invalidatedFiles root scan.editedFiles) d
    match findLastAssistantIdx wiped with
    | none => (wiped, d)
    | some ai =>
      let synths := finalizeSynthetics env root scan
      let out := (enumP 0 wiped).map fun im =>
        if im.1 = ai then { im.2 with parts := im.2.parts ++ synths } else im.2
      let d := synths.foldl
        (fun d sp =>
          match sp with
          | .tool tp =>
            let d := categorizeAfterTokens d tp.tool (toolPartTokens env tp)
            { d with filesConsolidated := d.filesConsolidated + 1 }
          | .other _ _ => d)
        d
      (out, d)

/-! ## Claim-level measures -/

/-- The resolved file of a part, when it has one. -/
def partFileOf (env : Env) (root : Option String) (p : ChatMessagePart) : Option String :=
  match p with
  | .tool tp => extractPrimaryFilePath env tp root
  | .other _ _ => none

def isCompletedFileOpFor (env : Env) (root : Option String) (f : String)
    (p : ChatMessagePart) : Bool :=
  match p with
  | .tool tp =>
    isCompletedToolPart tp && isFileTool tp.tool &&
      (extractPrimaryFilePath env tp root == some f)
  | .other _ _ => false

def isCompletedReadFor (env : Env) (root : Option String) (f : String)
    (p : ChatMessagePart) : Bool :=
  match p with
  | .tool tp =>
    isCompletedToolPart tp && tp.tool == "read" &&
      (extractPrimaryFilePath env tp root == some f)
  | .other _ _ => false

/-- The visible completed file-operation parts of file `f`, in window order. -/
def completedFileOpsFor (env : Env) (root : Option String) (f : String)
    (msgs : List ChatMessage) : List ChatMessagePart :=
  (allParts msgs).filter (isCompletedFileOpFor env root f)

/-- All parts whose resolved file is `f` (any tool, any lifecycle state). -/
def partsForFile (env : Env) (root : Option String) (f : String)
    (parts : List ChatMessagePart) : List ChatMessagePart :=
  parts.filter (fun p => partFileOf env root p == some f)

def readPartB (p : ChatMessagePart) : Bool :=
  match p with
  | .tool tp => isCompletedToolPart tp && tp.tool == "read"
  | .other _ _ => false

def callIDOf (p : ChatMessagePart) : Option String :=
  match p with
  | .tool tp => tp.callID
  | .other _ _ => none

/-- Hygiene of read call identifiers: every completed read part carries a
non-empty call id, and no two completed read parts at different positions
share one. -/
def ReadCallIDsOk (msgs : List ChatMessage) : Prop :=
  (∀ x ∈ enumParts msgs, readPartB x.2 = true → ∃ c, callIDOf x.2 = some c ∧ c ≠ "") ∧
  (enumParts msgs).Pairwise
    (fun x y => readPartB x.2 = true → readPartB y.2 = true → callIDOf x.2 ≠ callIDOf y.2)

instance (msgs : List ChatMessage) : Decidable (ReadCallIDsOk msgs) := by
  unfold ReadCallIDsOk
  infer_instance

/-- A file key is stable when resolving it again yields it unchanged
(true for every ordinary absolute path; it can fail for exotic names that
re-trigger trimming, quote-stripping or home expansion). -/
def StableKey (env : Env) (root : Option String) (k : String) : Prop :=
  normalizeFilePath env (some k) root = some k

instance (env : Env) (root : Option String) (k : String) : Decidable (StableKey env root k) := by
  unfold StableKey
  infer_instance

/-- The files the consolidation pass decides to consolidate. -/
def cleanupConsolidatedFiles (env : Env) (messages : List ChatMessage)
    (config : WhitelistConfig) (invalidatedFiles : List String) : List String :=
  (cleanupPlanOf
    (cleanupScan env (protectedExtensionsOf config) (protectedPatternsOf config)
      invalidatedFiles (inferWorktreeRoot messages) messages)
    invalidatedFiles).filesToConsolidate

/-- The files the finalization pass treats as edited. -/
def finalizeEditedOf (env : Env) (messages : List ChatMessage)
    (config : WhitelistConfig) (invalidatedFiles : List String) : List String :=
  (finalizeScan env (protectedExtensionsOf config) (protectedPatternsOf config)
    invalidatedFiles (inferWorktreeRoot messages) messages).editedFiles

/-- A part the engines may never remove or rewrite: not a tool part, or not
in the completed lifecycle state, or not a file tool, or without a
resolvable file path. -/
def untouchablePart (env : Env) (root : Option String) (p : ChatMessagePart) : Bool :=
  match p with
  | .other _ _ => true
  | .tool tp =>
    match tp.state with
    | .completed _ => !isFileTool tp.tool || (extractPrimaryFilePath env tp root).isNone
    | _ => true

/-! ## Concrete sample data (scenario checks and counterexamples) -/

/-- A concrete tokenizer/serializer environment: the length-heuristic
estimator and a field-concatenating serializer. -/
def sampleStringify (i : ToolInputShape) : String :=
  String.mk ((i.filePath.getD "-").toList ++ '|' :: (i.path.getD "-").toList
    ++ '|' :: (i.content.getD "-").toList ++ '|' :: i.extra.toList)

def sampleEnv : Env :=
  { est := fun s => (s.toList.length + 3) / 4, stringify := sampleStringify,
    homedir := "/home/u", cwd := "/cwd", now := 77 }

def emptyConfig : WhitelistConfig := ⟨[], true, none⟩

def noMetadata : StateMetadata := ⟨none, none, none⟩

def inputFor (fp : String) : ToolInputShape := ⟨some fp, none, none, false, ""⟩

def mkReadPart (cid fp out : String) : ToolPart :=
  ⟨some cid, "read", .completed ⟨inputFor fp, out, fp, noMetadata, 0, 0, none⟩⟩

def mkEditPart (cid fp after : String) : ToolPart :=
  ⟨some cid, "edit", .completed ⟨inputFor fp, "done", fp, ⟨some after, none, none⟩, 0, 0, none⟩⟩

/-- C6 scenario data: `/w/a.txt` read, edited to content `X`, read again. -/
def c6Read1 : ToolPart := mkReadPart "r1" "/w/a.txt" "<file>v1</file>"

def c6Edit : ToolPart := mkEditPart "e1" "/w/a.txt" "X"

def c6Read2 : ToolPart := mkReadPart "r2" "/w/a.txt" "<file>v2</file>"

def c6Msgs : List ChatMessage :=
  [⟨"assistant", none, [.other "text" "hi", .tool c6Read1, .tool c6Edit, .tool c6Read2]⟩]

/-- Keeps an optional value only when it satisfies the predicate. -/
def optGuard {b : Type} (pred : b → Bool) : Option b → Option b
  | some y => if pred y then some y else none
  | none => none

/-- C1 counterexample data: two completed reads of the same file whose
outputs are empty. -/
def c1ceMsgs : List ChatMessage :=
  [⟨"user", none, [.tool (mkReadPart "c1" "/w/a" ""), .tool (mkReadPart "c2" "/w/a" "")]⟩]

/-- The wipe phase of finalization as a whole-window transform. -/
def finalizeWiped (env : Env) (msgs : List ChatMessage) (config : WhitelistConfig)
    (invalidatedFiles : List String) : List ChatMessage :=
  msgs.map fun m =>
    { m with
      parts := m.parts.filterMap
        (finalizeWipeKeep env (protectedExtensionsOf config) (protectedPatternsOf config)
          invalidatedFiles (inferWorktreeRoot msgs)
          (finalizeScan env (protectedExtensionsOf config) (protectedPatternsOf config)
            invalidatedFiles (inferWorktreeRoot msgs) msgs).editedFiles) }

/-- The synthetic reads the finalization pass appends. -/
def finalizeSynthsOf (env : Env) (msgs : List ChatMessage) (config : WhitelistConfig)
    (invalidatedFiles : List String) : List ChatMessagePart :=
  finalizeSynthetics env (inferWorktreeRoot msgs)
    (finalizeScan env (protectedExtensionsOf config) (protectedPatternsOf config)
      invalidatedFiles (inferWorktreeRoot msgs) msgs)

/-- C5 counterexample data: an edit of `/a/b` plus a read of `/a/b /.`,
whose consolidation key `/a/b ` re-resolves to `/a/b`. -/
def c5ceMsgs : List ChatMessage :=
  [⟨"assistant", none, [.tool (mkEditPart "e5" "/a/b" "Y"),
    .tool (mkReadPart "r5" "/a/b /." "<file>z</file>")]⟩]

/-- C5 witness data: `/w/a` is only edited, `/w/b` is read. -/
def c5wMsgs : List ChatMessage :=
  [⟨"assistant", none, [.tool (mkEditPart "e6" "/w/a" "Z"),
    .tool (mkReadPart "r6" "/w/b" "<file>q</file>")]⟩]

/-- C4 witness data: a config protecting `.md` files and a window that
reads and edits `/w/notes.md` (also invalidated) alongside a read of `/w/x`. -/
def c4Cfg : WhitelistConfig := ⟨[], true, some ⟨[".md"], []⟩⟩

def c4Msgs : List ChatMessage :=
  [⟨"assistant", none, [.tool (mkReadPart "p1" "/w/notes.md" "<file>n</file>"),
    .tool (mkEditPart "p2" "/w/notes.md" "N2"),
    .tool (mkReadPart "p3" "/w/x" "<file>x</file>")]⟩]

/-- C3 counterexample data: a single read of the unstable path `/a/b /.`. -/
def c3ceMsgs : List ChatMessage :=
  [⟨"assistant", none, [.tool (mkReadPart "r3" "/a/b /." "<file>z</file>")]⟩]

/-- C3 witness data: a read of `/w/c` and an edit of `/w/d`. -/
def c3wMsgs : List ChatMessage :=
  [⟨"assistant", none, [.tool (mkReadPart "r7" "/w/c" "<file>c</file>"),
    .tool (mkEditPart "e7" "/w/d" "D")]⟩]

/-- C2 counterexample data: a user-only window containing one completed
edit with a recoverable snapshot. -/
def c2ceMsgs : List ChatMessage :=
  [⟨"user", none, [.tool (mkEditPart "c1" "/w/a" "X")]⟩]

/-- C8 counterexample data: an assistant window whose only part edits the
unstable path `/a/b /.` (keyed `/a/b `), with `/a/b` invalidated. -/
def c8ceMsgs : List ChatMessage :=
  [⟨"assistant", none, [.tool (mkEditPart "e8" "/a/b /." "Y")]⟩]

/-- C8 witness data: an assistant window with one ordinary edit. -/
def c8wMsgs : List ChatMessage :=
  [⟨"assistant", none, [.tool (mkEditPart "e9" "/w/a" "Z")]⟩]

/-! ## Generic helper lemmas -/

theorem mem_sadd {a : Type} [BEq a] [LawfulBEq a] {s : List a} {x y : a} :
    y ∈ sadd s x ↔ y ∈ s ∨ y = x := by
  unfold sadd
  split
  · rename_i h
    constructor
    · exact Or.inl
    · rintro (hy | rfl)
      · exact hy
      · exact List.mem_of_elem_eq_true h
  · simp [List.mem_append]

theorem mem_sadd_of_mem {a : Type} [BEq a] [LawfulBEq a] {s : List a} {x y : a}
    (h : y ∈ s) : y ∈ sadd s x :=
  mem_sadd.mpr (Or.inl h)

theorem self_mem_sadd {a : Type} [BEq a] [LawfulBEq a] {s : List a} {x : a} :
    x ∈ sadd s x :=
  mem_sadd.mpr (Or.inr rfl)

theorem mget_mset_self {k : Type} {a : Type} [BEq k] [LawfulBEq k]
    (m : List (k × a)) (key : k) (v : a) : mget (mset m key v) key = some v := by
  induction m with
  | nil => simp [mset, mget]
  | cons e m ih =>
    by_cases h : e.1 == key
    · simp [mset, mget, h]
    · simp only [mset, h]
      simp only [Bool.false_eq_true, if_false]
      simp [mget, h, ih]

theorem mget_mset_ne {k : Type} {a : Type} [BEq k] [LawfulBEq k]
    (m : List (k × a)) (key key2 : k) (v : a) (hne : key2 ≠ key) :
    mget (mset m key v) key2 = mget m key2 := by
  induction m with
  | nil =>
    simp only [mset, mget]
    have : (key == key2) = false := by
      simp only [beq_eq_false_iff_ne, ne_eq]
      exact fun h => hne h.symm
    simp [this]
  | cons e m ih =>
    by_cases h : e.1 == key
    · have h1 : e.1 = key := by exact eq_of_beq h
      simp only [mset, h, if_true]
      have h2 : (key == key2) = false := by
        simp only [beq_eq_false_iff_ne, ne_eq]
        exact fun h => hne h.symm
      have h3 : (e.1 == key2) = false := by
        rw [h1]; exact h2
      simp [mget, h2, h3]
    · simp only [mset, h]
      simp only [Bool.false_eq_true, if_false]
      simp [mget, ih]

theorem mget_isSome_mset {k : Type} {a : Type} [BEq k] [LawfulBEq k]
    (m : List (k × a)) (key key2 : k) (v : a) (h : (mget m key2).isSome) :
    (mget (mset m key v) key2).isSome := by
  by_cases he : key2 = key
  · subst he; simp [mget_mset_self]
  · rwa [mget_mset_ne m key key2 v he]

theorem mem_enumP {a : Type} {l : List a} {n : Nat} {x : Nat × a} :
    x ∈ enumP n l ↔ ∃ k, x.1 = n + k ∧ l[k]? = some x.2 := by
  induction l generalizing n with
  | nil => simp [enumP]
  | cons hd tl ih =>
    simp only [enumP, List.mem_cons, ih]
    constructor
    · rintro (rfl | ⟨k, hk, hget⟩)
      · exact ⟨0, by simp, by simp⟩
      · exact ⟨k + 1, by omega, by simpa using hget⟩
    · rintro ⟨k, hk, hget⟩
      cases k with
      | zero =>
        left
        simp only [List.getElem?_cons_zero, Option.some.injEq] at hget
        obtain ⟨x1, x2⟩ := x
        simp only at hk hget
        simp [hk, hget.symm]
      | succ k =>
        right
        exact ⟨k, by omega, by simpa using hget⟩

theorem enumP_unique {a : Type} {l : List a} {n i : Nat} {x y : a}
    (hx : (i, x) ∈ enumP n l) (hy : (i, y) ∈ enumP n l) : x = y := by
  rw [mem_enumP] at hx hy
  obtain ⟨k1, hk1, hg1⟩ := hx
  obtain ⟨k2, hk2, hg2⟩ := hy
  simp only at hk1 hk2 hg1 hg2
  have : k1 = k2 := by omega
  subst this
  rw [hg1] at hg2
  exact (Option.some.injEq _ _).mp hg2

theorem enumP_map_snd {a : Type} (l : List a) (n : Nat) :
    (enumP n l).map Prod.snd = l := by
  induction l generalizing n with
  | nil => simp [enumP]
  | cons hd tl ih => simp [enumP, ih]

theorem enumP_fst_nodup {a : Type} (l : List a) (n : Nat) :
    ((enumP n l).map Prod.fst).Nodup := by
  induction l generalizing n with
  | nil => simp [enumP]
  | cons hd tl ih =>
    simp only [enumP, List.map_cons, List.nodup_cons]
    refine ⟨?_, ih (n + 1)⟩
    intro hmem
    simp only [List.mem_map] at hmem
    obtain ⟨x, hx, hfst⟩ := hmem
    rw [mem_enumP] at hx
    obtain ⟨k, hk, _⟩ := hx
    omega

theorem enumP_nodup {a : Type} (l : List a) (n : Nat) : (enumP n l).Nodup :=
  (enumP_fst_nodup l n).of_map

theorem enumP_filterMap_some {a : Type} (l : List a) (n : Nat) :
    ((enumP n l).filterMap fun x => some x.2) = l := by
  induction l generalizing n with
  | nil => simp [enumP]
  | cons hd tl ih => simp [enumP, ih]

theorem mem_enumParts {msgs : List ChatMessage} {x : PartPos × ChatMessagePart} :
    x ∈ enumParts msgs ↔
      ∃ m, msgs[x.1.1]? = some m ∧ m.parts[x.1.2]? = some x.2 := by
  unfold enumParts
  simp only [List.mem_flatMap, List.mem_map]
  constructor
  · rintro ⟨im, him, jp, hjp, hx⟩
    rw [mem_enumP] at him hjp
    obtain ⟨k1, hk1, hg1⟩ := him
    obtain ⟨k2, hk2, hg2⟩ := hjp
    refine ⟨im.2, ?_, ?_⟩
    · rw [← hx]
      simpa [hk1] using hg1
    · rw [← hx]
      simpa [hk2] using hg2
  · rintro ⟨m, hm, hp⟩
    refine ⟨(x.1.1, m), ?_, (x.1.2, x.2), ?_, by simp⟩
    · rw [mem_enumP]
      exact ⟨x.1.1, by simp, hm⟩
    · rw [mem_enumP]
      exact ⟨x.1.2, by simp, hp⟩

theorem enumParts_unique {msgs : List ChatMessage} {pos : PartPos}
    {p q : ChatMessagePart} (hp : (pos, p) ∈ enumParts msgs)
    (hq : (pos, q) ∈ enumParts msgs) : p = q := by
  rw [mem_enumParts] at hp hq
  obtain ⟨m1, hm1, hp1⟩ := hp
  obtain ⟨m2, hm2, hp2⟩ := hq
  simp only at hm1 hm2 hp1 hp2
  rw [hm1] at hm2
  cases hm2
  rw [hp1] at hp2
  exact (Option.some.injEq _ _).mp hp2

theorem enumP_fst_ge {a : Type} {l : List a} {n : Nat} {x : Nat × a}
    (h : x ∈ enumP n l) : n ≤ x.1 := by
  rw [mem_enumP] at h
  obtain ⟨k, hk, _⟩ := h
  omega

theorem enumPartsAux_fst_nodup (msgs : List ChatMessage) (n : Nat) :
    ((((enumP n msgs).flatMap fun im =>
      (enumP 0 im.2.parts).map fun jp => ((im.1, jp.1), jp.2))).map Prod.fst).Nodup := by
  induction msgs generalizing n with
  | nil => simp [enumP]
  | cons m ms ih =>
    simp only [enumP, List.flatMap_cons, List.map_append]
    rw [List.nodup_append]
    refine ⟨?_, ih (n + 1), ?_⟩
    · rw [List.map_map]
      have : (Prod.fst ∘ fun jp : Nat × ChatMessagePart => ((n, jp.1), jp.2)) =
          (fun j : Nat => (n, j)) ∘ Prod.fst := by
        funext jp; rfl
      rw [this, ← List.map_map]
      apply List.Nodup.map
      · intro a b hab
        exact (Prod.mk.injEq _ _ _ _).mp hab |>.2
      · exact enumP_fst_nodup m.parts 0
    · intro x hx hy
      obtain ⟨y, hymem, hyeq⟩ := List.mem_map.mp hx
      obtain ⟨a, _, haeq⟩ := List.mem_map.mp hymem
      have h1 : x.1 = n := by rw [← hyeq, ← haeq]
      obtain ⟨z, hzmem, hzeq⟩ := List.mem_map.mp hy
      obtain ⟨im, him, hzim⟩ := List.mem_flatMap.mp hzmem
      obtain ⟨b, _, hbeq⟩ := List.mem_map.mp hzim
      have h2 : n + 1 ≤ x.1 := by
        have := enumP_fst_ge him
        rw [← hzeq, ← hbeq]
        simpa using this
      omega

theorem enumParts_nodup (msgs : List ChatMessage) : (enumParts msgs).Nodup :=
  (enumPartsAux_fst_nodup msgs 0).of_map

theorem allParts_eq_aux (msgs : List ChatMessage) (n : Nat) :
    (((enumP n msgs).flatMap fun im =>
      (enumP 0 im.2.parts).map fun jp => ((im.1, jp.1), jp.2)).map fun x => x.2) =
      msgs.flatMap fun m => m.parts := by
  induction msgs generalizing n with
  | nil => simp [enumP]
  | cons m ms ih =>
    simp only [enumP, List.flatMap_cons, List.map_append, List.map_map]
    congr 1
    · have : ((fun x : PartPos × ChatMessagePart => x.2) ∘
          fun jp : Nat × ChatMessagePart => ((n, jp.1), jp.2)) = Prod.snd := by
        funext jp; rfl
      rw [this, enumP_map_snd]
    · exact ih (n + 1)

theorem allParts_eq_map_enumParts (msgs : List ChatMessage) :
    allParts msgs = (enumParts msgs).map fun x => x.2 :=
  (allParts_eq_aux msgs 0).symm

theorem filter_filterMap_my {a b : Type} (l : List a) (g : a → Option b) (pred : b → Bool) :
    (l.filterMap g).filter pred = l.filterMap fun x => optGuard pred (g x) := by
  induction l with
  | nil => simp
  | cons hd tl ih =>
    simp only [List.filterMap_cons]
    cases hg : g hd with
    | none => simpa [hg, optGuard] using ih
    | some y =>
      by_cases hy : pred y
      · simp only [List.filter_cons, hy, if_true, hg, optGuard]
        exact congrArg (y :: ·) ih
      · simp only [List.filter_cons, hy, hg, optGuard]
        simpa using ih

theorem filterMap_eq_nil_my {a b : Type} {l : List a} {g : a → Option b}
    (h : ∀ x ∈ l, g x = none) : l.filterMap g = [] := by
  induction l with
  | nil => rfl
  | cons hd tl ih =>
    rw [List.filterMap_cons, h hd (List.mem_cons_self hd tl)]
    exact ih fun x hx => h x (List.mem_cons_of_mem hd hx)

theorem filterMap_eq_self_my {a : Type} {l : List a} {g : a → Option a}
    (h : ∀ x ∈ l, g x = some x) : l.filterMap g = l := by
  induction l with
  | nil => rfl
  | cons hd tl ih =>
    rw [List.filterMap_cons, h hd (List.mem_cons_self hd tl)]
    exact congrArg (hd :: ·) (ih fun x hx => h x (List.mem_cons_of_mem hd hx))

theorem filterMap_singleton_my {a b : Type} [DecidableEq a] {l : List a}
    {g : a → Option b} {x0 : a} {y0 : b} (hnd : l.Nodup) (hmem : x0 ∈ l)
    (h : ∀ x ∈ l, g x = if x = x0 then some y0 else none) :
    l.filterMap g = [y0] := by
  induction l with
  | nil => cases hmem
  | cons hd tl ih =>
    rw [List.nodup_cons] at hnd
    by_cases hcase : hd = x0
    · rw [List.filterMap_cons, h hd (List.mem_cons_self hd tl)]
      simp only [if_pos hcase]
      have : tl.filterMap g = [] := by
        apply filterMap_eq_nil_my
        intro x hx
        rw [h x (List.mem_cons_of_mem hd hx)]
        have hne : x ≠ x0 := by
          intro hxe
          exact hnd.1 (by rw [← hcase] at hxe; exact hxe ▸ hx)
        simp [hne]
      rw [this]
    · rw [List.filterMap_cons, h hd (List.mem_cons_self hd tl)]
      simp only [hcase, if_false]
      have hmem2 : x0 ∈ tl := by
        rcases List.mem_cons.mp hmem with he | hm
        · exact absurd he.symm hcase
        · exact hm
      exact ih hnd.2 hmem2 fun x hx => h x (List.mem_cons_of_mem hd hx)

theorem filterMap_sublist_of_none_or_self {a : Type} {l : List a} {g : a → Option a}
    (h : ∀ x ∈ l, g x = none ∨ g x = some x) : (l.filterMap g).Sublist l := by
  induction l with
  | nil => simp
  | cons hd tl ih =>
    rw [List.filterMap_cons]
    rcases h hd (List.mem_cons_self hd tl) with hh | hh
    · rw [hh]
      exact (ih fun x hx => h x (List.mem_cons_of_mem hd hx)).cons hd
    · rw [hh]
      exact (ih fun x hx => h x (List.mem_cons_of_mem hd hx)).cons₂ hd

theorem filter_sublist_filterMap_enum {a : Type} (pred : a → Bool)
    (h : Nat → a → Option a) :
    ∀ (l : List a) (n : Nat),
    (∀ j x, l[j]? = some x → pred x = true → h (n + j) x = some x) →
    (l.filter pred).Sublist ((enumP n l).filterMap fun jp => h jp.1 jp.2) := by
  intro l
  induction l with
  | nil => simp [enumP]
  | cons hd tl ih =>
    intro n hp
    have htl : ∀ j x, tl[j]? = some x → pred x = true → h (n + 1 + j) x = some x := by
      intro j x hj hx
      have := hp (j + 1) x (by simpa using hj) hx
      have harith : n + (j + 1) = n + 1 + j := by omega
      rwa [harith] at this
    simp only [enumP, List.filterMap_cons]
    by_cases hh : pred hd
    · have : h n hd = some hd := by
        have := hp 0 hd (by simp) hh
        simpa using this
      rw [List.filter_cons_of_pos hh, this]
      exact (ih (n + 1) htl).cons₂ hd
    · rw [List.filter_cons_of_neg (by simpa using hh)]
      cases hcase : h n hd with
      | none => exact ih (n + 1) htl
      | some y => exact (ih (n + 1) htl).cons y

theorem filterMap_if_filter {a : Type} (pred : a → Bool) :
    ∀ (l : List a), (l.filterMap fun x => if pred x then some x else none) = l.filter pred := by
  intro l
  induction l with
  | nil => rfl
  | cons hd tl ih =>
    rw [List.filterMap_cons]
    by_cases hh : pred hd
    · simp only [hh, if_true]
      rw [List.filter_cons_of_pos hh]
      exact congrArg (hd :: ·) ih
    · simp only [hh, if_false]
      rw [List.filter_cons_of_neg (by simpa using hh)]
      exact ih

/-! ## Claim C7 — delta non-accumulation -/

/-- C7: recording pass B after pass A stores B's delta alone — the stored
`SessionTokenStats` after the second `record` has `total` and `lastStep`
equal to B's `StepTokenDelta`, never a sum with A's. -/
theorem claim_C7_delta_non_accumulation (m : List (String × SessionTokenStats))
    (sid : String) (dA dB : StepTokenDelta) (nowA nowB : Nat) :
    ∃ s, trackerGet (trackerRecord (trackerRecord m sid dA nowA).2 sid dB nowB).2 sid = some s ∧
      s.total = dB ∧ s.lastStep = dB := by
  unfold trackerGet trackerRecord
  exact ⟨_, mget_mset_self _ _ _, rfl, rfl⟩

/-! ## Claim C9 — extension matching and letter case -/

/-- C9 counterexample: the claim asserts case-insensitivity in both
directions, but a lower-case path extension never matches an upper-case
configured extension — `matchesExtension "a.md" [".MD"]` is `false` (while
the claimed symmetric direction `"a.MD"` vs `".md"` does match). -/
theorem claim_C9_counterexample :
    matchesExtension "a.md" [".MD"] = false ∧ matchesExtension "a.MD" [".md"] = true := by
  decide

/-- C9 (amended): the extension check lowercases only the path's
extension and compares it verbatim against the configured list: any path
whose lowercased extension equals a configured entry is matched, so a
configured lower-case extension is matched case-insensitively; a
configured non-lowercase entry is never produced by the comparison. -/
theorem claim_C9_extension_lowercase (p : String) (exts : List String) (e : String)
    (he : e ∈ exts) (hmatch : String.mk (chToLower (pathExtnameL p.toList)) = e)
    (hne : pathExtnameL p.toList ≠ []) :
    matchesExtension p exts = true := by
  unfold matchesExtension
  have hnemk : String.mk (chToLower (pathExtnameL p.toList)) ≠ "" := by
    intro hcon
    apply hne
    have : chToLower (pathExtnameL p.toList) = [] := by
      have := congrArg String.toList hcon
      simpa using this
    unfold chToLower at this
    exact List.map_eq_nil_iff.mp this
  simp only [hmatch] at hnemk ⊢
  simp only [hnemk, if_false]
  have hc : exts.contains e = true := List.elem_eq_true_of_mem he
  rw [hc]
  simp

/-- C9 witness: the amended theorem applied at path `a.MD` against the
configured list `[".md"]`. -/
theorem claim_C9_extension_lowercase_witness :
    (".md" ∈ [".md"] ∧ String.mk (chToLower (pathExtnameL "a.MD".toList)) = ".md" ∧
      pathExtnameL "a.MD".toList ≠ []) ∧ matchesExtension "a.MD" [".md"] = true :=
  ⟨⟨by decide, by decide, by decide⟩,
    claim_C9_extension_lowercase "a.MD" [".md"] ".md" (by decide) (by decide) (by decide)⟩

/-! ## Claim C6 — the read/edit/read consolidation scenario -/

/-- C6: for a non-protected, non-invalidated file read, then edited with
snapshot `X`, then read again, consolidation keeps the chronologically
last read as the sole keeper (its own output is the latest snapshot here,
so it is left as is), drops the earlier read and the edit, sums all three
original parts' token costs into the before totals, and counts only the
kept keeper in the after totals; a rewrite, when it happens, renders the
snapshot as zero-padded numbered lines with an end-of-file footer. -/
theorem claim_C6_read_edit_read_scenario :
    (cleanupMessagesForContextJar sampleEnv c6Msgs emptyConfig []).1 =
      [⟨"assistant", none, [.other "text" "hi", .tool c6Read2]⟩] ∧
    (cleanupMessagesForContextJar sampleEnv c6Msgs emptyConfig []).2 =
      { tokensBefore := toolPartTokens sampleEnv c6Read1 + toolPartTokens sampleEnv c6Edit +
          toolPartTokens sampleEnv c6Read2,
        tokensAfter := toolPartTokens sampleEnv c6Read2,
        readTokensBefore := toolPartTokens sampleEnv c6Read1 + toolPartTokens sampleEnv c6Read2,
        readTokensAfter := toolPartTokens sampleEnv c6Read2,
        editTokensBefore := toolPartTokens sampleEnv c6Edit,
        editTokensAfter := 0,
        invalidatedTokensBefore := 0,
        filesConsolidated := 1,
        filesInvalidated := 0 } ∧
    renderReadLikeOutput "X" = "<file>\n00001| X\n\n(End of file - total 1 lines)\n</file>" := by
  refine ⟨?_, ?_, by decide⟩
  · decide
  · decide

/-! ## Fold invariant machinery -/

theorem foldl_inv {a b : Type} {P : b → Prop} {Q : a → Prop} (step : b → a → b)
    (hstep : ∀ st x, Q x → P st → P (step st x)) :
    ∀ (l : List a) (st : b), (∀ x ∈ l, Q x) → P st → P (List.foldl step st l) := by
  intro l
  induction l with
  | nil => intro st _ h; exact h
  | cons hd tl ih =>
    intro st hq h
    exact ih _ (fun x hx => hq x (List.mem_cons_of_mem hd hx))
      (hstep st hd (hq hd (List.mem_cons_self hd tl)) h)

theorem foldl_mono {a b : Type} {P : b → Prop} (step : b → a → b)
    (hstep : ∀ st x, P st → P (step st x)) (l : List a) (st : b) (h : P st) :
    P (List.foldl step st l) :=
  foldl_inv step (fun st x _ => hstep st x) l st (fun _ _ => trivial) h

theorem foldl_reach {a b : Type} {P : b → Prop} (step : b → a → b)
    (hmono : ∀ st x, P st → P (step st x)) {x0 : a} (htrig : ∀ st, P (step st x0)) :
    ∀ (l : List a) (st : b), x0 ∈ l → P (List.foldl step st l) := by
  intro l
  induction l with
  | nil => intro st h; cases h
  | cons hd tl ih =>
    intro st hmem
    rcases List.mem_cons.mp hmem with rfl | hmem2
    · exact foldl_mono step hmono tl _ (htrig st)
    · exact ih _ hmem2

/-! ## Consolidation pass 1 (scan) step lemmas -/

section CleanupLemmas

variable (env : Env) (exts pats invalidatedFiles : List String) (root : Option String)

theorem p1step_history_mono (st : CleanupScan) (x : PartPos × ChatMessagePart) (f : String)
    (h : f ∈ st.filesWithHistory) :
    f ∈ (cleanupP1Step env exts pats invalidatedFiles root st x).filesWithHistory := by
  unfold cleanupP1Step
  repeat' split
  all_goals first | exact h | exact mem_sadd_of_mem h

theorem p1step_withRead_mono (st : CleanupScan) (x : PartPos × ChatMessagePart) (f : String)
    (h : f ∈ st.filesWithRead) :
    f ∈ (cleanupP1Step env exts pats invalidatedFiles root st x).filesWithRead := by
  unfold cleanupP1Step
  repeat' split
  all_goals first | exact h | exact mem_sadd_of_mem h

theorem p1step_lastRead_isSome_mono (st : CleanupScan) (x : PartPos × ChatMessagePart)
    (f : String) (h : (mget st.lastReadByFile f).isSome) :
    (mget (cleanupP1Step env exts pats invalidatedFiles root st x).lastReadByFile f).isSome := by
  unfold cleanupP1Step
  repeat' split
  all_goals first | exact h | exact mget_isSome_mset _ _ _ _ h

theorem p1step_history_trigger (st : CleanupScan) (pos : PartPos) (tp : ToolPart)
    (c : ToolStateCompletedData) (f : String)
    (hc : tp.state = .completed c) (hft : isFileTool tp.tool = true)
    (hex : extractPrimaryFilePath env tp root = some f)
    (hprot : isFileProtected f exts pats = false) :
    f ∈ (cleanupP1Step env exts pats invalidatedFiles root st
      (pos, .tool tp)).filesWithHistory := by
  unfold cleanupP1Step
  simp only [hc, hft, hex, hprot, if_true, Bool.false_eq_true, if_false]
  repeat' split
  all_goals exact self_mem_sadd

theorem p1step_withRead_trigger (st : CleanupScan) (pos : PartPos) (tp : ToolPart)
    (c : ToolStateCompletedData) (f : String)
    (hc : tp.state = .completed c) (hread : tp.tool = "read")
    (hex : extractPrimaryFilePath env tp root = some f)
    (hprot : isFileProtected f exts pats = false) :
    f ∈ (cleanupP1Step env exts pats invalidatedFiles root st
      (pos, .tool tp)).filesWithRead := by
  have hft : isFileTool tp.tool = true := by simp [isFileTool, hread]
  have hbeq : (tp.tool == "read") = true := by simp [hread]
  unfold cleanupP1Step
  simp only [hc, hft, hex, hprot, hbeq, if_true, Bool.false_eq_true, if_false]
  repeat' split
  all_goals exact self_mem_sadd

theorem p1step_lastRead_trigger (st : CleanupScan) (pos : PartPos) (tp : ToolPart)
    (c : ToolStateCompletedData) (f : String)
    (hc : tp.state = .completed c) (hread : tp.tool = "read") (hout : c.output ≠ "")
    (hex : extractPrimaryFilePath env tp root = some f)
    (hprot : isFileProtected f exts pats = false)
    (hinv : invalidatedFiles.contains f = false) :
    (mget (cleanupP1Step env exts pats invalidatedFiles root st
      (pos, .tool tp)).lastReadByFile f).isSome := by
  have hft : isFileTool tp.tool = true := by simp [isFileTool, hread]
  have hbeq : (tp.tool == "read") = true := by simp [hread]
  unfold cleanupP1Step
  simp only [hc, hft, hex, hprot, hbeq, hinv, hout, if_true, Bool.false_eq_true, if_false,
    ne_eq, not_false_iff]
  simp only [mget_mset_self, Option.isSome_some]

theorem p1step_history_sound (st : CleanupScan) (x : PartPos × ChatMessagePart) (f : String)
    (h : f ∈ (cleanupP1Step env exts pats invalidatedFiles root st x).filesWithHistory) :
    f ∈ st.filesWithHistory ∨
      (∃ tp c, x.2 = .tool tp ∧ tp.state = .completed c ∧ isFileTool tp.tool = true ∧
        extractPrimaryFilePath env tp root = some f ∧
        isFileProtected f exts pats = false) := by
  unfold cleanupP1Step at h
  obtain ⟨xpos, xpart⟩ := x
  cases xpart with
  | other k pl => exact Or.inl h
  | tool tp =>
    simp only at h
    cases hstate : tp.state with
    | pending i r => rw [hstate] at h; exact Or.inl h
    | running i => rw [hstate] at h; exact Or.inl h
    | error i e => rw [hstate] at h; exact Or.inl h
    | completed c =>
      rw [hstate] at h
      by_cases hft : isFileTool tp.tool = true
      swap
      · simp only [Bool.not_eq_true] at hft
        simp only [hft, Bool.false_eq_true, if_false] at h
        exact Or.inl h
      · simp only [hft, if_true] at h
        cases hex : extractPrimaryFilePath env tp root with
        | none => rw [hex] at h; exact Or.inl h
        | some fp =>
          rw [hex] at h
          cases hprot : isFileProtected fp exts pats with
          | true => simp only [hprot, if_true] at h; exact Or.inl h
          | false =>
            simp only [hprot, Bool.false_eq_true, if_false] at h
            repeat' split at h
            all_goals
              rcases mem_sadd.mp h with h2 | rfl
            all_goals
              first
              | exact Or.inl h2
              | exact Or.inr ⟨tp, c, rfl, hstate, hft, hex, hprot⟩

theorem p1step_lastRead_sound (st : CleanupScan) (x : PartPos × ChatMessagePart) (f : String)
    (pos : PartPos) (tp2 : ToolPart)
    (h : mget (cleanupP1Step env exts pats invalidatedFiles root st x).lastReadByFile f =
      some (pos, tp2)) :
    mget st.lastReadByFile f = some (pos, tp2) ∨
      (x.1 = pos ∧ x.2 = .tool tp2 ∧ tp2.tool = "read" ∧
        (∃ c, tp2.state = .completed c ∧ c.output ≠ "") ∧
        extractPrimaryFilePath env tp2 root = some f ∧
        isFileProtected f exts pats = false ∧
        invalidatedFiles.contains f = false) := by
  unfold cleanupP1Step at h
  obtain ⟨xpos, xpart⟩ := x
  cases xpart with
  | other k pl => exact Or.inl h
  | tool tp =>
    simp only at h
    cases hstate : tp.state with
    | pending i r => rw [hstate] at h; exact Or.inl h
    | running i => rw [hstate] at h; exact Or.inl h
    | error i e => rw [hstate] at h; exact Or.inl h
    | completed c =>
      rw [hstate] at h
      by_cases hft : isFileTool tp.tool = true
      swap
      · simp only [Bool.not_eq_true] at hft
        simp only [hft, Bool.false_eq_true, if_false] at h
        exact Or.inl h
      · simp only [hft, if_true] at h
        cases hex : extractPrimaryFilePath env tp root with
        | none => rw [hex] at h; exact Or.inl h
        | some fp =>
          rw [hex] at h
          cases hprot : isFileProtected fp exts pats with
          | true => simp only [hprot, if_true] at h; exact Or.inl h
          | false =>
            simp only [hprot, Bool.false_eq_true, if_false] at h
            cases hbr : (tp.tool == "read") with
            | false =>
              simp only [hbr, Bool.false_eq_true, if_false] at h
              repeat' split at h
              all_goals exact Or.inl h
            | true =>
              simp only [hbr, if_true] at h
              cases hinv : invalidatedFiles.contains fp with
              | true =>
                simp only [hinv, if_true] at h
                exact Or.inl h
              | false =>
                simp only [hinv, Bool.false_eq_true, if_false] at h
                by_cases hout : c.output = ""
                · simp only [hout, ne_eq, not_true_eq_false, Bool.false_eq_true, if_false] at h
                  exact Or.inl h
                · simp only [hout, ne_eq, not_false_iff, if_true] at h
                  by_cases hf : f = fp
                  · subst hf
                    rw [mget_mset_self] at h
                    obtain ⟨h1, h2⟩ := Prod.mk.injEq .. |>.mp (Option.some.injEq .. |>.mp h)
                    refine Or.inr ⟨h1, by rw [← h2], by rw [← h2]; exact eq_of_beq hbr,
                      ⟨c, by rw [← h2]; exact hstate, hout⟩, by rw [← h2]; exact hex, hprot, hinv⟩
                  · rw [mget_mset_ne _ _ _ _ hf] at h
                    exact Or.inl h

theorem scan_lastRead_sound (msgs : List ChatMessage) (f : String) (pos : PartPos)
    (tp : ToolPart)
    (h : mget (cleanupScan env exts pats invalidatedFiles root msgs).lastReadByFile f =
      some (pos, tp)) :
    ((pos, ChatMessagePart.tool tp) ∈ enumParts msgs) ∧ tp.tool = "read" ∧
      (∃ c, tp.state = .completed c ∧ c.output ≠ "") ∧
      extractPrimaryFilePath env tp root = some f ∧
      isFileProtected f exts pats = false ∧ invalidatedFiles.contains f = false := by
  refine foldl_inv (P := fun st => ∀ f pos tp,
      mget st.lastReadByFile f = some (pos, tp) →
      ((pos, ChatMessagePart.tool tp) ∈ enumParts msgs) ∧ tp.tool = "read" ∧
        (∃ c, tp.state = .completed c ∧ c.output ≠ "") ∧
        extractPrimaryFilePath env tp root = some f ∧
        isFileProtected f exts pats = false ∧ invalidatedFiles.contains f = false)
    (Q := fun x => x ∈ enumParts msgs)
    (cleanupP1Step env exts pats invalidatedFiles root)
    ?_ (enumParts msgs) ⟨[], [], [], []⟩ (fun x hx => hx) ?_ f pos tp h
  · intro st x hQ hP f2 pos2 tp2 h2
    rcases p1step_lastRead_sound env exts pats invalidatedFiles root st x f2 pos2 tp2 h2 with
      hold | ⟨hx1, hx2, hrest⟩
    · exact hP f2 pos2 tp2 hold
    · refine ⟨?_, hrest⟩
      obtain ⟨px, qx⟩ := x
      simp only at hx1 hx2
      rw [← hx1, ← hx2]
      exact hQ
  · intro f2 pos2 tp2 h2
    simp [mget] at h2

theorem scan_history_sound (msgs : List ChatMessage) (f : String)
    (h : f ∈ (cleanupScan env exts pats invalidatedFiles root msgs).filesWithHistory) :
    isFileProtected f exts pats = false ∧
      ∃ pos tp c, ((pos, ChatMessagePart.tool tp) ∈ enumParts msgs) ∧
        tp.state = .completed c ∧ isFileTool tp.tool = true ∧
        extractPrimaryFilePath env tp root = some f := by
  refine foldl_inv (P := fun st => ∀ f, f ∈ st.filesWithHistory →
      isFileProtected f exts pats = false ∧
        ∃ pos tp c, ((pos, ChatMessagePart.tool tp) ∈ enumParts msgs) ∧
          tp.state = .completed c ∧ isFileTool tp.tool = true ∧
          extractPrimaryFilePath env tp root = some f)
    (Q := fun x => x ∈ enumParts msgs)
    (cleanupP1Step env exts pats invalidatedFiles root)
    ?_ (enumParts msgs) ⟨[], [], [], []⟩ (fun x hx => hx) ?_ f h
  · intro st x hQ hP f2 h2
    rcases p1step_history_sound env exts pats invalidatedFiles root st x f2 h2 with
      hold | ⟨tp, c, hx2, hstate, hft, hex, hprot⟩
    · exact hP f2 hold
    · refine ⟨hprot, x.1, tp, c, ?_, hstate, hft, hex⟩
      obtain ⟨px, qx⟩ := x
      simp only at hx2 ⊢
      rw [← hx2]
      exact hQ
  · intro f2 h2
    cases h2

theorem scan_history_complete (msgs : List ChatMessage) (f : String) (pos : PartPos)
    (tp : ToolPart) (c : ToolStateCompletedData)
    (hmem : (pos, ChatMessagePart.tool tp) ∈ enumParts msgs)
    (hc : tp.state = .completed c) (hft : isFileTool tp.tool = true)
    (hex : extractPrimaryFilePath env tp root = some f)
    (hprot : isFileProtected f exts pats = false) :
    f ∈ (cleanupScan env exts pats invalidatedFiles root msgs).filesWithHistory :=
  foldl_reach (cleanupP1Step env exts pats invalidatedFiles root)
    (fun st x h => p1step_history_mono env exts pats invalidatedFiles root st x f h)
    (fun st => p1step_history_trigger env exts pats invalidatedFiles root st pos tp c f
      hc hft hex hprot)
    (enumParts msgs) ⟨[], [], [], []⟩ hmem

theorem scan_withRead_complete (msgs : List ChatMessage) (f : String) (pos : PartPos)
    (tp : ToolPart) (c : ToolStateCompletedData)
    (hmem : (pos, ChatMessagePart.tool tp) ∈ enumParts msgs)
    (hc : tp.state = .completed c) (hread : tp.tool = "read")
    (hex : extractPrimaryFilePath env tp root = some f)
    (hprot : isFileProtected f exts pats = false) :
    f ∈ (cleanupScan env exts pats invalidatedFiles root msgs).filesWithRead :=
  foldl_reach (cleanupP1Step env exts pats invalidatedFiles root)
    (fun st x h => p1step_withRead_mono env exts pats invalidatedFiles root st x f h)
    (fun st => p1step_withRead_trigger env exts pats invalidatedFiles root st pos tp c f
      hc hread hex hprot)
    (enumParts msgs) ⟨[], [], [], []⟩ hmem

theorem scan_lastRead_complete (msgs : List ChatMessage) (f : String) (pos : PartPos)
    (tp : ToolPart) (c : ToolStateCompletedData)
    (hmem : (pos, ChatMessagePart.tool tp) ∈ enumParts msgs)
    (hc : tp.state = .completed c) (hread : tp.tool = "read") (hout : c.output ≠ "")
    (hex : extractPrimaryFilePath env tp root = some f)
    (hprot : isFileProtected f exts pats = false)
    (hinv : invalidatedFiles.contains f = false) :
    (mget (cleanupScan env exts pats invalidatedFiles root msgs).lastReadByFile f).isSome :=
  foldl_reach (cleanupP1Step env exts pats invalidatedFiles root)
    (fun st x h => p1step_lastRead_isSome_mono env exts pats invalidatedFiles root st x f h)
    (fun st => p1step_lastRead_trigger env exts pats invalidatedFiles root st pos tp c f
      hc hread hout hex hprot hinv)
    (enumParts msgs) ⟨[], [], [], []⟩ hmem

/-! ### Pass 2 (plan) lemmas -/

theorem p2step_keep_mono (scan : CleanupScan) (st : CleanupPlan) (g : String) (cid : String)
    (h : cid ∈ st.keepCallIDs) :
    cid ∈ (cleanupP2Step scan invalidatedFiles st g).keepCallIDs := by
  unfold cleanupP2Step
  repeat' split
  all_goals first | exact h | exact mem_sadd_of_mem h

theorem p2step_cons_mono (scan : CleanupScan) (st : CleanupPlan) (g : String) (f : String)
    (h : f ∈ st.filesToConsolidate) :
    f ∈ (cleanupP2Step scan invalidatedFiles st g).filesToConsolidate := by
  unfold cleanupP2Step
  repeat' split
  all_goals first | exact h | exact mem_sadd_of_mem h

theorem p2step_rewrites_isSome_mono (scan : CleanupScan) (st : CleanupPlan) (g : String)
    (pos : PartPos) (h : (mget st.rewrites pos).isSome) :
    (mget (cleanupP2Step scan invalidatedFiles st g).rewrites pos).isSome := by
  unfold cleanupP2Step
  repeat' split
  all_goals first | exact h | exact mget_isSome_mset _ _ _ _ h

theorem p2step_trigger (scan : CleanupScan) (st : CleanupPlan) (f : String) (pos : PartPos)
    (tp : ToolPart) (hinv : invalidatedFiles.contains f = false)
    (hlr : mget scan.lastReadByFile f = some (pos, tp)) :
    f ∈ (cleanupP2Step scan invalidatedFiles st f).filesToConsolidate ∧
      (tp.callID.getD "") ∈ (cleanupP2Step scan invalidatedFiles st f).keepCallIDs ∧
      (mget (cleanupP2Step scan invalidatedFiles st f).rewrites pos).isSome := by
  unfold cleanupP2Step
  simp only [hinv, Bool.false_eq_true, if_false, hlr]
  exact ⟨self_mem_sadd, self_mem_sadd, by rw [mget_mset_self]; rfl⟩

theorem p2step_keep_sound (scan : CleanupScan) (st : CleanupPlan) (g : String) (cid : String)
    (h : cid ∈ (cleanupP2Step scan invalidatedFiles st g).keepCallIDs) :
    cid ∈ st.keepCallIDs ∨
      ∃ pos tp, mget scan.lastReadByFile g = some (pos, tp) ∧ cid = tp.callID.getD "" := by
  unfold cleanupP2Step at h
  cases hinv : invalidatedFiles.contains g with
  | true => simp only [hinv, if_true] at h; exact Or.inl h
  | false =>
    simp only [hinv, Bool.false_eq_true, if_false] at h
    cases hlr : mget scan.lastReadByFile g with
    | none => rw [hlr] at h; exact Or.inl h
    | some e =>
      rw [hlr] at h
      obtain ⟨pos, tp⟩ := e
      rcases mem_sadd.mp h with h2 | rfl
      · exact Or.inl h2
      · exact Or.inr ⟨pos, tp, rfl, rfl⟩

theorem p2step_cons_sound (scan : CleanupScan) (st : CleanupPlan) (g : String) (f : String)
    (h : f ∈ (cleanupP2Step scan invalidatedFiles st g).filesToConsolidate) :
    f ∈ st.filesToConsolidate ∨
      (f = g ∧ invalidatedFiles.contains f = false ∧
        ∃ pos tp, mget scan.lastReadByFile f = some (pos, tp)) := by
  unfold cleanupP2Step at h
  cases hinv : invalidatedFiles.contains g with
  | true => simp only [hinv, if_true] at h; exact Or.inl h
  | false =>
    simp only [hinv, Bool.false_eq_true, if_false] at h
    cases hlr : mget scan.lastReadByFile g with
    | none => rw [hlr] at h; exact Or.inl h
    | some e =>
      rw [hlr] at h
      obtain ⟨pos, tp⟩ := e
      rcases mem_sadd.mp h with h2 | rfl
      · exact Or.inl h2
      · exact Or.inr ⟨rfl, hinv, pos, tp, hlr⟩

theorem p2step_rewrites_inv (scan : CleanupScan) (st : CleanupPlan) (g : String)
    (hP : ∀ pos tp2, mget st.rewrites pos = some tp2 →
      ∃ h tp, mget scan.lastReadByFile h = some (pos, tp) ∧
        tp2 = rewriteKeeper h (mget scan.latestByFile h) tp ∧ h ∈ st.filesToConsolidate) :
    ∀ pos tp2, mget (cleanupP2Step scan invalidatedFiles st g).rewrites pos = some tp2 →
      ∃ h tp, mget scan.lastReadByFile h = some (pos, tp) ∧
        tp2 = rewriteKeeper h (mget scan.latestByFile h) tp ∧
        h ∈ (cleanupP2Step scan invalidatedFiles st g).filesToConsolidate := by
  intro pos tp2 h
  have hmono := p2step_cons_mono invalidatedFiles scan st g
  unfold cleanupP2Step at h ⊢
  cases hinv : invalidatedFiles.contains g with
  | true =>
    simp only [hinv, if_true] at h ⊢
    obtain ⟨h2, tp, ha, hb, hc⟩ := hP pos tp2 h
    exact ⟨h2, tp, ha, hb, hc⟩
  | false =>
    simp only [hinv, Bool.false_eq_true, if_false] at h ⊢
    cases hlr : mget scan.lastReadByFile g with
    | none =>
      rw [hlr] at h
      obtain ⟨h2, tp, ha, hb, hc⟩ := hP pos tp2 h
      exact ⟨h2, tp, ha, hb, hc⟩
    | some e =>
      rw [hlr] at h
      obtain ⟨pos0, tp0⟩ := e
      by_cases hpos : pos = pos0
      · subst hpos
        rw [mget_mset_self] at h
        refine ⟨g, tp0, hlr, (Option.some.injEq .. |>.mp h).symm, self_mem_sadd⟩
      · rw [mget_mset_ne _ _ _ _ hpos] at h
        obtain ⟨h2, tp, ha, hb, hc⟩ := hP pos tp2 h
        exact ⟨h2, tp, ha, hb, mem_sadd_of_mem hc⟩

theorem plan_keep_sound (scan : CleanupScan) (cid : String)
    (h : cid ∈ (cleanupPlanOf scan invalidatedFiles).keepCallIDs) :
    ∃ g pos tp, mget scan.lastReadByFile g = some (pos, tp) ∧ cid = tp.callID.getD "" := by
  refine foldl_inv (P := fun st => ∀ cid ∈ st.keepCallIDs,
      ∃ g pos tp, mget scan.lastReadByFile g = some (pos, tp) ∧ cid = tp.callID.getD "")
    (Q := fun _ => True) (cleanupP2Step scan invalidatedFiles) ?_
    scan.filesWithRead ⟨emptyDelta, [], [], []⟩ (fun _ _ => trivial) ?_ cid h
  · intro st g _ hP cid2 h2
    rcases p2step_keep_sound invalidatedFiles scan st g cid2 h2 with hold | ⟨pos, tp, ha, hb⟩
    · exact hP cid2 hold
    · exact ⟨g, pos, tp, ha, hb⟩
  · intro cid2 h2
    cases h2

theorem plan_cons_sound (scan : CleanupScan) (f : String)
    (h : f ∈ (cleanupPlanOf scan invalidatedFiles).filesToConsolidate) :
    invalidatedFiles.contains f = false ∧
      ∃ pos tp, mget scan.lastReadByFile f = some (pos, tp) := by
  refine foldl_inv (P := fun st => ∀ f ∈ st.filesToConsolidate,
      invalidatedFiles.contains f = false ∧
        ∃ pos tp, mget scan.lastReadByFile f = some (pos, tp))
    (Q := fun _ => True) (cleanupP2Step scan invalidatedFiles) ?_
    scan.filesWithRead ⟨emptyDelta, [], [], []⟩ (fun _ _ => trivial) ?_ f h
  · intro st g _ hP f2 h2
    rcases p2step_cons_sound invalidatedFiles scan st g f2 h2 with hold | ⟨rfl, ha, hb⟩
    · exact hP f2 hold
    · exact ⟨ha, hb⟩
  · intro f2 h2
    cases h2

theorem plan_rewrites_sound (scan : CleanupScan) (pos : PartPos) (tp2 : ToolPart)
    (h : mget (cleanupPlanOf scan invalidatedFiles).rewrites pos = some tp2) :
    ∃ g tp, mget scan.lastReadByFile g = some (pos, tp) ∧
      tp2 = rewriteKeeper g (mget scan.latestByFile g) tp ∧
      g ∈ (cleanupPlanOf scan invalidatedFiles).filesToConsolidate := by
  refine foldl_inv (P := fun st => ∀ pos tp2, mget st.rewrites pos = some tp2 →
      ∃ g tp, mget scan.lastReadByFile g = some (pos, tp) ∧
        tp2 = rewriteKeeper g (mget scan.latestByFile g) tp ∧ g ∈ st.filesToConsolidate)
    (Q := fun _ => True) (cleanupP2Step scan invalidatedFiles) ?_
    scan.filesWithRead ⟨emptyDelta, [], [], []⟩ (fun _ _ => trivial) ?_ pos tp2 h
  · intro st g _ hP
    exact p2step_rewrites_inv invalidatedFiles scan st g hP
  · intro pos2 tp3 h2
    simp [mget] at h2

theorem plan_complete (scan : CleanupScan) (f : String) (pos : PartPos) (tp : ToolPart)
    (hmem : f ∈ scan.filesWithRead) (hinv : invalidatedFiles.contains f = false)
    (hlr : mget scan.lastReadByFile f = some (pos, tp)) :
    f ∈ (cleanupPlanOf scan invalidatedFiles).filesToConsolidate ∧
      (tp.callID.getD "") ∈ (cleanupPlanOf scan invalidatedFiles).keepCallIDs ∧
      (mget (cleanupPlanOf scan invalidatedFiles).rewrites pos).isSome := by
  unfold cleanupPlanOf
  exact foldl_reach
    (P := fun st => f ∈ st.filesToConsolidate ∧
      (tp.callID.getD "") ∈ st.keepCallIDs ∧ (mget st.rewrites pos).isSome = true)
    (cleanupP2Step scan invalidatedFiles)
    (fun st g hP => ⟨p2step_cons_mono invalidatedFiles scan st g f hP.1,
      p2step_keep_mono invalidatedFiles scan st g _ hP.2.1,
      p2step_rewrites_isSome_mono invalidatedFiles scan st g pos hP.2.2⟩)
    (fun st => p2step_trigger invalidatedFiles scan st f pos tp hinv hlr)
    scan.filesWithRead ⟨emptyDelta, [], [], []⟩ hmem

/-! ### Keeper rewrite and pass 3 shape lemmas -/

theorem rewriteKeeper_callID (f : String) (latest : Option LatestContent) (tp : ToolPart) :
    (rewriteKeeper f latest tp).callID = tp.callID := by
  unfold rewriteKeeper
  cases tp.state <;> rfl

theorem rewriteKeeper_tool (f : String) (latest : Option LatestContent) (tp : ToolPart) :
    (rewriteKeeper f latest tp).tool = tp.tool := by
  unfold rewriteKeeper
  cases tp.state <;> rfl

theorem rewriteKeeper_completed (f : String) (latest : Option LatestContent) (tp : ToolPart)
    (c : ToolStateCompletedData) (hc : tp.state = .completed c) :
    ∃ c2, (rewriteKeeper f latest tp).state = .completed c2 ∧
      c2.input = { c.input with filePath := some f } := by
  unfold rewriteKeeper
  rw [hc]
  exact ⟨_, rfl, rfl⟩

theorem extract_rewriteKeeper (f : String) (latest : Option LatestContent) (tp : ToolPart)
    (c : ToolStateCompletedData) (hc : tp.state = .completed c) :
    extractPrimaryFilePath env (rewriteKeeper f latest tp) root =
      normalizeFilePath env (some f) root := by
  unfold rewriteKeeper
  rw [hc]
  unfold extractPrimaryFilePath ToolState.inputOf
  rfl

theorem p3keep_none_or_effective (scan : CleanupScan) (plan : CleanupPlan) (pos : PartPos)
    (p q : ChatMessagePart)
    (h : cleanupP3Keep env exts pats invalidatedFiles root scan plan pos p = some q) :
    q = cleanupEffectivePart plan.rewrites pos p := by
  unfold cleanupP3Keep at h
  generalize cleanupEffectivePart plan.rewrites pos p = e at h ⊢
  dsimp only [] at h
  repeat' split at h
  all_goals try cases h
  all_goals rfl

theorem cleanup_out_eq (msgs : List ChatMessage) (config : WhitelistConfig)
    (hne : (cleanupScan env (protectedExtensionsOf config) (protectedPatternsOf config)
      invalidatedFiles (inferWorktreeRoot msgs) msgs).filesWithHistory.isEmpty = false)
    (hroot : root = inferWorktreeRoot msgs)
    (hexts : exts = protectedExtensionsOf config) (hpats : pats = protectedPatternsOf config) :
    (cleanupMessagesForContextJar env msgs config invalidatedFiles).1 =
      (enumP 0 msgs).map (fun im : Nat × ChatMessage =>
        { im.2 with parts := (enumP 0 im.2.parts).filterMap (fun jp : Nat × ChatMessagePart =>
            cleanupP3Keep env exts pats invalidatedFiles root
              (cleanupScan env exts pats invalidatedFiles root msgs)
              (cleanupPlanOf (cleanupScan env exts pats invalidatedFiles root msgs)
                invalidatedFiles)
              (im.1, jp.1) jp.2) }) := by
  subst hroot hexts hpats
  unfold cleanupMessagesForContextJar
  simp only [hne, Bool.false_eq_true, if_false]

theorem cleanup_out_early (msgs : List ChatMessage) (config : WhitelistConfig)
    (hne : (cleanupScan env (protectedExtensionsOf config) (protectedPatternsOf config)
      invalidatedFiles (inferWorktreeRoot msgs) msgs).filesWithHistory.isEmpty = true) :
    (cleanupMessagesForContextJar env msgs config invalidatedFiles).1 = msgs := by
  unfold cleanupMessagesForContextJar
  simp only [hne, if_true]

theorem flatten_transform (keep : PartPos → ChatMessagePart → Option ChatMessagePart) :
    ∀ (msgs : List ChatMessage) (n : Nat),
    (((enumP n msgs).map (fun im : Nat × ChatMessage =>
      { im.2 with parts :=
          (enumP 0 im.2.parts).filterMap (fun jp : Nat × ChatMessagePart =>
            keep (im.1, jp.1) jp.2) })).flatMap (fun m => m.parts)) =
      ((enumP n msgs).flatMap (fun im : Nat × ChatMessage =>
        (enumP 0 im.2.parts).map (fun jp : Nat × ChatMessagePart =>
          ((im.1, jp.1), jp.2)))).filterMap
          (fun x => keep x.1 x.2) := by
  intro msgs
  induction msgs with
  | nil => intro n; simp [enumP]
  | cons m ms ih =>
    intro n
    simp only [enumP, List.map_cons, List.flatMap_cons, List.filterMap_append,
      List.filterMap_map]
    congr 1
    exact ih (n + 1)

theorem cleanup_allParts (msgs : List ChatMessage)
    (keep : PartPos → ChatMessagePart → Option ChatMessagePart) :
    allParts ((enumP 0 msgs).map (fun im : Nat × ChatMessage =>
      { im.2 with parts :=
          (enumP 0 im.2.parts).filterMap (fun jp : Nat × ChatMessagePart =>
            keep (im.1, jp.1) jp.2) })) =
      (enumParts msgs).filterMap (fun x => keep x.1 x.2) := by
  unfold allParts enumParts
  exact flatten_transform keep msgs 0

end CleanupLemmas

/-! ## Claim C1 — at most one read after consolidation -/

theorem readCallIDs_distinct {msgs : List ChatMessage} (h : ReadCallIDsOk msgs) :
    ∀ x ∈ enumParts msgs, ∀ y ∈ enumParts msgs, readPartB x.2 = true → readPartB y.2 = true →
      callIDOf x.2 = callIDOf y.2 → x = y := by
  intro x hx y hy hrx hry hcideq
  by_contra hne
  have hsym : Symmetric (fun x y : PartPos × ChatMessagePart =>
      readPartB x.2 = true → readPartB y.2 = true → callIDOf x.2 ≠ callIDOf y.2) := by
    intro a b hab hb ha
    exact fun hcc => (hab ha hb) hcc.symm
  exact (h.2.forall hsym) hx hy hne hrx hry hcideq

/-- C1 (amended): for a non-protected, non-invalidated file with at least
one completed read part carrying non-empty output, provided completed
read parts carry distinct non-empty call ids and every consolidated file
key is stable under re-resolution, consolidation leaves exactly one
visible completed file-operation part for the file — a read. -/
theorem claim_C1_at_most_one_read (env : Env) (msgs : List ChatMessage)
    (config : WhitelistConfig) (invalidatedFiles : List String) (f : String)
    (hprot : isFileProtected f (protectedExtensionsOf config)
      (protectedPatternsOf config) = false)
    (hinv : invalidatedFiles.contains f = false)
    (hread : ∃ x ∈ enumParts msgs, ∃ tp c, x.2 = ChatMessagePart.tool tp ∧
      tp.tool = "read" ∧ tp.state = .completed c ∧ c.output ≠ "" ∧
      extractPrimaryFilePath env tp (inferWorktreeRoot msgs) = some f)
    (hcid : ReadCallIDsOk msgs)
    (hstable : ∀ g ∈ cleanupConsolidatedFiles env msgs config invalidatedFiles,
      StableKey env (inferWorktreeRoot msgs) g) :
    ∃ tp2, completedFileOpsFor env (inferWorktreeRoot msgs) f
        (cleanupMessagesForContextJar env msgs config invalidatedFiles).1 =
        [ChatMessagePart.tool tp2] ∧ tp2.tool = "read" := by
  set root := inferWorktreeRoot msgs with hrootdef
  set exts := protectedExtensionsOf config with hextsdef
  set pats := protectedPatternsOf config with hpatsdef
  set scan := cleanupScan env exts pats invalidatedFiles root msgs with hscandef
  set plan := cleanupPlanOf scan invalidatedFiles with hplandef
  obtain ⟨x, hxmem, tp, c, hxeq, htool, hstate, hout, hex⟩ := hread
  obtain ⟨xpos, xpart⟩ := x
  simp only at hxeq
  subst hxeq
  -- the keeper read for f
  have hlrS : (mget scan.lastReadByFile f).isSome :=
    scan_lastRead_complete env exts pats invalidatedFiles root msgs f xpos tp c
      hxmem hstate htool hout hex hprot hinv
  obtain ⟨e, hklr⟩ := Option.isSome_iff_exists.mp hlrS
  obtain ⟨kpos, ktp⟩ := e
  obtain ⟨kmem, ktool, ⟨kc, hkc, hkout⟩, kex, _, _⟩ :=
    scan_lastRead_sound env exts pats invalidatedFiles root msgs f kpos ktp hklr
  have hkft : isFileTool ktp.tool = true := by simp [isFileTool, ktool]
  have hfR : f ∈ scan.filesWithRead :=
    scan_withRead_complete env exts pats invalidatedFiles root msgs f kpos ktp kc
      kmem hkc ktool kex hprot
  obtain ⟨hcons, hkeep, hrwS⟩ := plan_complete invalidatedFiles scan f kpos ktp hfR hinv hklr
  obtain ⟨rtp, hrw⟩ := Option.isSome_iff_exists.mp hrwS
  obtain ⟨g, tp0, hglr, hrtp0, hgcons⟩ := plan_rewrites_sound invalidatedFiles scan kpos rtp hrw
  have hgsound := scan_lastRead_sound env exts pats invalidatedFiles root msgs g kpos tp0 hglr
  have htp0 : tp0 = ktp := by
    have heq := enumParts_unique hgsound.1 kmem
    injection heq
  have hgf : g = f := by
    have h1 := hgsound.2.2.2.1
    rw [htp0, kex] at h1
    exact (Option.some.injEq .. |>.mp h1).symm
  have hrtp : rtp = rewriteKeeper f (mget scan.latestByFile f) ktp := by
    rw [hrtp0, htp0, hgf]
  -- keeper call id
  have hkread : readPartB (ChatMessagePart.tool ktp) = true := by
    simp [readPartB, isCompletedToolPart, hkc, ktool]
  obtain ⟨kcid, hkcid, hkcidne⟩ := hcid.1 (kpos, ChatMessagePart.tool ktp) kmem hkread
  simp only [callIDOf] at hkcid
  -- file history is non-empty
  have hfH : f ∈ scan.filesWithHistory :=
    scan_history_complete env exts pats invalidatedFiles root msgs f kpos ktp kc
      kmem hkc hkft kex hprot
  have hneH : scan.filesWithHistory.isEmpty = false := by
    cases hh : scan.filesWithHistory with
    | nil => rw [hh] at hfH; cases hfH
    | cons a l => rfl
  -- stability of f
  have hstf : normalizeFilePath env (some f) root = some f := hstable f hcons
  -- the keeper evaluates to the rewritten read
  obtain ⟨kc2, hkc2, hkc2in⟩ := rewriteKeeper_completed f (mget scan.latestByFile f) ktp kc hkc
  have hrtool : rtp.tool = "read" := by rw [hrtp, rewriteKeeper_tool, ktool]
  have hrcid : rtp.callID = some kcid := by rw [hrtp, rewriteKeeper_callID, hkcid]
  have hrstate : rtp.state = .completed kc2 := by rw [hrtp]; exact hkc2
  have hrex : extractPrimaryFilePath env rtp root = some f := by
    rw [hrtp, extract_rewriteKeeper env root f (mget scan.latestByFile f) ktp kc hkc]
    exact hstf
  have hkeep2 : kcid ∈ plan.keepCallIDs := by
    have : ktp.callID.getD "" = kcid := by rw [hkcid]; rfl
    rw [← this]
    exact hkeep
  have hkeepeval : cleanupP3Keep env exts pats invalidatedFiles root scan plan kpos
      (ChatMessagePart.tool ktp) = some (ChatMessagePart.tool rtp) := by
    unfold cleanupP3Keep cleanupEffectivePart
    rw [hrw]
    simp only [hrstate, hrtool, hrex]
    simp only [isFileTool]
    simp only [List.elem_eq_true_of_mem hfH, List.elem_eq_true_of_mem hcons, hprot, hinv,
      Bool.not_true, Bool.false_eq_true, if_false, if_true, hrcid]
    simp [hkcidne, hkeep2, List.elem_eq_true_of_mem hkeep2]
  have hpredr : isCompletedFileOpFor env root f (ChatMessagePart.tool rtp) = true := by
    simp [isCompletedFileOpFor, isCompletedToolPart, hrstate, isFileTool, hrtool, hrex]
  -- pointwise characterization of pass 3 restricted to file f
  have hpoint : ∀ x ∈ enumParts msgs,
      optGuard (isCompletedFileOpFor env root f)
        (cleanupP3Keep env exts pats invalidatedFiles root scan plan x.1 x.2) =
      (if x = ((kpos, ChatMessagePart.tool ktp) : PartPos × ChatMessagePart) then
        some (ChatMessagePart.tool rtp) else none) := by
    intro x hx
    by_cases hx0 : x = (kpos, ChatMessagePart.tool ktp)
    · subst hx0
      rw [if_pos rfl]
      simp only [hkeepeval, hpredr, optGuard, if_true]
    · rw [if_neg hx0]
      obtain ⟨pos1, p1⟩ := x
      have hposne : pos1 ≠ kpos := by
        intro hpe
        subst hpe
        exact hx0 (by rw [enumParts_unique hx kmem])
      cases hres : cleanupP3Keep env exts pats invalidatedFiles root scan plan pos1 p1 with
      | none => simp [optGuard]
      | some q =>
        have hqeff := p3keep_none_or_effective env exts pats invalidatedFiles root scan plan
          pos1 p1 q hres
        have hprednone : isCompletedFileOpFor env root f q = false := by
          unfold cleanupEffectivePart at hqeff
          cases hrw1 : mget plan.rewrites pos1 with
          | some r1 =>
            rw [hrw1] at hqeff
            obtain ⟨g1, tpg1, hg1lr, hr1eq, hg1cons⟩ :=
              plan_rewrites_sound invalidatedFiles scan pos1 r1 hrw1
            obtain ⟨_, _, ⟨cg1, hcg1, _⟩, _, _, _⟩ :=
              scan_lastRead_sound env exts pats invalidatedFiles root msgs g1 pos1 tpg1 hg1lr
            have hg1f : g1 ≠ f := by
              intro hge
              subst hge
              rw [hklr] at hg1lr
              have := (Prod.mk.injEq .. |>.mp (Option.some.injEq .. |>.mp hg1lr.symm)).1
              exact hposne this
            have hexr1 : extractPrimaryFilePath env r1 root = some g1 := by
              rw [hr1eq, extract_rewriteKeeper env root g1 (mget scan.latestByFile g1) tpg1
                cg1 hcg1]
              exact hstable g1 hg1cons
            subst hqeff
            simp [isCompletedFileOpFor, hexr1, hg1f]
          | none =>
            rw [hrw1] at hqeff
            subst hqeff
            cases q with
            | other k pl => rfl
            | tool tpx =>
              cases hstx : tpx.state with
              | pending i r => simp [isCompletedFileOpFor, isCompletedToolPart, hstx]
              | running i => simp [isCompletedFileOpFor, isCompletedToolPart, hstx]
              | error i e2 => simp [isCompletedFileOpFor, isCompletedToolPart, hstx]
              | completed cx =>
                cases hexx : extractPrimaryFilePath env tpx root with
                | none => simp [isCompletedFileOpFor, hexx]
                | some fx =>
                  by_cases hftx : isFileTool tpx.tool = true
                  swap
                  · have hftx2 : isFileTool tpx.tool = false := by
                      simpa using hftx
                    simp [isCompletedFileOpFor, hftx2]
                  · by_cases hfx : fx = f
                    swap
                    · simp [isCompletedFileOpFor, hexx, hfx]
                    · subst fx
                      -- a completed file-op part for f away from the keeper position:
                      -- pass 3 drops it, contradicting hres
                      exfalso
                      unfold cleanupP3Keep cleanupEffectivePart at hres
                      rw [hrw1] at hres
                      simp only [hstx, hftx, hexx, List.elem_eq_true_of_mem hfH,
                        List.elem_eq_true_of_mem hcons, hprot, hinv, Bool.not_true,
                        Bool.false_eq_true, if_false, if_true] at hres
                      cases hrdx : (tpx.tool == "read") with
                      | false => rw [hrdx] at hres; cases hres
                      | true =>
                        rw [hrdx] at hres
                        simp only [if_true] at hres
                        have hreadx : readPartB (ChatMessagePart.tool tpx) = true := by
                          simp [readPartB, isCompletedToolPart, hstx, hrdx]
                        obtain ⟨cidx, hcidx, hcidxne⟩ :=
                          hcid.1 (pos1, ChatMessagePart.tool tpx) hx hreadx
                        simp only [callIDOf] at hcidx
                        rw [hcidx] at hres
                        cases hkx : plan.keepCallIDs.contains cidx with
                        | false =>
                          simp only [hkx, Bool.and_false, Bool.false_eq_true, if_false] at hres
                          cases hres
                        | true =>
                          obtain ⟨g2, pos2, tp2, hg2lr, hcideq⟩ :=
                            plan_keep_sound invalidatedFiles scan cidx
                              (List.mem_of_elem_eq_true hkx)
                          obtain ⟨hmem2, htool2, ⟨c2s, hc2s, _⟩, hex2, _, _⟩ :=
                            scan_lastRead_sound env exts pats invalidatedFiles root msgs
                              g2 pos2 tp2 hg2lr
                          have hc2cid : tp2.callID = some cidx := by
                            cases hc2 : tp2.callID with
                            | none =>
                              rw [hc2] at hcideq
                              simp only [Option.getD_none] at hcideq
                              exact absurd hcideq hcidxne
                            | some c2 =>
                              rw [hc2] at hcideq
                              simp only [Option.getD_some] at hcideq
                              rw [hcideq]
                          have hread2 : readPartB (ChatMessagePart.tool tp2) = true := by
                            simp [readPartB, isCompletedToolPart, hc2s, htool2]
                          have heqpair := readCallIDs_distinct hcid
                            (pos1, ChatMessagePart.tool tpx) hx
                            (pos2, ChatMessagePart.tool tp2) hmem2 hreadx hread2
                            (by simp only [callIDOf]; rw [hcidx, hc2cid])
                          have hpos12 : pos1 = pos2 :=
                            (Prod.mk.injEq .. |>.mp heqpair).1
                          have htpx2 : ChatMessagePart.tool tpx = ChatMessagePart.tool tp2 :=
                            (Prod.mk.injEq .. |>.mp heqpair).2
                          have htpx2b : tpx = tp2 := by injection htpx2
                          have hg2f : g2 = f := by
                            rw [← htpx2b] at hex2
                            rw [hexx] at hex2
                            exact Option.some.injEq .. |>.mp hex2.symm
                          rw [hg2f, hklr] at hg2lr
                          have := (Prod.mk.injEq .. |>.mp
                            (Option.some.injEq .. |>.mp hg2lr.symm)).1
                          exact hposne (hpos12.trans this)
        simp only [hres, optGuard, hprednone, Bool.false_eq_true, if_false]
  have hA : (cleanupMessagesForContextJar env msgs config invalidatedFiles).1 =
      (enumP 0 msgs).map (fun im : Nat × ChatMessage =>
        { im.2 with parts := (enumP 0 im.2.parts).filterMap (fun jp : Nat × ChatMessagePart =>
            cleanupP3Keep env exts pats invalidatedFiles root scan plan (im.1, jp.1) jp.2) }) :=
    cleanup_out_eq env exts pats invalidatedFiles root msgs config hneH hrootdef hextsdef
      hpatsdef
  have hB : allParts ((enumP 0 msgs).map (fun im : Nat × ChatMessage =>
      { im.2 with parts := (enumP 0 im.2.parts).filterMap (fun jp : Nat × ChatMessagePart =>
          cleanupP3Keep env exts pats invalidatedFiles root scan plan (im.1, jp.1) jp.2) })) =
      (enumParts msgs).filterMap (fun x =>
        cleanupP3Keep env exts pats invalidatedFiles root scan plan x.1 x.2) :=
    cleanup_allParts msgs (cleanupP3Keep env exts pats invalidatedFiles root scan plan)
  have hfinal : completedFileOpsFor env root f
      (cleanupMessagesForContextJar env msgs config invalidatedFiles).1 =
      [ChatMessagePart.tool rtp] := by
    show (allParts (cleanupMessagesForContextJar env msgs config invalidatedFiles).1).filter
      (isCompletedFileOpFor env root f) = _
    rw [hA, hB, filter_filterMap_my]
    exact filterMap_singleton_my (enumParts_nodup msgs) kmem hpoint
  exact ⟨rtp, hfinal, hrtool⟩

/-- C1 counterexample: a file with two completed read parts (both with
empty output) is non-protected, non-invalidated and has completed
read-kind parts in the window, yet after `cleanupMessagesForContextJar`
two visible read-kind parts remain, not exactly one: empty-output reads
never become the keeper, and unconsolidated files pass through. -/
theorem claim_C1_counterexample :
    (∃ x ∈ enumParts c1ceMsgs, ∃ tp, x.2 = ChatMessagePart.tool tp ∧ tp.tool = "read" ∧
      isCompletedToolPart tp = true ∧
      extractPrimaryFilePath sampleEnv tp (inferWorktreeRoot c1ceMsgs) = some "/w/a") ∧
    isFileProtected "/w/a" (protectedExtensionsOf emptyConfig)
      (protectedPatternsOf emptyConfig) = false ∧
    (completedFileOpsFor sampleEnv (inferWorktreeRoot c1ceMsgs) "/w/a"
      (cleanupMessagesForContextJar sampleEnv c1ceMsgs emptyConfig []).1).length = 2 ∧
    (∀ p ∈ completedFileOpsFor sampleEnv (inferWorktreeRoot c1ceMsgs) "/w/a"
      (cleanupMessagesForContextJar sampleEnv c1ceMsgs emptyConfig []).1,
      readPartB p = true) := by
  refine ⟨⟨((0, 0), ChatMessagePart.tool (mkReadPart "c1" "/w/a" "")), by decide,
    mkReadPart "c1" "/w/a" "", rfl, rfl, by decide, by decide⟩, by decide, by decide, by decide⟩

/-- C1 witness: the amended theorem applied to the concrete
read/edit/read window `c6Msgs` for file `/w/a.txt`. -/
theorem claim_C1_at_most_one_read_witness :
    (isFileProtected "/w/a.txt" (protectedExtensionsOf emptyConfig)
        (protectedPatternsOf emptyConfig) = false ∧
      ([] : List String).contains "/w/a.txt" = false ∧
      ReadCallIDsOk c6Msgs ∧
      (∀ g ∈ cleanupConsolidatedFiles sampleEnv c6Msgs emptyConfig [],
        StableKey sampleEnv (inferWorktreeRoot c6Msgs) g)) ∧
    (∃ tp2, completedFileOpsFor sampleEnv (inferWorktreeRoot c6Msgs) "/w/a.txt"
        (cleanupMessagesForContextJar sampleEnv c6Msgs emptyConfig []).1 =
        [ChatMessagePart.tool tp2] ∧ tp2.tool = "read") :=
  ⟨⟨by decide, by decide, by decide, by decide⟩,
    claim_C1_at_most_one_read sampleEnv c6Msgs emptyConfig [] "/w/a.txt" (by decide) (by decide)
      ⟨((0, 3), ChatMessagePart.tool c6Read2), by decide, c6Read2, _, rfl, rfl, rfl,
        by decide, by decide⟩
      (by decide) (by decide)⟩

/-! ## Claim C4 — protection is absolute -/

theorem filter_sublist_filterMap {a : Type} {l : List a} (pred : a → Bool)
    (h : a → Option a) (hp : ∀ p ∈ l, pred p = true → h p = some p) :
    (l.filter pred).Sublist (l.filterMap h) := by
  induction l with
  | nil => simp
  | cons hd tl ih =>
    have ihtl := ih fun p hp2 hpred => hp p (List.mem_cons_of_mem hd hp2) hpred
    rw [List.filterMap_cons]
    by_cases hh : pred hd
    · rw [List.filter_cons_of_pos hh, hp hd (List.mem_cons_self hd tl) hh]
      exact ihtl.cons₂ hd
    · rw [List.filter_cons_of_neg (by simpa using hh)]
      cases hcase : h hd with
      | none => exact ihtl
      | some y => exact ihtl.cons y

theorem getElem?_enumP_map {a b : Type} (F : Nat × a → b) :
    ∀ (l : List a) (n i : Nat), ((enumP n l).map F)[i]? = (l[i]?).map fun x => F (n + i, x) := by
  intro l
  induction l with
  | nil => intro n i; simp [enumP]
  | cons hd tl ih =>
    intro n i
    cases i with
    | zero => simp [enumP]
    | succ i =>
      simp only [enumP, List.map_cons, List.getElem?_cons_succ, ih (n + 1) i]
      have : n + 1 + i = n + (i + 1) := by omega
      rw [this]

theorem finalize_out_shape (env : Env) (msgs : List ChatMessage) (config : WhitelistConfig)
    (invalidatedFiles : List String) :
    (finalizeEditedFilesForNextStep env msgs config invalidatedFiles).1 = msgs ∨
    ((finalizeEditedFilesForNextStep env msgs config invalidatedFiles).1 =
        finalizeWiped env msgs config invalidatedFiles ∨
      ∃ ai, (finalizeEditedFilesForNextStep env msgs config invalidatedFiles).1 =
        (enumP 0 (finalizeWiped env msgs config invalidatedFiles)).map
          (fun im : Nat × ChatMessage =>
            if im.1 = ai then
              { im.2 with parts := im.2.parts ++
                  finalizeSynthsOf env msgs config invalidatedFiles }
            else im.2)) := by
  unfold finalizeEditedFilesForNextStep finalizeWiped finalizeSynthsOf
  dsimp only []
  split
  · exact Or.inl rfl
  · refine Or.inr ?_
    split
    · exact Or.inl rfl
    · rename_i ai hai
      exact Or.inr ⟨ai, rfl⟩

/-- C4: for a protected file, every part of that file present in the
window survives both engines byte-identical and in order: the sequence of
its parts in each input message is a sublist of the corresponding output
message's parts, under both `cleanupMessagesForContextJar` and
`finalizeEditedFilesForNextStep`, for arbitrary histories and invalidation
sets. -/
theorem claim_C4_protection_absolute (env : Env) (msgs : List ChatMessage)
    (config : WhitelistConfig) (invalidatedFiles : List String) (f : String)
    (hprot : isFileProtected f (protectedExtensionsOf config)
      (protectedPatternsOf config) = true) :
    (∀ (i : Nat) (mIn mOut : ChatMessage), msgs[i]? = some mIn →
      (cleanupMessagesForContextJar env msgs config invalidatedFiles).1[i]? = some mOut →
      (mIn.parts.filter
        (fun p => partFileOf env (inferWorktreeRoot msgs) p == some f)).Sublist mOut.parts) ∧
    (∀ (i : Nat) (mIn mOut : ChatMessage), msgs[i]? = some mIn →
      (finalizeEditedFilesForNextStep env msgs config invalidatedFiles).1[i]? = some mOut →
      (mIn.parts.filter
        (fun p => partFileOf env (inferWorktreeRoot msgs) p == some f)).Sublist mOut.parts) := by
  set root := inferWorktreeRoot msgs with hrootdef
  set exts := protectedExtensionsOf config with hextsdef
  set pats := protectedPatternsOf config with hpatsdef
  constructor
  · -- consolidation engine
    intro i mIn mOut hin hout
    set scan := cleanupScan env exts pats invalidatedFiles root msgs with hscandef
    set plan := cleanupPlanOf scan invalidatedFiles with hplandef
    cases hne : scan.filesWithHistory.isEmpty with
    | true =>
      rw [cleanup_out_early env invalidatedFiles msgs config hne] at hout
      rw [hin] at hout
      cases hout
      exact List.filter_sublist _
    | false =>
      rw [cleanup_out_eq env exts pats invalidatedFiles root msgs config hne hrootdef
        hextsdef hpatsdef] at hout
      rw [getElem?_enumP_map, hin] at hout
      have hmOut : mOut =
          { mIn with
            parts :=
              (enumP 0 mIn.parts).filterMap (fun jp : Nat × ChatMessagePart =>
                cleanupP3Keep env exts pats invalidatedFiles root scan plan
                  (0 + i, jp.1) jp.2) } := by
        simpa using hout.symm
      rw [hmOut]
      refine filter_sublist_filterMap_enum
        (fun p => partFileOf env root p == some f)
        (fun j p => cleanupP3Keep env exts pats invalidatedFiles root scan plan (0 + i, j) p)
        mIn.parts 0 ?_
      intro j p hj hpred
      show cleanupP3Keep env exts pats invalidatedFiles root scan plan (0 + i, 0 + j) p =
        some p
      -- p is a part of the protected file f
      have hmem : ((0 + i, 0 + j), p) ∈ enumParts msgs := by
        rw [mem_enumParts]
        refine ⟨mIn, by simpa using hin, by simpa using hj⟩
      have hpf : partFileOf env root p = some f := by
        simpa using hpred
      -- no rewrite sits at this position
      have hnorw : mget plan.rewrites (0 + i, 0 + j) = none := by
        cases hrwx : mget plan.rewrites (0 + i, 0 + j) with
        | none => rfl
        | some r =>
          obtain ⟨g, tpg, hglr, _, _⟩ := plan_rewrites_sound invalidatedFiles scan (0 + i, 0 + j)
            r hrwx
          obtain ⟨hgm, _, _, hgex, hgprot, _⟩ :=
            scan_lastRead_sound env exts pats invalidatedFiles root msgs g (0 + i, 0 + j) tpg hglr
          have hpeq : p = ChatMessagePart.tool tpg := enumParts_unique hmem hgm
          have : some g = some f := by
            rw [← hgex, ← hpf, hpeq]
            rfl
          have hgf : g = f := Option.some.injEq .. |>.mp this
          rw [hgf] at hgprot
          rw [hgprot] at hprot
          cases hprot
      -- f never enters the history, so the part passes through
      have hnoh : scan.filesWithHistory.contains f = false := by
        cases hcf : scan.filesWithHistory.contains f with
        | false => rfl
        | true =>
          have := (scan_history_sound env exts pats invalidatedFiles root msgs f
            (List.mem_of_elem_eq_true hcf)).1
          rw [this] at hprot
          cases hprot
      unfold cleanupP3Keep cleanupEffectivePart
      rw [hnorw]
      cases p with
      | other k pl => rfl
      | tool tpp =>
        cases hst : tpp.state with
        | pending i2 r => simp only [hst]
        | running i2 => simp only [hst]
        | error i2 e2 => simp only [hst]
        | completed cp =>
          cases hft : isFileTool tpp.tool with
          | false => simp [hst, hft]
          | true =>
            have hexp : extractPrimaryFilePath env tpp root = some f := by
              simpa [partFileOf] using hpf
            simp only [hst, hft, hexp, Bool.not_true, Bool.false_eq_true, if_false, hnoh,
              Bool.not_false, if_true]
  · -- finalization engine
    intro i mIn mOut hin hout
    have hpkeep : ∀ p ∈ mIn.parts,
        (partFileOf env root p == some f) = true →
        finalizeWipeKeep env exts pats invalidatedFiles root
          (finalizeScan env exts pats invalidatedFiles root msgs).editedFiles p = some p := by
      intro p _ hpred
      have hpf : partFileOf env root p = some f := by
        simpa [decide_eq_true_eq] using hpred
      cases p with
      | other k pl => rfl
      | tool tpp =>
        have hexp : extractPrimaryFilePath env tpp root = some f := by
          simpa [partFileOf] using hpf
        unfold finalizeWipeKeep
        cases hst : tpp.state with
        | pending i2 r => simp only [hst]
        | running i2 => simp only [hst]
        | error i2 e2 => simp only [hst]
        | completed cp => simp only [hst, hexp, hprot, if_true]
    rcases finalize_out_shape env msgs config invalidatedFiles with hsh | hsh | ⟨ai, hsh⟩
    · rw [hsh, hin] at hout
      cases hout
      exact List.filter_sublist _
    · rw [hsh] at hout
      unfold finalizeWiped at hout
      rw [List.getElem?_map, hin] at hout
      have hmOut : mOut =
          { mIn with
            parts :=
              mIn.parts.filterMap
                (finalizeWipeKeep env exts pats invalidatedFiles root
                  (finalizeScan env exts pats invalidatedFiles root msgs).editedFiles) } := by
        simpa using hout.symm
      rw [hmOut]
      exact filter_sublist_filterMap _ _ hpkeep
    · rw [hsh] at hout
      rw [getElem?_enumP_map] at hout
      unfold finalizeWiped at hout
      rw [List.getElem?_map, hin] at hout
      by_cases hai : 0 + i = ai
      · have hai2 : i = ai := by simpa using hai
        have hmOut : mOut =
            { mIn with
              parts :=
                mIn.parts.filterMap
                  (finalizeWipeKeep env exts pats invalidatedFiles root
                    (finalizeScan env exts pats invalidatedFiles root msgs).editedFiles) ++
                  finalizeSynthsOf env msgs config invalidatedFiles } := by
          simpa [hai2] using hout.symm
        rw [hmOut]
        exact (filter_sublist_filterMap _ _ hpkeep).trans
          (List.sublist_append_left _ _)
      · have hai2 : ¬(i = ai) := by simpa using hai
        have hmOut : mOut =
            { mIn with
              parts :=
                mIn.parts.filterMap
                  (finalizeWipeKeep env exts pats invalidatedFiles root
                    (finalizeScan env exts pats invalidatedFiles root msgs).editedFiles) } := by
          simpa [hai2] using hout.symm
        rw [hmOut]
        exact filter_sublist_filterMap _ _ hpkeep

/-! ## Claim C5 — no fabrication for files without reads -/

theorem filterMap_congr_my {a b : Type} {l : List a} {g1 g2 : a → Option b}
    (h : ∀ x ∈ l, g1 x = g2 x) : l.filterMap g1 = l.filterMap g2 := by
  induction l with
  | nil => rfl
  | cons hd tl ih =>
    rw [List.filterMap_cons, List.filterMap_cons, h hd (List.mem_cons_self hd tl)]
    cases g2 hd with
    | none => exact ih fun x hx => h x (List.mem_cons_of_mem hd hx)
    | some y => exact congrArg (y :: ·) (ih fun x hx => h x (List.mem_cons_of_mem hd hx))

theorem filterMap_if_comp {a b : Type} (g : a → b) (pred : b → Bool) (l : List a) :
    (l.filterMap fun x => if pred (g x) then some (g x) else none) = (l.map g).filter pred := by
  induction l with
  | nil => rfl
  | cons hd tl ih =>
    rw [List.filterMap_cons, List.map_cons]
    by_cases hh : pred (g hd)
    · rw [List.filter_cons_of_pos hh]
      simp only [hh, if_true]
      exact congrArg (g hd :: ·) ih
    · rw [List.filter_cons_of_neg (by simpa using hh)]
      simp only [hh, if_false]
      exact ih

/-- C5: for a non-protected, non-invalidated file with no completed
read-kind part in the window, consolidation leaves the sequence of parts
resolving to that file exactly unchanged (none removed, none added),
provided every consolidated file key is stable under re-resolution. -/
theorem claim_C5_no_fabrication (env : Env) (msgs : List ChatMessage)
    (config : WhitelistConfig) (invalidatedFiles : List String) (f : String)
    (hprot : isFileProtected f (protectedExtensionsOf config)
      (protectedPatternsOf config) = false)
    (hinv : invalidatedFiles.contains f = false)
    (hnoread : ∀ x ∈ enumParts msgs,
      isCompletedReadFor env (inferWorktreeRoot msgs) f x.2 = false)
    (hstable : ∀ g ∈ cleanupConsolidatedFiles env msgs config invalidatedFiles,
      StableKey env (inferWorktreeRoot msgs) g) :
    partsForFile env (inferWorktreeRoot msgs) f
      (allParts (cleanupMessagesForContextJar env msgs config invalidatedFiles).1) =
    partsForFile env (inferWorktreeRoot msgs) f (allParts msgs) := by
  set root := inferWorktreeRoot msgs with hrootdef
  set exts := protectedExtensionsOf config with hextsdef
  set pats := protectedPatternsOf config with hpatsdef
  set scan := cleanupScan env exts pats invalidatedFiles root msgs with hscandef
  set plan := cleanupPlanOf scan invalidatedFiles with hplandef
  cases hne : scan.filesWithHistory.isEmpty with
  | true => rw [cleanup_out_early env invalidatedFiles msgs config hne]
  | false =>
    -- f is never consolidated
    have hnocons : plan.filesToConsolidate.contains f = false := by
      cases hcf : plan.filesToConsolidate.contains f with
      | false => rfl
      | true =>
        exfalso
        obtain ⟨_, pos2, tp2, hlr2⟩ :=
          plan_cons_sound invalidatedFiles scan f (List.mem_of_elem_eq_true hcf)
        obtain ⟨hm2, ht2, ⟨c2, hc2, _⟩, hex2, _, _⟩ :=
          scan_lastRead_sound env exts pats invalidatedFiles root msgs f pos2 tp2 hlr2
        have := hnoread (pos2, ChatMessagePart.tool tp2) hm2
        simp only [isCompletedReadFor, isCompletedToolPart, hc2, ht2, hex2] at this
        simp at this
    have hA : (cleanupMessagesForContextJar env msgs config invalidatedFiles).1 =
        (enumP 0 msgs).map (fun im : Nat × ChatMessage =>
          { im.2 with parts := (enumP 0 im.2.parts).filterMap (fun jp : Nat × ChatMessagePart =>
              cleanupP3Keep env exts pats invalidatedFiles root scan plan (im.1, jp.1) jp.2) }) :=
      cleanup_out_eq env exts pats invalidatedFiles root msgs config hne hrootdef hextsdef
        hpatsdef
    have hB : allParts ((enumP 0 msgs).map (fun im : Nat × ChatMessage =>
        { im.2 with parts := (enumP 0 im.2.parts).filterMap (fun jp : Nat × ChatMessagePart =>
            cleanupP3Keep env exts pats invalidatedFiles root scan plan (im.1, jp.1) jp.2) })) =
        (enumParts msgs).filterMap (fun x =>
          cleanupP3Keep env exts pats invalidatedFiles root scan plan x.1 x.2) :=
      cleanup_allParts msgs (cleanupP3Keep env exts pats invalidatedFiles root scan plan)
    have hpoint : ∀ x ∈ enumParts msgs,
        optGuard (fun p => partFileOf env root p == some f)
          (cleanupP3Keep env exts pats invalidatedFiles root scan plan x.1 x.2) =
        (if (fun p => partFileOf env root p == some f) x.2 then some x.2 else none) := by
      intro x hx
      obtain ⟨pos1, p1⟩ := x
      show optGuard (fun p => partFileOf env root p == some f)
          (cleanupP3Keep env exts pats invalidatedFiles root scan plan pos1 p1) =
        (if partFileOf env root p1 == some f then some p1 else none)
      cases hrw1 : mget plan.rewrites pos1 with
      | some r1 =>
        -- the keeper of some other file is rewritten in place here
        obtain ⟨g1, tpg1, hg1lr, hr1eq, hg1cons⟩ :=
          plan_rewrites_sound invalidatedFiles scan pos1 r1 hrw1
        obtain ⟨hg1m, hg1tool, ⟨cg1, hcg1, _⟩, hg1ex, _, _⟩ :=
          scan_lastRead_sound env exts pats invalidatedFiles root msgs g1 pos1 tpg1 hg1lr
        have hg1f : g1 ≠ f := by
          intro hge
          have := hnoread (pos1, ChatMessagePart.tool tpg1) hg1m
          rw [hge] at hg1ex
          simp only [isCompletedReadFor, isCompletedToolPart, hcg1, hg1tool, hg1ex] at this
          simp at this
        have hp1 : p1 = ChatMessagePart.tool tpg1 := enumParts_unique hx hg1m
        have hpred1 : (partFileOf env root p1 == some f) = false := by
          rw [hp1]
          simp [partFileOf, hg1ex, hg1f]
        have hexr1 : extractPrimaryFilePath env r1 root = some g1 := by
          rw [hr1eq, extract_rewriteKeeper env root g1 (mget scan.latestByFile g1) tpg1
            cg1 hcg1]
          exact hstable g1 hg1cons
        rw [hpred1, if_neg Bool.false_ne_true]
        cases hres : cleanupP3Keep env exts pats invalidatedFiles root scan plan pos1 p1 with
        | none => rfl
        | some q =>
          have hqeff := p3keep_none_or_effective env exts pats invalidatedFiles root scan
            plan pos1 p1 q hres
          unfold cleanupEffectivePart at hqeff
          rw [hrw1] at hqeff
          subst hqeff
          simp [optGuard, partFileOf, hexr1, hg1f]
      | none =>
        by_cases hpredx : (partFileOf env root p1 == some f) = true
        · rw [hpredx, if_pos rfl]
          have hpf : partFileOf env root p1 = some f := by simpa using hpredx
          have hkeepx : cleanupP3Keep env exts pats invalidatedFiles root scan plan pos1 p1 =
              some p1 := by
            unfold cleanupP3Keep cleanupEffectivePart
            rw [hrw1]
            cases p1 with
            | other k pl => rfl
            | tool tpx =>
              have hexp : extractPrimaryFilePath env tpx root = some f := by
                simpa [partFileOf] using hpf
              cases hst : tpx.state with
              | pending i2 r => simp only [hst]
              | running i2 => simp only [hst]
              | error i2 e2 => simp only [hst]
              | completed cp =>
                cases hft : isFileTool tpx.tool with
                | false => simp [hst, hft]
                | true =>
                  have hhist : f ∈ scan.filesWithHistory :=
                    scan_history_complete env exts pats invalidatedFiles root msgs f
                      pos1 tpx cp hx hst hft hexp hprot
                  simp only [hst, hft, hexp, List.elem_eq_true_of_mem hhist, hprot, hinv,
                    hnocons, Bool.not_true, Bool.not_false, Bool.false_eq_true, if_false,
                    if_true]
          rw [hkeepx]
          simp [optGuard, hpredx]
        · have hpredx2 : (partFileOf env root p1 == some f) = false := by
            simpa using hpredx
          rw [hpredx2, if_neg Bool.false_ne_true]
          cases hres : cleanupP3Keep env exts pats invalidatedFiles root scan plan pos1 p1
            with
          | none => rfl
          | some q =>
            have hqeff := p3keep_none_or_effective env exts pats invalidatedFiles root scan
              plan pos1 p1 q hres
            unfold cleanupEffectivePart at hqeff
            rw [hrw1] at hqeff
            subst hqeff
            simp [optGuard, hpredx2]
    unfold partsForFile
    rw [hA, hB, filter_filterMap_my, filterMap_congr_my hpoint, allParts_eq_map_enumParts]
    exact filterMap_if_comp (fun x : PartPos × ChatMessagePart => x.2)
      (fun p => partFileOf env root p == some f) (enumParts msgs)


/-- C5 counterexample: `/a/b` has only an edit Part and no read-kind Part,
yet consolidation of the sibling key `/a/b ` rewrites that keeper read's
input to `/a/b `, which re-resolves to `/a/b`: the pass fabricates a second
visible Part for `/a/b`. -/
theorem claim_C5_counterexample :
    isFileProtected "/a/b" (protectedExtensionsOf emptyConfig)
      (protectedPatternsOf emptyConfig) = false ∧
    ([] : List String).contains "/a/b" = false ∧
    (∀ x ∈ enumParts c5ceMsgs,
      isCompletedReadFor sampleEnv (inferWorktreeRoot c5ceMsgs) "/a/b" x.2 = false) ∧
    (partsForFile sampleEnv (inferWorktreeRoot c5ceMsgs) "/a/b" (allParts c5ceMsgs)).length
      = 1 ∧
    (partsForFile sampleEnv (inferWorktreeRoot c5ceMsgs) "/a/b"
      (allParts (cleanupMessagesForContextJar sampleEnv c5ceMsgs emptyConfig []).1)).length
      = 2 := by decide

/-- C5 witness: on a window where `/w/a` is only edited and `/w/b` is read,
the amended no-fabrication theorem applies and `/w/a`'s parts are unchanged. -/
theorem claim_C5_no_fabrication_witness :
    partsForFile sampleEnv (inferWorktreeRoot c5wMsgs) "/w/a"
      (allParts (cleanupMessagesForContextJar sampleEnv c5wMsgs emptyConfig []).1) =
    partsForFile sampleEnv (inferWorktreeRoot c5wMsgs) "/w/a" (allParts c5wMsgs) :=
  claim_C5_no_fabrication sampleEnv c5wMsgs emptyConfig [] "/w/a" (by decide) (by decide)
    (by decide) (by decide)

/-- C4 witness: with `.md` protected, the Parts of `/w/notes.md` (read and
edited, and also invalidated) survive both engines in order. -/
theorem claim_C4_protection_absolute_witness :
    (∀ (i : Nat) (mIn mOut : ChatMessage), c4Msgs[i]? = some mIn →
      (cleanupMessagesForContextJar sampleEnv c4Msgs c4Cfg ["/w/notes.md"]).1[i]? =
        some mOut →
      (mIn.parts.filter
        (fun p => partFileOf sampleEnv (inferWorktreeRoot c4Msgs) p ==
          some "/w/notes.md")).Sublist mOut.parts) ∧
    (∀ (i : Nat) (mIn mOut : ChatMessage), c4Msgs[i]? = some mIn →
      (finalizeEditedFilesForNextStep sampleEnv c4Msgs c4Cfg ["/w/notes.md"]).1[i]? =
        some mOut →
      (mIn.parts.filter
        (fun p => partFileOf sampleEnv (inferWorktreeRoot c4Msgs) p ==
          some "/w/notes.md")).Sublist mOut.parts) :=
  claim_C4_protection_absolute sampleEnv c4Msgs c4Cfg ["/w/notes.md"] "/w/notes.md"
    (by decide)


/-! ## Claim C3 — invalidation wipes (both engines) -/

theorem filter_eq_nil_my {a : Type} {l : List a} {pred : a → Bool}
    (h : ∀ x ∈ l, pred x = false) : l.filter pred = [] := by
  induction l with
  | nil => rfl
  | cons hd tl ih =>
    rw [List.filter_cons_of_neg (by simp [h hd (List.mem_cons_self hd tl)])]
    exact ih fun x hx => h x (List.mem_cons_of_mem hd hx)

theorem isCompletedFileOpFor_spec {env : Env} {root : Option String} {f : String}
    {p : ChatMessagePart} (h : isCompletedFileOpFor env root f p = true) :
    ∃ tp c, p = .tool tp ∧ tp.state = .completed c ∧ isFileTool tp.tool = true ∧
      extractPrimaryFilePath env tp root = some f := by
  cases p with
  | other k pl => simp [isCompletedFileOpFor] at h
  | tool tp =>
    unfold isCompletedFileOpFor at h
    rw [Bool.and_eq_true, Bool.and_eq_true] at h
    obtain ⟨⟨h1, h2⟩, h3⟩ := h
    cases hst : tp.state with
    | completed c => exact ⟨tp, c, rfl, hst, h2, by simpa using h3⟩
    | pending i r => unfold isCompletedToolPart at h1; rw [hst] at h1; cases h1
    | running i => unfold isCompletedToolPart at h1; rw [hst] at h1; cases h1
    | error i e => unfold isCompletedToolPart at h1; rw [hst] at h1; cases h1

theorem allParts_map_filterMap (g : ChatMessagePart → Option ChatMessagePart) :
    ∀ msgs : List ChatMessage,
    allParts (msgs.map fun m => { m with parts := m.parts.filterMap g }) =
      (allParts msgs).filterMap g := by
  intro msgs
  induction msgs with
  | nil => rfl
  | cons hd tl ih =>
    unfold allParts at ih ⊢
    simp only [List.map_cons, List.flatMap_cons, List.filterMap_append]
    rw [ih]

theorem mem_allParts_append_at {wiped : List ChatMessage} {synths : List ChatMessagePart}
    {ai : Nat} {p : ChatMessagePart}
    (h : p ∈ allParts ((enumP 0 wiped).map (fun im : Nat × ChatMessage =>
      if im.1 = ai then { im.2 with parts := im.2.parts ++ synths } else im.2))) :
    p ∈ allParts wiped ∨ p ∈ synths := by
  unfold allParts at h ⊢
  rcases List.mem_flatMap.mp h with ⟨m, hm, hpm⟩
  rcases List.mem_map.mp hm with ⟨im, him, heq⟩
  have him2 : im.2 ∈ wiped := by
    have h2 := List.mem_map_of_mem Prod.snd him
    rwa [enumP_map_snd] at h2
  by_cases hai : im.1 = ai
  · rw [if_pos hai] at heq
    subst heq
    rcases List.mem_append.mp hpm with h1 | h2
    · exact Or.inl (List.mem_flatMap.mpr ⟨im.2, him2, h1⟩)
    · exact Or.inr h2
  · rw [if_neg hai] at heq
    subst heq
    exact Or.inl (List.mem_flatMap.mpr ⟨im.2, him2, hpm⟩)

theorem finalizeInvalCount_ge (invalidatedFiles : List String) :
    ∀ (l : List String) (d : StepTokenDelta),
    d.filesInvalidated ≤
      (List.foldl (fun d f => if invalidatedFiles.contains f then
        { d with filesInvalidated := d.filesInvalidated + 1 } else d) d l).filesInvalidated := by
  intro l
  induction l with
  | nil => intro d; exact Nat.le_refl _
  | cons hd tl ih =>
    intro d
    rw [List.foldl_cons]
    refine Nat.le_trans ?_ (ih _)
    show d.filesInvalidated ≤ (if invalidatedFiles.contains hd then
      { d with filesInvalidated := d.filesInvalidated + 1 } else d).filesInvalidated
    split
    · exact Nat.le_succ _
    · exact Nat.le_refl _

theorem finalizeInvalCount_zero (invalidatedFiles : List String) :
    ∀ (l : List String) (d : StepTokenDelta),
    (List.foldl (fun d f => if invalidatedFiles.contains f then
        { d with filesInvalidated := d.filesInvalidated + 1 } else d) d l).filesInvalidated = 0 →
    ∀ g ∈ l, invalidatedFiles.contains g = false := by
  intro l
  induction l with
  | nil => intro d _ g hg; cases hg
  | cons hd tl ih =>
    intro d h g hg
    rw [List.foldl_cons] at h
    rcases List.mem_cons.mp hg with heq | hg2
    · subst heq
      cases hct : invalidatedFiles.contains g with
      | false => rfl
      | true =>
        exfalso
        simp only [hct, if_true] at h
        have hge := finalizeInvalCount_ge invalidatedFiles tl
          { d with filesInvalidated := d.filesInvalidated + 1 }
        rw [h] at hge
        exact Nat.not_succ_le_zero _ hge
    · exact ih _ h g hg2

section FinalizeLemmas

variable (env : Env) (exts pats invalidatedFiles : List String) (root : Option String)

theorem fgather_touched_mono (st : FinalizeScan) (p : ChatMessagePart) (f : String)
    (h : f ∈ st.allTouchedFiles) :
    f ∈ (finalizeGatherStep env exts pats invalidatedFiles root st p).allTouchedFiles := by
  unfold finalizeGatherStep
  dsimp only []
  repeat' split
  all_goals first | exact h | exact mem_sadd_of_mem h

theorem fgather_touched_trigger (st : FinalizeScan) (tp : ToolPart)
    (c : ToolStateCompletedData) (f : String)
    (hc : tp.state = .completed c)
    (hex : extractPrimaryFilePath env tp root = some f)
    (hprot : isFileProtected f exts pats = false) :
    f ∈ (finalizeGatherStep env exts pats invalidatedFiles root st
      (.tool tp)).allTouchedFiles := by
  unfold finalizeGatherStep
  simp only [hc, hex, hprot, Bool.false_eq_true, if_false]
  repeat' split
  all_goals exact self_mem_sadd

theorem fscan_touched_complete (msgs : List ChatMessage) (f : String)
    (tp : ToolPart) (c : ToolStateCompletedData)
    (hmem : ChatMessagePart.tool tp ∈ allParts msgs)
    (hc : tp.state = .completed c)
    (hex : extractPrimaryFilePath env tp root = some f)
    (hprot : isFileProtected f exts pats = false) :
    f ∈ (finalizeScan env exts pats invalidatedFiles root msgs).allTouchedFiles :=
  foldl_reach (finalizeGatherStep env exts pats invalidatedFiles root)
    (fun st x h => fgather_touched_mono env exts pats invalidatedFiles root st x f h)
    (fun st => fgather_touched_trigger env exts pats invalidatedFiles root st tp c f
      hc hex hprot)
    (allParts msgs) ⟨[], [], []⟩ hmem

theorem fgather_edited_sound (st : FinalizeScan) (p : ChatMessagePart)
    (hP : ∀ g ∈ st.editedFiles, invalidatedFiles.contains g = false) :
    ∀ g ∈ (finalizeGatherStep env exts pats invalidatedFiles root st p).editedFiles,
      invalidatedFiles.contains g = false := by
  intro g hg
  cases p with
  | other k pl => exact hP g hg
  | tool tp =>
    unfold finalizeGatherStep at hg
    simp only at hg
    cases hstate : tp.state with
    | pending i r => rw [hstate] at hg; exact hP g hg
    | running i => rw [hstate] at hg; exact hP g hg
    | error i e => rw [hstate] at hg; exact hP g hg
    | completed c =>
      rw [hstate] at hg
      cases hex : extractPrimaryFilePath env tp root with
      | none => rw [hex] at hg; exact hP g hg
      | some fp =>
        rw [hex] at hg
        cases hprot2 : isFileProtected fp exts pats with
        | true => simp only [hprot2, if_true] at hg; exact hP g hg
        | false =>
          simp only [hprot2, Bool.false_eq_true, if_false] at hg
          cases hinvfp : invalidatedFiles.contains fp with
          | true => simp only [hinvfp, if_true] at hg; exact hP g hg
          | false =>
            simp only [hinvfp, Bool.false_eq_true, if_false] at hg
            cases hed : (tp.tool == "edit" || tp.tool == "multiedit") with
            | true =>
              simp only [hed, if_true] at hg
              cases haft : extractAfterFromEditMetadata c.metadata with
              | none => rw [haft] at hg; exact hP g hg
              | some after =>
                rw [haft] at hg
                simp only at hg
                rcases mem_sadd.mp hg with hgm | heq
                · exact hP g hgm
                · rw [heq]; exact hinvfp
            | false =>
              simp only [hed, Bool.false_eq_true, if_false] at hg
              cases hwr : (tp.tool == "write") with
              | true =>
                simp only [hwr, if_true] at hg
                cases hct : c.input.content with
                | none => rw [hct] at hg; exact hP g hg
                | some content =>
                  rw [hct] at hg
                  simp only at hg
                  rcases mem_sadd.mp hg with hgm | heq
                  · exact hP g hgm
                  · rw [heq]; exact hinvfp
              | false =>
                simp only [hwr, Bool.false_eq_true, if_false] at hg
                cases hrd : (tp.tool == "read") with
                | true =>
                  simp only [hrd, if_true] at hg
                  split at hg
                  · exact hP g hg
                  · exact hP g hg
                | false =>
                  simp only [hrd, Bool.false_eq_true, if_false] at hg
                  exact hP g hg

theorem fscan_edited_sound (msgs : List ChatMessage) (g : String)
    (h : g ∈ (finalizeScan env exts pats invalidatedFiles root msgs).editedFiles) :
    invalidatedFiles.contains g = false := by
  refine foldl_inv
    (P := fun st => ∀ g ∈ st.editedFiles, invalidatedFiles.contains g = false)
    (Q := fun _ => True) (finalizeGatherStep env exts pats invalidatedFiles root)
    (fun st x _ hP => fgather_edited_sound env exts pats invalidatedFiles root st x hP)
    (allParts msgs) ⟨[], [], []⟩ (fun _ _ => trivial) ?_ g h
  intro g2 hg2
  cases hg2

theorem extract_synthetic (fp output label : String) :
    extractPrimaryFilePath env (makeSyntheticReadPart env fp output label) root =
      normalizeFilePath env (some fp) root := rfl

theorem finalizeWipeKeep_some_eq (editedFiles : List String) (p q : ChatMessagePart)
    (h : finalizeWipeKeep env exts pats invalidatedFiles root editedFiles p = some q) :
    q = p := by
  unfold finalizeWipeKeep at h
  repeat' split at h
  all_goals first | exact (Option.some.inj h).symm | cases h

end FinalizeLemmas

theorem finalize_out_cases (env : Env) (msgs : List ChatMessage) (config : WhitelistConfig)
    (invalidatedFiles : List String) :
    ((finalizeEditedFilesForNextStep env msgs config invalidatedFiles).1 = msgs ∧
      ∀ g ∈ (finalizeScan env (protectedExtensionsOf config) (protectedPatternsOf config)
          invalidatedFiles (inferWorktreeRoot msgs) msgs).allTouchedFiles,
        invalidatedFiles.contains g = false) ∨
    ((finalizeEditedFilesForNextStep env msgs config invalidatedFiles).1 =
        finalizeWiped env msgs config invalidatedFiles ∨
      ∃ ai, (finalizeEditedFilesForNextStep env msgs config invalidatedFiles).1 =
        (enumP 0 (finalizeWiped env msgs config invalidatedFiles)).map
          (fun im : Nat × ChatMessage =>
            if im.1 = ai then
              { im.2 with parts := im.2.parts ++
                  finalizeSynthsOf env msgs config invalidatedFiles }
            else im.2)) := by
  unfold finalizeEditedFilesForNextStep finalizeWiped finalizeSynthsOf
  dsimp only []
  split
  · rename_i hguard
    refine Or.inl ⟨rfl, ?_⟩
    have hz := ((Bool.and_eq_true _ _).mp hguard).2
    exact finalizeInvalCount_zero invalidatedFiles _ emptyDelta (by simpa using hz)
  · refine Or.inr ?_
    split
    · exact Or.inl rfl
    · rename_i ai hai
      exact Or.inr ⟨ai, rfl⟩

theorem finalizeWiped_no_fileops (env : Env) (msgs : List ChatMessage)
    (config : WhitelistConfig) (invalidatedFiles : List String) (f : String)
    (hprot : isFileProtected f (protectedExtensionsOf config)
      (protectedPatternsOf config) = false)
    (hinv : invalidatedFiles.contains f = true) :
    ∀ p ∈ allParts (finalizeWiped env msgs config invalidatedFiles),
      isCompletedFileOpFor env (inferWorktreeRoot msgs) f p = false := by
  intro p hp
  unfold finalizeWiped at hp
  rw [allParts_map_filterMap] at hp
  rcases List.mem_filterMap.mp hp with ⟨p0, hp0, hkeep⟩
  have hqp := finalizeWipeKeep_some_eq env (protectedExtensionsOf config)
    (protectedPatternsOf config) invalidatedFiles (inferWorktreeRoot msgs) _ p0 p hkeep
  rw [hqp]
  cases hop : isCompletedFileOpFor env (inferWorktreeRoot msgs) f p0 with
  | false => rfl
  | true =>
    exfalso
    obtain ⟨tp, c, hp2, hc, hft, hex⟩ := isCompletedFileOpFor_spec hop
    subst hp2
    have hnone : finalizeWipeKeep env (protectedExtensionsOf config)
        (protectedPatternsOf config) invalidatedFiles (inferWorktreeRoot msgs)
        (finalizeScan env (protectedExtensionsOf config) (protectedPatternsOf config)
          invalidatedFiles (inferWorktreeRoot msgs) msgs).editedFiles
        (ChatMessagePart.tool tp) = none := by
      unfold finalizeWipeKeep
      simp only [hc, hex, hprot, hinv, hft, Bool.false_eq_true, if_false, Bool.or_true,
        Bool.not_true, if_true]
    rw [hnone] at hkeep
    cases hkeep

theorem finalizeSynths_no_fileops (env : Env) (msgs : List ChatMessage)
    (config : WhitelistConfig) (invalidatedFiles : List String) (f : String)
    (hinv : invalidatedFiles.contains f = true)
    (hstable : ∀ g ∈ finalizeEditedOf env msgs config invalidatedFiles,
      StableKey env (inferWorktreeRoot msgs) g) :
    ∀ p ∈ finalizeSynthsOf env msgs config invalidatedFiles,
      isCompletedFileOpFor env (inferWorktreeRoot msgs) f p = false := by
  intro p hp
  unfold finalizeSynthsOf finalizeSynthetics at hp
  rcases List.mem_filterMap.mp hp with ⟨g, hg, hsome⟩
  have hginv : invalidatedFiles.contains g = false :=
    fscan_edited_sound env (protectedExtensionsOf config) (protectedPatternsOf config)
      invalidatedFiles (inferWorktreeRoot msgs) msgs g hg
  have hgf : g ≠ f := by
    intro he
    rw [he, hinv] at hginv
    cases hginv
  have hgst : normalizeFilePath env (some g) (inferWorktreeRoot msgs) = some g :=
    hstable g hg
  cases hlat : mget (finalizeScan env (protectedExtensionsOf config)
      (protectedPatternsOf config) invalidatedFiles (inferWorktreeRoot msgs)
      msgs).latestByFile g with
  | none => rw [hlat] at hsome; cases hsome
  | some l =>
    rw [hlat] at hsome
    simp only at hsome
    have hp2 := (Option.some.inj hsome).symm
    rw [hp2]
    simp only [isCompletedFileOpFor, extract_synthetic, hgst]
    simp [hgf]

/-- C3: a non-protected file belonging to the invalidation set has zero
visible completed file-operation Parts after either engine, provided every
file the consolidation pass consolidates and every file the finalization
pass treats as edited has a key that re-resolves to itself. -/
theorem claim_C3_invalidation_wipes (env : Env) (msgs : List ChatMessage)
    (config : WhitelistConfig) (invalidatedFiles : List String) (f : String)
    (hprot : isFileProtected f (protectedExtensionsOf config)
      (protectedPatternsOf config) = false)
    (hinv : invalidatedFiles.contains f = true)
    (hstableC : ∀ g ∈ cleanupConsolidatedFiles env msgs config invalidatedFiles,
      StableKey env (inferWorktreeRoot msgs) g)
    (hstableF : ∀ g ∈ finalizeEditedOf env msgs config invalidatedFiles,
      StableKey env (inferWorktreeRoot msgs) g) :
    completedFileOpsFor env (inferWorktreeRoot msgs) f
      (cleanupMessagesForContextJar env msgs config invalidatedFiles).1 = [] ∧
    completedFileOpsFor env (inferWorktreeRoot msgs) f
      (finalizeEditedFilesForNextStep env msgs config invalidatedFiles).1 = [] := by
  set root := inferWorktreeRoot msgs with hrootdef
  set exts := protectedExtensionsOf config with hextsdef
  set pats := protectedPatternsOf config with hpatsdef
  constructor
  · set scan := cleanupScan env exts pats invalidatedFiles root msgs with hscandef
    set plan := cleanupPlanOf scan invalidatedFiles with hplandef
    cases hne : scan.filesWithHistory.isEmpty with
    | true =>
      rw [cleanup_out_early env invalidatedFiles msgs config hne]
      unfold completedFileOpsFor
      refine filter_eq_nil_my ?_
      intro p hp
      cases hop : isCompletedFileOpFor env root f p with
      | false => rfl
      | true =>
        exfalso
        obtain ⟨tp, c, hp2, hc, hft, hex⟩ := isCompletedFileOpFor_spec hop
        rw [allParts_eq_map_enumParts] at hp
        rcases List.mem_map.mp hp with ⟨x, hx, hx2⟩
        have hmem : (x.1, ChatMessagePart.tool tp) ∈ enumParts msgs := by
          rw [← hp2, ← hx2]
          exact hx
        have hhist := scan_history_complete env exts pats invalidatedFiles root msgs f
          x.1 tp c hmem hc hft hex hprot
        cases hfh : scan.filesWithHistory with
        | nil => rw [hfh] at hhist; cases hhist
        | cons a l => rw [hfh] at hne; simp at hne
    | false =>
      have hA : (cleanupMessagesForContextJar env msgs config invalidatedFiles).1 =
          (enumP 0 msgs).map (fun im : Nat × ChatMessage =>
            { im.2 with parts := (enumP 0 im.2.parts).filterMap (fun jp : Nat × ChatMessagePart =>
                cleanupP3Keep env exts pats invalidatedFiles root scan plan (im.1, jp.1) jp.2) }) :=
        cleanup_out_eq env exts pats invalidatedFiles root msgs config hne hrootdef hextsdef
          hpatsdef
      have hB : allParts ((enumP 0 msgs).map (fun im : Nat × ChatMessage =>
          { im.2 with parts := (enumP 0 im.2.parts).filterMap (fun jp : Nat × ChatMessagePart =>
              cleanupP3Keep env exts pats invalidatedFiles root scan plan (im.1, jp.1) jp.2) })) =
          (enumParts msgs).filterMap (fun x =>
            cleanupP3Keep env exts pats invalidatedFiles root scan plan x.1 x.2) :=
        cleanup_allParts msgs (cleanupP3Keep env exts pats invalidatedFiles root scan plan)
      unfold completedFileOpsFor
      rw [hA, hB, filter_filterMap_my]
      refine filterMap_eq_nil_my ?_
      intro x hx
      show optGuard (isCompletedFileOpFor env root f)
        (cleanupP3Keep env exts pats invalidatedFiles root scan plan x.1 x.2) = none
      cases hres : cleanupP3Keep env exts pats invalidatedFiles root scan plan x.1 x.2 with
      | none => rfl
      | some q =>
        have hq := p3keep_none_or_effective env exts pats invalidatedFiles root scan plan
          x.1 x.2 q hres
        suffices hs : isCompletedFileOpFor env root f q = false by
          simp [optGuard, hs]
        cases hrw : mget plan.rewrites x.1 with
        | some r1 =>
          obtain ⟨g1, tpg1, hg1lr, hr1eq, hg1cons⟩ :=
            plan_rewrites_sound invalidatedFiles scan x.1 r1 hrw
          obtain ⟨hg1m, hg1tool, ⟨cg1, hcg1, _⟩, hg1ex, _, hg1inv⟩ :=
            scan_lastRead_sound env exts pats invalidatedFiles root msgs g1 x.1 tpg1 hg1lr
          have hexr1 : extractPrimaryFilePath env r1 root = some g1 := by
            rw [hr1eq, extract_rewriteKeeper env root g1 (mget scan.latestByFile g1) tpg1
              cg1 hcg1]
            exact hstableC g1 hg1cons
          have hgf : g1 ≠ f := by
            intro he
            rw [he] at hg1inv
            rw [hg1inv] at hinv
            cases hinv
          unfold cleanupEffectivePart at hq
          rw [hrw] at hq
          subst hq
          simp [isCompletedFileOpFor, hexr1, hgf]
        | none =>
          unfold cleanupEffectivePart at hq
          rw [hrw] at hq
          subst hq
          cases hop : isCompletedFileOpFor env root f x.2 with
          | false => rfl
          | true =>
            exfalso
            obtain ⟨tp, c, hx2, hc, hft, hex⟩ := isCompletedFileOpFor_spec hop
            have hmem : (x.1, ChatMessagePart.tool tp) ∈ enumParts msgs := by
              rw [← hx2]
              exact hx
            have hhist := scan_history_complete env exts pats invalidatedFiles root msgs f
              x.1 tp c hmem hc hft hex hprot
            have hnone : cleanupP3Keep env exts pats invalidatedFiles root scan plan
                x.1 x.2 = none := by
              unfold cleanupP3Keep cleanupEffectivePart
              rw [hrw, hx2]
              simp only [hc, hft, hex, List.elem_eq_true_of_mem hhist, hprot, hinv,
                Bool.not_true, Bool.not_false, Bool.false_eq_true, if_false, if_true]
            rw [hnone] at hres
            cases hres
  · rcases finalize_out_cases env msgs config invalidatedFiles with
      ⟨heq, hnotouch⟩ | heq | ⟨ai, heq⟩
    · rw [heq]
      unfold completedFileOpsFor
      refine filter_eq_nil_my ?_
      intro p hp
      cases hop : isCompletedFileOpFor env root f p with
      | false => rfl
      | true =>
        exfalso
        obtain ⟨tp, c, hp2, hc, hft, hex⟩ := isCompletedFileOpFor_spec hop
        subst hp2
        have htch : f ∈ (finalizeScan env exts pats invalidatedFiles root
            msgs).allTouchedFiles :=
          fscan_touched_complete env exts pats invalidatedFiles root msgs f tp c hp hc
            hex hprot
        have hcontr := hnotouch f htch
        rw [hcontr] at hinv
        cases hinv
    · rw [heq]
      unfold completedFileOpsFor
      refine filter_eq_nil_my ?_
      intro p hp
      exact finalizeWiped_no_fileops env msgs config invalidatedFiles f hprot hinv p hp
    · rw [heq]
      unfold completedFileOpsFor
      refine filter_eq_nil_my ?_
      intro p hp
      rcases mem_allParts_append_at hp with h1 | h2
      · exact finalizeWiped_no_fileops env msgs config invalidatedFiles f hprot hinv p h1
      · exact finalizeSynths_no_fileops env msgs config invalidatedFiles f hinv hstableF
          p h2

/-- C3 counterexample: a read of the unstable key `/a/b /.` is consolidated
under the key `/a/b `; its rewritten input re-resolves in pass 3 to the
invalidated file `/a/b`, which has no recorded history, so the rewritten
read survives: the output window has a visible completed file-operation
Part for the invalidated file. -/
theorem claim_C3_counterexample :
    isFileProtected "/a/b" (protectedExtensionsOf emptyConfig)
      (protectedPatternsOf emptyConfig) = false ∧
    (["/a/b"] : List String).contains "/a/b" = true ∧
    (completedFileOpsFor sampleEnv (inferWorktreeRoot c3ceMsgs) "/a/b"
      (cleanupMessagesForContextJar sampleEnv c3ceMsgs emptyConfig ["/a/b"]).1).length
      = 1 := by decide

/-- C3 witness: with ordinary stable keys, the invalidated `/w/c` has zero
visible file-operation Parts after both engines. -/
theorem claim_C3_invalidation_wipes_witness :
    completedFileOpsFor sampleEnv (inferWorktreeRoot c3wMsgs) "/w/c"
      (cleanupMessagesForContextJar sampleEnv c3wMsgs emptyConfig ["/w/c"]).1 = [] ∧
    completedFileOpsFor sampleEnv (inferWorktreeRoot c3wMsgs) "/w/c"
      (finalizeEditedFilesForNextStep sampleEnv c3wMsgs emptyConfig ["/w/c"]).1 = [] :=
  claim_C3_invalidation_wipes sampleEnv c3wMsgs emptyConfig ["/w/c"] "/w/c" (by decide)
    (by decide) (by decide) (by decide)


/-! ## Claim C10 — frame property for untouchable parts -/

/-- C10: under both engines, every untouchable part — every non-tool part,
non-completed tool part, completed non-file-tool part, and file-tool part
without a resolvable path — survives byte-identical and in order: per
message, the input's untouchable parts form a sublist of the output
message's parts. Only completed file-operation parts with a resolvable
path are ever removed or rewritten. -/
theorem claim_C10_frame_property (env : Env) (msgs : List ChatMessage)
    (config : WhitelistConfig) (invalidatedFiles : List String) :
    (∀ (i : Nat) (mIn mOut : ChatMessage), msgs[i]? = some mIn →
      (cleanupMessagesForContextJar env msgs config invalidatedFiles).1[i]? = some mOut →
      (mIn.parts.filter (untouchablePart env (inferWorktreeRoot msgs))).Sublist
        mOut.parts) ∧
    (∀ (i : Nat) (mIn mOut : ChatMessage), msgs[i]? = some mIn →
      (finalizeEditedFilesForNextStep env msgs config invalidatedFiles).1[i]? = some mOut →
      (mIn.parts.filter (untouchablePart env (inferWorktreeRoot msgs))).Sublist
        mOut.parts) := by
  set root := inferWorktreeRoot msgs with hrootdef
  set exts := protectedExtensionsOf config with hextsdef
  set pats := protectedPatternsOf config with hpatsdef
  constructor
  · -- consolidation engine
    intro i mIn mOut hin hout
    set scan := cleanupScan env exts pats invalidatedFiles root msgs with hscandef
    set plan := cleanupPlanOf scan invalidatedFiles with hplandef
    cases hne : scan.filesWithHistory.isEmpty with
    | true =>
      rw [cleanup_out_early env invalidatedFiles msgs config hne] at hout
      rw [hin] at hout
      cases hout
      exact List.filter_sublist _
    | false =>
      rw [cleanup_out_eq env exts pats invalidatedFiles root msgs config hne hrootdef
        hextsdef hpatsdef] at hout
      rw [getElem?_enumP_map, hin] at hout
      have hmOut : mOut =
          { mIn with
            parts :=
              (enumP 0 mIn.parts).filterMap (fun jp : Nat × ChatMessagePart =>
                cleanupP3Keep env exts pats invalidatedFiles root scan plan
                  (0 + i, jp.1) jp.2) } := by
        simpa using hout.symm
      rw [hmOut]
      refine filter_sublist_filterMap_enum
        (untouchablePart env root)
        (fun j p => cleanupP3Keep env exts pats invalidatedFiles root scan plan (0 + i, j) p)
        mIn.parts 0 ?_
      intro j p hj hpred
      show cleanupP3Keep env exts pats invalidatedFiles root scan plan (0 + i, 0 + j) p =
        some p
      have hmem : ((0 + i, 0 + j), p) ∈ enumParts msgs := by
        rw [mem_enumParts]
        refine ⟨mIn, by simpa using hin, by simpa using hj⟩
      -- no rewrite sits at this position: the keeper there is a completed,
      -- resolvable read, which is touchable
      have hnorw : mget plan.rewrites (0 + i, 0 + j) = none := by
        cases hrwx : mget plan.rewrites (0 + i, 0 + j) with
        | none => rfl
        | some r =>
          exfalso
          obtain ⟨g, tpg, hglr, _, _⟩ := plan_rewrites_sound invalidatedFiles scan
            (0 + i, 0 + j) r hrwx
          obtain ⟨hgm, hgtool, ⟨cg, hcg, _⟩, hgex, _, _⟩ :=
            scan_lastRead_sound env exts pats invalidatedFiles root msgs g (0 + i, 0 + j)
              tpg hglr
          have hpeq : p = ChatMessagePart.tool tpg := enumParts_unique hmem hgm
          rw [hpeq] at hpred
          have hftg : isFileTool tpg.tool = true := by simp [isFileTool, hgtool]
          simp only [untouchablePart, hcg, hftg, hgex, Bool.not_true, Option.isNone_some,
            Bool.or_self] at hpred
          cases hpred
      unfold cleanupP3Keep cleanupEffectivePart
      rw [hnorw]
      cases p with
      | other k pl => rfl
      | tool tpp =>
        cases hst : tpp.state with
        | pending i2 r => simp only [hst]
        | running i2 => simp only [hst]
        | error i2 e2 => simp only [hst]
        | completed cp =>
          cases hft : isFileTool tpp.tool with
          | false => simp [hst, hft]
          | true =>
            cases hex : extractPrimaryFilePath env tpp root with
            | none => simp [hst, hft, hex]
            | some fp =>
              exfalso
              simp only [untouchablePart, hst, hft, hex, Bool.not_true, Option.isNone_some,
                Bool.or_self] at hpred
              cases hpred
  · -- finalization engine
    intro i mIn mOut hin hout
    have hpkeep : ∀ p ∈ mIn.parts,
        untouchablePart env root p = true →
        finalizeWipeKeep env exts pats invalidatedFiles root
          (finalizeScan env exts pats invalidatedFiles root msgs).editedFiles p = some p := by
      intro p _ hpred
      cases p with
      | other k pl => rfl
      | tool tpp =>
        unfold finalizeWipeKeep
        cases hst : tpp.state with
        | pending i2 r => simp only [hst]
        | running i2 => simp only [hst]
        | error i2 e2 => simp only [hst]
        | completed cp =>
          cases hex : extractPrimaryFilePath env tpp root with
          | none => simp [hst, hex]
          | some fp =>
            have hftf : isFileTool tpp.tool = false := by
              simp only [untouchablePart, hst, hex, Option.isNone_some, Bool.or_false,
                Bool.not_eq_true'] at hpred
              exact hpred
            simp [hst, hex, hftf]
    rcases finalize_out_shape env msgs config invalidatedFiles with hsh | hsh | ⟨ai, hsh⟩
    · rw [hsh, hin] at hout
      cases hout
      exact List.filter_sublist _
    · rw [hsh] at hout
      unfold finalizeWiped at hout
      rw [List.getElem?_map, hin] at hout
      have hmOut : mOut =
          { mIn with
            parts :=
              mIn.parts.filterMap
                (finalizeWipeKeep env exts pats invalidatedFiles root
                  (finalizeScan env exts pats invalidatedFiles root msgs).editedFiles) } := by
        simpa using hout.symm
      rw [hmOut]
      exact filter_sublist_filterMap _ _ hpkeep
    · rw [hsh] at hout
      rw [getElem?_enumP_map] at hout
      unfold finalizeWiped at hout
      rw [List.getElem?_map, hin] at hout
      by_cases hai : 0 + i = ai
      · have hai2 : i = ai := by simpa using hai
        have hmOut : mOut =
            { mIn with
              parts :=
                mIn.parts.filterMap
                  (finalizeWipeKeep env exts pats invalidatedFiles root
                    (finalizeScan env exts pats invalidatedFiles root msgs).editedFiles) ++
                  finalizeSynthsOf env msgs config invalidatedFiles } := by
          simpa [hai2] using hout.symm
        rw [hmOut]
        exact (filter_sublist_filterMap _ _ hpkeep).trans
          (List.sublist_append_left _ _)
      · have hai2 : ¬(i = ai) := by simpa using hai
        have hmOut : mOut =
            { mIn with
              parts :=
                mIn.parts.filterMap
                  (finalizeWipeKeep env exts pats invalidatedFiles root
                    (finalizeScan env exts pats invalidatedFiles root msgs).editedFiles) } := by
          simpa [hai2] using hout.symm
        rw [hmOut]
        exact filter_sublist_filterMap _ _ hpkeep


/-! ## Claim C2 — windows without an assistant message -/

theorem finalizeWipeKeep_none_or_self (env : Env) (exts pats invalidatedFiles : List String)
    (root : Option String) (editedFiles : List String) (p : ChatMessagePart) :
    finalizeWipeKeep env exts pats invalidatedFiles root editedFiles p = none ∨
    finalizeWipeKeep env exts pats invalidatedFiles root editedFiles p = some p := by
  cases h : finalizeWipeKeep env exts pats invalidatedFiles root editedFiles p with
  | none => exact Or.inl rfl
  | some q =>
    refine Or.inr ?_
    rw [finalizeWipeKeep_some_eq env exts pats invalidatedFiles root editedFiles p q h]

theorem findLastAssistantIdx_roles (msgs : List ChatMessage)
    (h : ∀ m ∈ msgs, (m.role == "assistant") = false) :
    findLastAssistantIdx msgs = none := by
  unfold findLastAssistantIdx
  refine foldl_inv (P := fun acc => acc = none)
    (Q := fun im : Nat × ChatMessage => (im.2.role == "assistant") = false)
    (fun acc im => if im.2.role == "assistant" then some im.1 else acc) ?_
    (enumP 0 msgs) none ?_ rfl
  · intro acc im hq hP
    show (if (im.2.role == "assistant") = true then some im.1 else acc) = none
    rw [hq]
    simpa using hP
  · intro x hx
    have h2 := List.mem_map_of_mem Prod.snd hx
    rw [enumP_map_snd] at h2
    exact h x.2 h2

theorem finalize_out_shape2 (env : Env) (msgs : List ChatMessage) (config : WhitelistConfig)
    (invalidatedFiles : List String) :
    (finalizeEditedFilesForNextStep env msgs config invalidatedFiles).1 = msgs ∨
    ((finalizeEditedFilesForNextStep env msgs config invalidatedFiles).1 =
        finalizeWiped env msgs config invalidatedFiles ∨
      ∃ ai, findLastAssistantIdx (finalizeWiped env msgs config invalidatedFiles) = some ai ∧
        (finalizeEditedFilesForNextStep env msgs config invalidatedFiles).1 =
        (enumP 0 (finalizeWiped env msgs config invalidatedFiles)).map
          (fun im : Nat × ChatMessage =>
            if im.1 = ai then
              { im.2 with parts := im.2.parts ++
                  finalizeSynthsOf env msgs config invalidatedFiles }
            else im.2)) := by
  unfold finalizeEditedFilesForNextStep finalizeWiped finalizeSynthsOf
  dsimp only []
  split
  · exact Or.inl rfl
  · refine Or.inr ?_
    split
    · exact Or.inl rfl
    · rename_i ai hai
      exact Or.inr ⟨ai, hai, rfl⟩

/-- C2: in a window with no assistant-authored message, the finalization
pass attaches no synthetic content — each output message's parts are a
sublist of that message's input parts. (It is not a no-op: the wipe phase
still runs and can remove completed file-operation parts.) -/
theorem claim_C2_no_assistant (env : Env) (msgs : List ChatMessage)
    (config : WhitelistConfig) (invalidatedFiles : List String)
    (hnoassist : ∀ m ∈ msgs, (m.role == "assistant") = false) :
    ∀ (i : Nat) (mIn mOut : ChatMessage), msgs[i]? = some mIn →
      (finalizeEditedFilesForNextStep env msgs config invalidatedFiles).1[i]? = some mOut →
      mOut.parts.Sublist mIn.parts := by
  set root := inferWorktreeRoot msgs with hrootdef
  set exts := protectedExtensionsOf config with hextsdef
  set pats := protectedPatternsOf config with hpatsdef
  intro i mIn mOut hin hout
  rcases finalize_out_shape2 env msgs config invalidatedFiles with hsh | hsh | ⟨ai, hfind, hsh⟩
  · rw [hsh, hin] at hout
    cases hout
    exact List.Sublist.refl _
  · rw [hsh] at hout
    unfold finalizeWiped at hout
    rw [List.getElem?_map, hin] at hout
    have hmOut : mOut =
        { mIn with
          parts :=
            mIn.parts.filterMap
              (finalizeWipeKeep env exts pats invalidatedFiles root
                (finalizeScan env exts pats invalidatedFiles root msgs).editedFiles) } := by
      simpa using hout.symm
    rw [hmOut]
    exact filterMap_sublist_of_none_or_self fun p _ =>
      finalizeWipeKeep_none_or_self env exts pats invalidatedFiles root _ p
  · exfalso
    have hw : ∀ m ∈ finalizeWiped env msgs config invalidatedFiles,
        (m.role == "assistant") = false := by
      intro m hm
      unfold finalizeWiped at hm
      rcases List.mem_map.mp hm with ⟨m0, hm0, heqm⟩
      have h0 := hnoassist m0 hm0
      rw [← heqm]
      exact h0
    rw [findLastAssistantIdx_roles _ hw] at hfind
    cases hfind

/-- C2 counterexample: a user-only window with one completed edit is not
left unchanged — the wipe phase removes the edit part even though no
assistant message exists to receive a synthetic read. -/
theorem claim_C2_counterexample :
    (∀ m ∈ c2ceMsgs, (m.role == "assistant") = false) ∧
    (c2ceMsgs.map fun m => m.parts.length) = [1] ∧
    ((finalizeEditedFilesForNextStep sampleEnv c2ceMsgs emptyConfig []).1.map
      fun m => m.parts.length) = [0] := by decide

/-- C2 witness: the amended statement applied to the user-only window. -/
theorem claim_C2_no_assistant_witness :
    (ChatMessage.parts ⟨"user", none, []⟩).Sublist
      (ChatMessage.parts ⟨"user", none, [.tool (mkEditPart "c1" "/w/a" "X")]⟩) :=
  claim_C2_no_assistant sampleEnv c2ceMsgs emptyConfig [] (by decide) 0
    ⟨"user", none, [.tool (mkEditPart "c1" "/w/a" "X")]⟩ ⟨"user", none, []⟩
    (by decide) (by decide)


/-! ## Claim C8 — idempotence of the finalization pass -/

theorem map_congr_my {a b : Type} {l : List a} {f g : a → b}
    (h : ∀ x ∈ l, f x = g x) : l.map f = l.map g := by
  induction l with
  | nil => rfl
  | cons hd tl ih =>
    rw [List.map_cons, List.map_cons, h hd (List.mem_cons_self hd tl)]
    exact congrArg _ (ih fun x hx => h x (List.mem_cons_of_mem hd hx))

theorem findSome?_map_my {a b c : Type} (f : a → b) (g : b → Option c) (h : a → Option c)
    (hp : ∀ x, h x = g (f x)) :
    ∀ l : List a, (l.map f).findSome? g = l.findSome? h := by
  intro l
  induction l with
  | nil => rfl
  | cons hd tl ih =>
    rw [List.map_cons, List.findSome?_cons, List.findSome?_cons, hp hd]
    cases g (f hd) with
    | some y => rfl
    | none => exact ih

theorem inferWorktreeRoot_eq_of_roots (l1 l2 : List ChatMessage)
    (h : l1.map (fun m => m.root) = l2.map (fun m => m.root)) :
    inferWorktreeRoot l1 = inferWorktreeRoot l2 := by
  unfold inferWorktreeRoot
  rw [← findSome?_map_my (fun m => m.root) (fun ro =>
      match ro with
      | some r => if r ≠ "" then some r else none
      | none => none) _ (fun x => rfl) l1.reverse,
    ← findSome?_map_my (fun m => m.root) (fun ro =>
      match ro with
      | some r => if r ≠ "" then some r else none
      | none => none) _ (fun x => rfl) l2.reverse,
    List.map_reverse, List.map_reverse, h]

theorem inferWorktreeRoot_map (F : ChatMessage → ChatMessage)
    (hF : ∀ m, (F m).root = m.root) (l : List ChatMessage) :
    inferWorktreeRoot (l.map F) = inferWorktreeRoot l := by
  refine inferWorktreeRoot_eq_of_roots _ _ ?_
  rw [List.map_map]
  exact map_congr_my fun x _ => hF x

theorem inferWorktreeRoot_append_at (msgs2 : List ChatMessage)
    (synths : List ChatMessagePart) (ai : Nat) :
    inferWorktreeRoot ((enumP 0 msgs2).map (fun im : Nat × ChatMessage =>
      if im.1 = ai then { im.2 with parts := im.2.parts ++ synths } else im.2)) =
    inferWorktreeRoot msgs2 := by
  refine inferWorktreeRoot_eq_of_roots _ _ ?_
  rw [List.map_map]
  have hpt : ∀ im ∈ enumP 0 msgs2,
      ((fun m : ChatMessage => m.root) ∘ (fun im : Nat × ChatMessage =>
        if im.1 = ai then { im.2 with parts := im.2.parts ++ synths } else im.2)) im =
      ((fun m : ChatMessage => m.root) ∘ Prod.snd) im := by
    intro im _
    by_cases h : im.1 = ai
    · simp [Function.comp, h]
    · simp [Function.comp, h]
  rw [map_congr_my hpt, ← List.map_map, enumP_map_snd]

theorem enumP_map_append_nil (l : List ChatMessage) (ai : Nat) :
    (enumP 0 l).map (fun im : Nat × ChatMessage =>
      if im.1 = ai then { im.2 with parts := im.2.parts ++ ([] : List ChatMessagePart) }
      else im.2) = l := by
  have hpt : ∀ im ∈ enumP 0 l,
      (fun im : Nat × ChatMessage =>
        if im.1 = ai then { im.2 with parts := im.2.parts ++ ([] : List ChatMessagePart) }
        else im.2) im = Prod.snd im := by
    intro im _
    by_cases h : im.1 = ai
    · simp only [h, if_true, List.append_nil]
    · simp only [h, if_false]
  rw [map_congr_my hpt, enumP_map_snd]

theorem map_filterMap_id_my (g : ChatMessagePart → Option ChatMessagePart) :
    ∀ msgs : List ChatMessage, (∀ p ∈ allParts msgs, g p = some p) →
    (msgs.map fun m => { m with parts := m.parts.filterMap g }) = msgs := by
  intro msgs
  induction msgs with
  | nil => intro _; rfl
  | cons hd tl ih =>
    intro h
    rw [List.map_cons]
    have hhd : hd.parts.filterMap g = hd.parts := filterMap_eq_self_my fun p hp =>
      h p (List.mem_flatMap.mpr ⟨hd, List.mem_cons_self hd tl, hp⟩)
    have htl : (tl.map fun m => { m with parts := m.parts.filterMap g }) = tl := by
      refine ih fun p hp => h p ?_
      rcases List.mem_flatMap.mp hp with ⟨m, hm, hpm⟩
      exact List.mem_flatMap.mpr ⟨m, List.mem_cons_of_mem hd hm, hpm⟩
    rw [hhd, htl]


section FinalizeLemmas2

variable (env : Env) (exts pats invalidatedFiles : List String) (root : Option String)

theorem fgather_edited_mono (st : FinalizeScan) (p : ChatMessagePart) (f : String)
    (h : f ∈ st.editedFiles) :
    f ∈ (finalizeGatherStep env exts pats invalidatedFiles root st p).editedFiles := by
  unfold finalizeGatherStep
  dsimp only []
  repeat' split
  all_goals first | exact h | exact mem_sadd_of_mem h

theorem fgather_edited_trigger_edit (st : FinalizeScan) (tp : ToolPart)
    (c : ToolStateCompletedData) (f a : String)
    (hc : tp.state = .completed c)
    (hed : (tp.tool == "edit" || tp.tool == "multiedit") = true)
    (haft : extractAfterFromEditMetadata c.metadata = some a)
    (hex : extractPrimaryFilePath env tp root = some f)
    (hprot : isFileProtected f exts pats = false)
    (hninv : invalidatedFiles.contains f = false) :
    f ∈ (finalizeGatherStep env exts pats invalidatedFiles root st
      (.tool tp)).editedFiles := by
  unfold finalizeGatherStep
  simp only [hc, hex, hprot, hninv, hed, haft, Bool.false_eq_true, if_false, if_true]
  exact self_mem_sadd

theorem fgather_edited_trigger_write (st : FinalizeScan) (tp : ToolPart)
    (c : ToolStateCompletedData) (f content : String)
    (hc : tp.state = .completed c)
    (hed : (tp.tool == "edit" || tp.tool == "multiedit") = false)
    (hwr : (tp.tool == "write") = true)
    (hct : c.input.content = some content)
    (hex : extractPrimaryFilePath env tp root = some f)
    (hprot : isFileProtected f exts pats = false)
    (hninv : invalidatedFiles.contains f = false) :
    f ∈ (finalizeGatherStep env exts pats invalidatedFiles root st
      (.tool tp)).editedFiles := by
  unfold finalizeGatherStep
  simp only [hc, hex, hprot, hninv, hed, hwr, hct, Bool.false_eq_true, if_false, if_true]
  exact self_mem_sadd

theorem fscan_edited_complete_edit (msgs : List ChatMessage) (f : String)
    (tp : ToolPart) (c : ToolStateCompletedData) (a : String)
    (hmem : ChatMessagePart.tool tp ∈ allParts msgs)
    (hc : tp.state = .completed c)
    (hed : (tp.tool == "edit" || tp.tool == "multiedit") = true)
    (haft : extractAfterFromEditMetadata c.metadata = some a)
    (hex : extractPrimaryFilePath env tp root = some f)
    (hprot : isFileProtected f exts pats = false)
    (hninv : invalidatedFiles.contains f = false) :
    f ∈ (finalizeScan env exts pats invalidatedFiles root msgs).editedFiles :=
  foldl_reach (finalizeGatherStep env exts pats invalidatedFiles root)
    (fun st x h => fgather_edited_mono env exts pats invalidatedFiles root st x f h)
    (fun st => fgather_edited_trigger_edit env exts pats invalidatedFiles root st tp c f a
      hc hed haft hex hprot hninv)
    (allParts msgs) ⟨[], [], []⟩ hmem

theorem fscan_edited_complete_write (msgs : List ChatMessage) (f : String)
    (tp : ToolPart) (c : ToolStateCompletedData) (content : String)
    (hmem : ChatMessagePart.tool tp ∈ allParts msgs)
    (hc : tp.state = .completed c)
    (hed : (tp.tool == "edit" || tp.tool == "multiedit") = false)
    (hwr : (tp.tool == "write") = true)
    (hct : c.input.content = some content)
    (hex : extractPrimaryFilePath env tp root = some f)
    (hprot : isFileProtected f exts pats = false)
    (hninv : invalidatedFiles.contains f = false) :
    f ∈ (finalizeScan env exts pats invalidatedFiles root msgs).editedFiles :=
  foldl_reach (finalizeGatherStep env exts pats invalidatedFiles root)
    (fun st x h => fgather_edited_mono env exts pats invalidatedFiles root st x f h)
    (fun st => fgather_edited_trigger_write env exts pats invalidatedFiles root st tp c f
      content hc hed hwr hct hex hprot hninv)
    (allParts msgs) ⟨[], [], []⟩ hmem

theorem fgather_edited_nil_step (st : FinalizeScan) (p : ChatMessagePart)
    (hfree : ∀ tp, p = .tool tp → ∀ c, tp.state = .completed c →
      ∀ fp, extractPrimaryFilePath env tp root = some fp →
      isFileProtected fp exts pats = false → invalidatedFiles.contains fp = false →
      ((tp.tool == "edit" || tp.tool == "multiedit") = true →
        extractAfterFromEditMetadata c.metadata = none) ∧
      ((tp.tool == "write") = true → c.input.content = none))
    (hP : st.editedFiles = []) :
    (finalizeGatherStep env exts pats invalidatedFiles root st p).editedFiles = [] := by
  cases p with
  | other k pl => exact hP
  | tool tp =>
    unfold finalizeGatherStep
    dsimp only []
    cases hstate : tp.state with
    | pending i r => exact hP
    | running i => exact hP
    | error i e => exact hP
    | completed c =>
      cases hex : extractPrimaryFilePath env tp root with
      | none => exact hP
      | some fp =>
        cases hprot2 : isFileProtected fp exts pats with
        | true => simp only [hprot2, if_true]; exact hP
        | false =>
          simp only [hprot2, Bool.false_eq_true, if_false]
          cases hinvfp : invalidatedFiles.contains fp with
          | true => simp only [hinvfp, if_true]; exact hP
          | false =>
            simp only [hinvfp, Bool.false_eq_true, if_false]
            obtain ⟨hfe, hfw⟩ := hfree tp rfl c hstate fp hex hprot2 hinvfp
            cases hed : (tp.tool == "edit" || tp.tool == "multiedit") with
            | true =>
              simp only [hed, if_true, hfe hed]
              exact hP
            | false =>
              simp only [hed, Bool.false_eq_true, if_false]
              cases hwr : (tp.tool == "write") with
              | true =>
                simp only [hwr, if_true, hfw hwr]
                exact hP
              | false =>
                simp only [hwr, Bool.false_eq_true, if_false]
                cases hrd : (tp.tool == "read") with
                | true =>
                  simp only [hrd, if_true]
                  split
                  · exact hP
                  · exact hP
                | false =>
                  simp only [hrd, Bool.false_eq_true, if_false]
                  exact hP

theorem fscan_edited_nil (msgs2 : List ChatMessage)
    (hfree : ∀ p ∈ allParts msgs2, ∀ tp, p = .tool tp → ∀ c, tp.state = .completed c →
      ∀ fp, extractPrimaryFilePath env tp root = some fp →
      isFileProtected fp exts pats = false → invalidatedFiles.contains fp = false →
      ((tp.tool == "edit" || tp.tool == "multiedit") = true →
        extractAfterFromEditMetadata c.metadata = none) ∧
      ((tp.tool == "write") = true → c.input.content = none)) :
    (finalizeScan env exts pats invalidatedFiles root msgs2).editedFiles = [] :=
  foldl_inv (P := fun st => st.editedFiles = [])
    (Q := fun p => ∀ tp, p = .tool tp → ∀ c, tp.state = .completed c →
      ∀ fp, extractPrimaryFilePath env tp root = some fp →
      isFileProtected fp exts pats = false → invalidatedFiles.contains fp = false →
      ((tp.tool == "edit" || tp.tool == "multiedit") = true →
        extractAfterFromEditMetadata c.metadata = none) ∧
      ((tp.tool == "write") = true → c.input.content = none))
    (finalizeGatherStep env exts pats invalidatedFiles root)
    (fun st p hq hP => fgather_edited_nil_step env exts pats invalidatedFiles root st p hq hP)
    (allParts msgs2) ⟨[], [], []⟩ hfree rfl

theorem fgather_edited_latest_step (st : FinalizeScan) (p : ChatMessagePart)
    (hP : ∀ g ∈ st.editedFiles, (mget st.latestByFile g).isSome = true) :
    ∀ g ∈ (finalizeGatherStep env exts pats invalidatedFiles root st p).editedFiles,
      (mget (finalizeGatherStep env exts pats invalidatedFiles root st p).latestByFile
        g).isSome = true := by
  cases p with
  | other k pl => exact hP
  | tool tp =>
    unfold finalizeGatherStep
    dsimp only []
    cases hstate : tp.state with
    | pending i r => exact hP
    | running i => exact hP
    | error i e => exact hP
    | completed c =>
      cases hex : extractPrimaryFilePath env tp root with
      | none => exact hP
      | some fp =>
        cases hprot2 : isFileProtected fp exts pats with
        | true => simp only [hprot2, if_true]; exact hP
        | false =>
          simp only [hprot2, Bool.false_eq_true, if_false]
          cases hinvfp : invalidatedFiles.contains fp with
          | true => simp only [hinvfp, if_true]; exact hP
          | false =>
            simp only [hinvfp, Bool.false_eq_true, if_false]
            cases hed : (tp.tool == "edit" || tp.tool == "multiedit") with
            | true =>
              simp only [hed, if_true]
              cases haft : extractAfterFromEditMetadata c.metadata with
              | none => simp only [haft]; exact hP
              | some a =>
                simp only [haft]
                intro g hg
                rcases mem_sadd.mp hg with hgm | heq
                · exact mget_isSome_mset _ _ _ _ (hP g hgm)
                · rw [heq, mget_mset_self]
                  rfl
            | false =>
              simp only [hed, Bool.false_eq_true, if_false]
              cases hwr : (tp.tool == "write") with
              | true =>
                simp only [hwr, if_true]
                cases hct : c.input.content with
                | none => simp only [hct]; exact hP
                | some content =>
                  simp only [hct]
                  intro g hg
                  rcases mem_sadd.mp hg with hgm | heq
                  · exact mget_isSome_mset _ _ _ _ (hP g hgm)
                  · rw [heq, mget_mset_self]
                    rfl
              | false =>
                simp only [hwr, Bool.false_eq_true, if_false]
                cases hrd : (tp.tool == "read") with
                | true =>
                  simp only [hrd, if_true]
                  split
                  · intro g hg
                    exact mget_isSome_mset _ _ _ _ (hP g hg)
                  · exact hP
                | false =>
                  simp only [hrd, Bool.false_eq_true, if_false]
                  exact hP

theorem fscan_edited_latest (msgs : List ChatMessage) (g : String)
    (hg : g ∈ (finalizeScan env exts pats invalidatedFiles root msgs).editedFiles) :
    (mget (finalizeScan env exts pats invalidatedFiles root msgs).latestByFile
      g).isSome = true := by
  refine foldl_inv
    (P := fun st => ∀ g ∈ st.editedFiles, (mget st.latestByFile g).isSome = true)
    (Q := fun _ => True) (finalizeGatherStep env exts pats invalidatedFiles root)
    (fun st p _ hP => fgather_edited_latest_step env exts pats invalidatedFiles root st p hP)
    (allParts msgs) ⟨[], [], []⟩ (fun _ _ => trivial) ?_ g hg
  intro g2 hg2
  cases hg2

theorem sadd_nodup {a : Type} [BEq a] [LawfulBEq a] {s : List a} (h : s.Nodup) (x : a) :
    (sadd s x).Nodup := by
  unfold sadd
  split
  · exact h
  · rename_i hc
    have hx : x ∉ s := by
      intro hm
      exact hc (List.elem_eq_true_of_mem hm)
    simp [List.nodup_append, h, hx]

theorem fgather_edited_nodup (st : FinalizeScan) (p : ChatMessagePart)
    (hP : st.editedFiles.Nodup) :
    (finalizeGatherStep env exts pats invalidatedFiles root st p).editedFiles.Nodup := by
  unfold finalizeGatherStep
  dsimp only []
  repeat' split
  all_goals first | exact hP | exact sadd_nodup hP _

theorem fscan_edited_nodup (msgs : List ChatMessage) :
    (finalizeScan env exts pats invalidatedFiles root msgs).editedFiles.Nodup :=
  foldl_mono (P := fun st => st.editedFiles.Nodup)
    (finalizeGatherStep env exts pats invalidatedFiles root)
    (fun st p hP => fgather_edited_nodup env exts pats invalidatedFiles root st p hP)
    (allParts msgs) ⟨[], [], []⟩ List.nodup_nil

theorem fgather_edited_unprot (st : FinalizeScan) (p : ChatMessagePart)
    (hP : ∀ g ∈ st.editedFiles, isFileProtected g exts pats = false) :
    ∀ g ∈ (finalizeGatherStep env exts pats invalidatedFiles root st p).editedFiles,
      isFileProtected g exts pats = false := by
  intro g hg
  cases p with
  | other k pl => exact hP g hg
  | tool tp =>
    unfold finalizeGatherStep at hg
    simp only at hg
    cases hstate : tp.state with
    | pending i r => rw [hstate] at hg; exact hP g hg
    | running i => rw [hstate] at hg; exact hP g hg
    | error i e => rw [hstate] at hg; exact hP g hg
    | completed c =>
      rw [hstate] at hg
      cases hex : extractPrimaryFilePath env tp root with
      | none => rw [hex] at hg; exact hP g hg
      | some fp =>
        rw [hex] at hg
        cases hprot2 : isFileProtected fp exts pats with
        | true => simp only [hprot2, if_true] at hg; exact hP g hg
        | false =>
          simp only [hprot2, Bool.false_eq_true, if_false] at hg
          cases hinvfp : invalidatedFiles.contains fp with
          | true => simp only [hinvfp, if_true] at hg; exact hP g hg
          | false =>
            simp only [hinvfp, Bool.false_eq_true, if_false] at hg
            cases hed : (tp.tool == "edit" || tp.tool == "multiedit") with
            | true =>
              simp only [hed, if_true] at hg
              cases haft : extractAfterFromEditMetadata c.metadata with
              | none => rw [haft] at hg; exact hP g hg
              | some after =>
                rw [haft] at hg
                simp only at hg
                rcases mem_sadd.mp hg with hgm | heq
                · exact hP g hgm
                · rw [heq]; exact hprot2
            | false =>
              simp only [hed, Bool.false_eq_true, if_false] at hg
              cases hwr : (tp.tool == "write") with
              | true =>
                simp only [hwr, if_true] at hg
                cases hct : c.input.content with
                | none => rw [hct] at hg; exact hP g hg
                | some content =>
                  rw [hct] at hg
                  simp only at hg
                  rcases mem_sadd.mp hg with hgm | heq
                  · exact hP g hgm
                  · rw [heq]; exact hprot2
              | false =>
                simp only [hwr, Bool.false_eq_true, if_false] at hg
                cases hrd : (tp.tool == "read") with
                | true =>
                  simp only [hrd, if_true] at hg
                  split at hg
                  · exact hP g hg
                  · exact hP g hg
                | false =>
                  simp only [hrd, Bool.false_eq_true, if_false] at hg
                  exact hP g hg

theorem fscan_edited_unprot (msgs : List ChatMessage) (g : String)
    (h : g ∈ (finalizeScan env exts pats invalidatedFiles root msgs).editedFiles) :
    isFileProtected g exts pats = false := by
  refine foldl_inv
    (P := fun st => ∀ g ∈ st.editedFiles, isFileProtected g exts pats = false)
    (Q := fun _ => True) (finalizeGatherStep env exts pats invalidatedFiles root)
    (fun st p _ hP => fgather_edited_unprot env exts pats invalidatedFiles root st p hP)
    (allParts msgs) ⟨[], [], []⟩ (fun _ _ => trivial) ?_ g h
  intro g2 hg2
  cases hg2

end FinalizeLemmas2


theorem makeSynthetic_state (env : Env) (fp out lab : String) :
    ∃ c, (makeSyntheticReadPart env fp out lab).state = ToolState.completed c ∧
      c.input.filePath = some fp :=
  ⟨_, rfl, rfl⟩

theorem makeSynthetic_tool (env : Env) (fp out lab : String) :
    (makeSyntheticReadPart env fp out lab).tool = "read" := rfl

section FinalizeLemmas3

variable (env : Env) (exts pats invalidatedFiles : List String) (root : Option String)

theorem isFileTool_of_editty {t : String} (h : (t == "edit" || t == "multiedit") = true) :
    isFileTool t = true := by
  rcases Bool.or_eq_true_iff.mp h with h1 | h1
  · rw [eq_of_beq h1]
    rfl
  · rw [eq_of_beq h1]
    rfl

theorem isFileTool_of_write {t : String} (h : (t == "write") = true) :
    isFileTool t = true := by
  rw [eq_of_beq h]
  rfl

theorem finalizeWipeKeep_some_nil (E : List String) (p : ChatMessagePart)
    (h : finalizeWipeKeep env exts pats invalidatedFiles root E p = some p) :
    finalizeWipeKeep env exts pats invalidatedFiles root [] p = some p := by
  cases p with
  | other k pl => rfl
  | tool tp =>
    cases hstate : tp.state with
    | pending i r => unfold finalizeWipeKeep; simp only [hstate]
    | running i => unfold finalizeWipeKeep; simp only [hstate]
    | error i e => unfold finalizeWipeKeep; simp only [hstate]
    | completed c =>
      cases hex : extractPrimaryFilePath env tp root with
      | none => unfold finalizeWipeKeep; simp only [hstate, hex]
      | some fp =>
        cases hprot2 : isFileProtected fp exts pats with
        | true =>
          unfold finalizeWipeKeep
          simp only [hstate, hex, hprot2, if_true]
        | false =>
          have hcn : ([] : List String).contains fp = false := rfl
          cases hinvfp : invalidatedFiles.contains fp with
          | false =>
            unfold finalizeWipeKeep
            simp only [hstate, hex, hprot2, Bool.false_eq_true, if_false, hcn, hinvfp,
              Bool.or_false, Bool.not_false, if_true]
          | true =>
            cases hft : isFileTool tp.tool with
            | false =>
              unfold finalizeWipeKeep
              simp only [hstate, hex, hprot2, Bool.false_eq_true, if_false, hcn, hinvfp,
                Bool.or_true, Bool.not_true, if_false, hft]
            | true =>
              exfalso
              have hnone : finalizeWipeKeep env exts pats invalidatedFiles root E
                  (ChatMessagePart.tool tp) = none := by
                unfold finalizeWipeKeep
                simp only [hstate, hex, hprot2, Bool.false_eq_true, if_false, hinvfp,
                  Bool.or_true, Bool.not_true, if_true, hft]
              rw [hnone] at h
              cases h

theorem finalizeWipeKeep_synth (g out lab : String)
    (hg : normalizeFilePath env (some g) root = some g)
    (hginv : invalidatedFiles.contains g = false) :
    finalizeWipeKeep env exts pats invalidatedFiles root []
      (.tool (makeSyntheticReadPart env g out lab)) =
      some (.tool (makeSyntheticReadPart env g out lab)) := by
  obtain ⟨c, hst, _⟩ := makeSynthetic_state env g out lab
  have hex : extractPrimaryFilePath env (makeSyntheticReadPart env g out lab) root =
      some g := by
    rw [extract_synthetic]
    exact hg
  unfold finalizeWipeKeep
  dsimp only []
  rw [hst, hex]
  have hcn : ([] : List String).contains g = false := rfl
  simp only [hcn, hginv, Bool.or_false, Bool.not_false, if_true]
  split
  · rfl
  · rfl

theorem mem_finalizeSynths (msgs : List ChatMessage) (config : WhitelistConfig)
    (invalidatedFiles2 : List String) (p : ChatMessagePart)
    (hp : p ∈ finalizeSynthsOf env msgs config invalidatedFiles2) :
    ∃ g, g ∈ finalizeEditedOf env msgs config invalidatedFiles2 ∧
      invalidatedFiles2.contains g = false ∧
      ∃ out lab, p = .tool (makeSyntheticReadPart env g out lab) := by
  unfold finalizeSynthsOf finalizeSynthetics at hp
  rcases List.mem_filterMap.mp hp with ⟨g, hg, hsome⟩
  refine ⟨g, hg, fscan_edited_sound env (protectedExtensionsOf config)
    (protectedPatternsOf config) invalidatedFiles2 (inferWorktreeRoot msgs) msgs g hg, ?_⟩
  cases hlat : mget (finalizeScan env (protectedExtensionsOf config)
      (protectedPatternsOf config) invalidatedFiles2 (inferWorktreeRoot msgs)
      msgs).latestByFile g with
  | none => rw [hlat] at hsome; cases hsome
  | some l =>
    rw [hlat] at hsome
    simp only at hsome
    exact ⟨_, _, (Option.some.inj hsome).symm⟩

end FinalizeLemmas3

theorem finalize_id_of (env : Env) (msgs2 : List ChatMessage) (config : WhitelistConfig)
    (invalidatedFiles : List String)
    (hE : (finalizeScan env (protectedExtensionsOf config) (protectedPatternsOf config)
      invalidatedFiles (inferWorktreeRoot msgs2) msgs2).editedFiles = [])
    (hkeep : ∀ p ∈ allParts msgs2, finalizeWipeKeep env (protectedExtensionsOf config)
      (protectedPatternsOf config) invalidatedFiles (inferWorktreeRoot msgs2) [] p =
        some p) :
    (finalizeEditedFilesForNextStep env msgs2 config invalidatedFiles).1 = msgs2 := by
  unfold finalizeEditedFilesForNextStep
  dsimp only []
  split
  · rfl
  · rw [hE]
    rw [map_filterMap_id_my _ msgs2 hkeep]
    split
    · rfl
    · rename_i ai hai
      have hsyn : finalizeSynthetics env (inferWorktreeRoot msgs2)
          (finalizeScan env (protectedExtensionsOf config) (protectedPatternsOf config)
            invalidatedFiles (inferWorktreeRoot msgs2) msgs2) = [] := by
        unfold finalizeSynthetics
        rw [hE]
        rfl
      rw [hsyn]
      exact enumP_map_append_nil msgs2 ai

theorem finalize_second_run_id (env : Env) (msgs : List ChatMessage)
    (config : WhitelistConfig) (invalidatedFiles : List String)
    (out1 : List ChatMessage)
    (hroots : inferWorktreeRoot out1 = inferWorktreeRoot msgs)
    (hparts : ∀ p ∈ allParts out1,
      (p ∈ allParts msgs ∧ finalizeWipeKeep env (protectedExtensionsOf config)
        (protectedPatternsOf config) invalidatedFiles (inferWorktreeRoot msgs)
        (finalizeScan env (protectedExtensionsOf config) (protectedPatternsOf config)
          invalidatedFiles (inferWorktreeRoot msgs) msgs).editedFiles p = some p) ∨
      p ∈ finalizeSynthsOf env msgs config invalidatedFiles)
    (hstable : ∀ g ∈ finalizeEditedOf env msgs config invalidatedFiles,
      StableKey env (inferWorktreeRoot msgs) g) :
    (finalizeEditedFilesForNextStep env out1 config invalidatedFiles).1 = out1 := by
  set exts := protectedExtensionsOf config with hextsdef
  set pats := protectedPatternsOf config with hpatsdef
  set root := inferWorktreeRoot msgs with hrootdef
  have hfree : ∀ p ∈ allParts out1, ∀ tp, p = .tool tp → ∀ c, tp.state = .completed c →
      ∀ fp, extractPrimaryFilePath env tp root = some fp →
      isFileProtected fp exts pats = false → invalidatedFiles.contains fp = false →
      ((tp.tool == "edit" || tp.tool == "multiedit") = true →
        extractAfterFromEditMetadata c.metadata = none) ∧
      ((tp.tool == "write") = true → c.input.content = none) := by
    intro p hp tp hp2 c hc fp hex hprotfp hinvfp
    rcases hparts p hp with ⟨hpm, hk⟩ | hps
    · subst hp2
      constructor
      · intro hed
        cases haft : extractAfterFromEditMetadata c.metadata with
        | none => rfl
        | some a =>
          exfalso
          have hgE : fp ∈ (finalizeScan env exts pats invalidatedFiles root
              msgs).editedFiles :=
            fscan_edited_complete_edit env exts pats invalidatedFiles root msgs fp tp c a
              hpm hc hed haft hex hprotfp hinvfp
          have hft : isFileTool tp.tool = true := isFileTool_of_editty hed
          have hnone : finalizeWipeKeep env exts pats invalidatedFiles root
              (finalizeScan env exts pats invalidatedFiles root msgs).editedFiles
              (ChatMessagePart.tool tp) = none := by
            unfold finalizeWipeKeep
            simp only [hc, hex, hprotfp, List.elem_eq_true_of_mem hgE, Bool.true_or,
              Bool.not_true, Bool.false_eq_true, if_false, hft, if_true]
          rw [hnone] at hk
          cases hk
      · intro hwr
        cases hct : c.input.content with
        | none => rfl
        | some content =>
          exfalso
          have hed : (tp.tool == "edit" || tp.tool == "multiedit") = false := by
            rw [eq_of_beq hwr]
            rfl
          have hgE : fp ∈ (finalizeScan env exts pats invalidatedFiles root
              msgs).editedFiles :=
            fscan_edited_complete_write env exts pats invalidatedFiles root msgs fp tp c
              content hpm hc hed hwr hct hex hprotfp hinvfp
          have hft : isFileTool tp.tool = true := isFileTool_of_write hwr
          have hnone : finalizeWipeKeep env exts pats invalidatedFiles root
              (finalizeScan env exts pats invalidatedFiles root msgs).editedFiles
              (ChatMessagePart.tool tp) = none := by
            unfold finalizeWipeKeep
            simp only [hc, hex, hprotfp, List.elem_eq_true_of_mem hgE, Bool.true_or,
              Bool.not_true, Bool.false_eq_true, if_false, hft, if_true]
          rw [hnone] at hk
          cases hk
    · obtain ⟨g, hg, hginv, out, lab, hpeq⟩ :=
        mem_finalizeSynths env msgs config invalidatedFiles p hps
      have htp : tp = makeSyntheticReadPart env g out lab :=
        ChatMessagePart.tool.inj (hp2.symm.trans hpeq)
      subst htp
      constructor
      · intro hed
        rw [makeSynthetic_tool] at hed
        exact absurd hed (by decide)
      · intro hwr
        rw [makeSynthetic_tool] at hwr
        exact absurd hwr (by decide)
  have hE2 : (finalizeScan env exts pats invalidatedFiles (inferWorktreeRoot out1)
      out1).editedFiles = [] := by
    rw [hroots]
    exact fscan_edited_nil env exts pats invalidatedFiles root out1 hfree
  have hkeep2 : ∀ p ∈ allParts out1, finalizeWipeKeep env exts pats invalidatedFiles
      (inferWorktreeRoot out1) [] p = some p := by
    intro p hp
    rw [hroots]
    rcases hparts p hp with ⟨hpm, hk⟩ | hps
    · exact finalizeWipeKeep_some_nil env exts pats invalidatedFiles root _ p hk
    · obtain ⟨g, hg, hginv, out, lab, hpeq⟩ :=
        mem_finalizeSynths env msgs config invalidatedFiles p hps
      rw [hpeq]
      exact finalizeWipeKeep_synth env exts pats invalidatedFiles root g out lab
        (hstable g hg) hginv
  exact finalize_id_of env out1 config invalidatedFiles hE2 hkeep2


theorem isCompletedReadFor_spec {env : Env} {root : Option String} {f : String}
    {p : ChatMessagePart} (h : isCompletedReadFor env root f p = true) :
    ∃ tp c, p = .tool tp ∧ tp.state = .completed c ∧ (tp.tool == "read") = true ∧
      extractPrimaryFilePath env tp root = some f := by
  cases p with
  | other k pl => simp [isCompletedReadFor] at h
  | tool tp =>
    unfold isCompletedReadFor at h
    rw [Bool.and_eq_true, Bool.and_eq_true] at h
    obtain ⟨⟨h1, h2⟩, h3⟩ := h
    cases hst : tp.state with
    | completed c => exact ⟨tp, c, rfl, hst, h2, by simpa using h3⟩
    | pending i r => unfold isCompletedToolPart at h1; rw [hst] at h1; cases h1
    | running i => unfold isCompletedToolPart at h1; rw [hst] at h1; cases h1
    | error i e => unfold isCompletedToolPart at h1; rw [hst] at h1; cases h1

theorem finalizeWiped_no_reads (env : Env) (msgs : List ChatMessage)
    (config : WhitelistConfig) (invalidatedFiles : List String) (g : String)
    (hg : g ∈ finalizeEditedOf env msgs config invalidatedFiles) :
    ∀ p ∈ allParts (finalizeWiped env msgs config invalidatedFiles),
      isCompletedReadFor env (inferWorktreeRoot msgs) g p = false := by
  intro p hp
  unfold finalizeWiped at hp
  rw [allParts_map_filterMap] at hp
  rcases List.mem_filterMap.mp hp with ⟨p0, hp0, hkeep⟩
  have hqp := finalizeWipeKeep_some_eq env (protectedExtensionsOf config)
    (protectedPatternsOf config) invalidatedFiles (inferWorktreeRoot msgs) _ p0 p hkeep
  rw [hqp]
  cases hop : isCompletedReadFor env (inferWorktreeRoot msgs) g p0 with
  | false => rfl
  | true =>
    exfalso
    obtain ⟨tp, c, hp2, hc, htool, hex⟩ := isCompletedReadFor_spec hop
    subst hp2
    have hg2 : g ∈ (finalizeScan env (protectedExtensionsOf config)
        (protectedPatternsOf config) invalidatedFiles (inferWorktreeRoot msgs)
        msgs).editedFiles := hg
    have hprotg : isFileProtected g (protectedExtensionsOf config)
        (protectedPatternsOf config) = false :=
      fscan_edited_unprot env (protectedExtensionsOf config) (protectedPatternsOf config)
        invalidatedFiles (inferWorktreeRoot msgs) msgs g hg2
    have hft : isFileTool tp.tool = true := by
      rw [eq_of_beq htool]
      rfl
    have hnone : finalizeWipeKeep env (protectedExtensionsOf config)
        (protectedPatternsOf config) invalidatedFiles (inferWorktreeRoot msgs)
        (finalizeScan env (protectedExtensionsOf config) (protectedPatternsOf config)
          invalidatedFiles (inferWorktreeRoot msgs) msgs).editedFiles
        (ChatMessagePart.tool tp) = none := by
      unfold finalizeWipeKeep
      simp only [hc, hex, hprotg, List.elem_eq_true_of_mem hg2, Bool.true_or,
        Bool.not_true, Bool.false_eq_true, if_false, hft, if_true]
    rw [hnone] at hkeep
    cases hkeep

/-- C8: provided every file the pass treats as edited has a key that
re-resolves to itself, the finalization pass is idempotent — a second run
on its own output returns it unchanged — and after one pass each edited
file has exactly one synthetic read (one matching part among the appended
synthetics, none among the wiped survivors). -/
theorem claim_C8_finalize_idempotent (env : Env) (msgs : List ChatMessage)
    (config : WhitelistConfig) (invalidatedFiles : List String)
    (hstable : ∀ g ∈ finalizeEditedOf env msgs config invalidatedFiles,
      StableKey env (inferWorktreeRoot msgs) g) :
    (finalizeEditedFilesForNextStep env
        (finalizeEditedFilesForNextStep env msgs config invalidatedFiles).1
        config invalidatedFiles).1 =
      (finalizeEditedFilesForNextStep env msgs config invalidatedFiles).1 ∧
    ∀ g ∈ finalizeEditedOf env msgs config invalidatedFiles,
      ((finalizeSynthsOf env msgs config invalidatedFiles).filter
        (isCompletedReadFor env (inferWorktreeRoot msgs) g)).length = 1 ∧
      ∀ p ∈ allParts (finalizeWiped env msgs config invalidatedFiles),
        isCompletedReadFor env (inferWorktreeRoot msgs) g p = false := by
  constructor
  · set root := inferWorktreeRoot msgs with hrootdef
    set exts := protectedExtensionsOf config with hextsdef
    set pats := protectedPatternsOf config with hpatsdef
    rcases finalize_out_shape env msgs config invalidatedFiles with heq | heq | ⟨ai, heq⟩
    · rw [heq]
      exact heq
    · refine finalize_second_run_id env msgs config invalidatedFiles _ ?_ ?_ hstable
      · rw [heq]
        unfold finalizeWiped
        exact inferWorktreeRoot_map (fun m =>
            { m with parts := m.parts.filterMap (finalizeWipeKeep env exts pats
                invalidatedFiles root
                (finalizeScan env exts pats invalidatedFiles root msgs).editedFiles) })
          (fun m => rfl) msgs
      · intro p hp
        rw [heq] at hp
        unfold finalizeWiped at hp
        rw [allParts_map_filterMap] at hp
        rcases List.mem_filterMap.mp hp with ⟨p0, hp0, hkeep⟩
        have hqp := finalizeWipeKeep_some_eq env exts pats invalidatedFiles root _ p0 p
          hkeep
        subst hqp
        exact Or.inl ⟨hp0, hkeep⟩
    · refine finalize_second_run_id env msgs config invalidatedFiles _ ?_ ?_ hstable
      · rw [heq]
        refine (inferWorktreeRoot_append_at _ _ ai).trans ?_
        unfold finalizeWiped
        exact inferWorktreeRoot_map (fun m =>
            { m with parts := m.parts.filterMap (finalizeWipeKeep env exts pats
                invalidatedFiles root
                (finalizeScan env exts pats invalidatedFiles root msgs).editedFiles) })
          (fun m => rfl) msgs
      · intro p hp
        rw [heq] at hp
        rcases mem_allParts_append_at hp with h1 | h2
        · unfold finalizeWiped at h1
          rw [allParts_map_filterMap] at h1
          rcases List.mem_filterMap.mp h1 with ⟨p0, hp0, hkeep⟩
          have hqp := finalizeWipeKeep_some_eq env exts pats invalidatedFiles root _ p0 p
            hkeep
          subst hqp
          exact Or.inl ⟨hp0, hkeep⟩
        · exact Or.inr h2
  · intro g hg
    refine ⟨?_, finalizeWiped_no_reads env msgs config invalidatedFiles g hg⟩
    have hg2 : g ∈ (finalizeScan env (protectedExtensionsOf config)
        (protectedPatternsOf config) invalidatedFiles (inferWorktreeRoot msgs)
        msgs).editedFiles := hg
    have hnd : (finalizeScan env (protectedExtensionsOf config)
        (protectedPatternsOf config) invalidatedFiles (inferWorktreeRoot msgs)
        msgs).editedFiles.Nodup :=
      fscan_edited_nodup env (protectedExtensionsOf config) (protectedPatternsOf config)
        invalidatedFiles (inferWorktreeRoot msgs) msgs
    have hlat := fscan_edited_latest env (protectedExtensionsOf config)
      (protectedPatternsOf config) invalidatedFiles (inferWorktreeRoot msgs) msgs g hg2
    obtain ⟨l, hl⟩ := Option.isSome_iff_exists.mp hlat
    have hpt : ∀ x ∈ (finalizeScan env (protectedExtensionsOf config)
        (protectedPatternsOf config) invalidatedFiles (inferWorktreeRoot msgs)
        msgs).editedFiles,
        optGuard (isCompletedReadFor env (inferWorktreeRoot msgs) g)
          (match mget (finalizeScan env (protectedExtensionsOf config)
              (protectedPatternsOf config) invalidatedFiles (inferWorktreeRoot msgs)
              msgs).latestByFile x with
            | none => none
            | some l2 =>
              some (ChatMessagePart.tool (makeSyntheticReadPart env x
                (if l2.isAlreadyReadFormatted then l2.content
                  else renderReadLikeOutput l2.content)
                (match inferWorktreeRoot msgs with
                  | some r => pathRelative env.cwd r x
                  | none => x)))) =
          if x = g then
            some (ChatMessagePart.tool (makeSyntheticReadPart env g
              (if l.isAlreadyReadFormatted then l.content
                else renderReadLikeOutput l.content)
              (match inferWorktreeRoot msgs with
                | some r => pathRelative env.cwd r g
                | none => g)))
          else none := by
      intro x hx
      by_cases hxg : x = g
      · subst hxg
        rw [hl, if_pos rfl]
        dsimp only []
        generalize (if l.isAlreadyReadFormatted then l.content
          else renderReadLikeOutput l.content) = o
        generalize (match inferWorktreeRoot msgs with
          | some r => pathRelative env.cwd r x
          | none => x) = lb
        have hexx : extractPrimaryFilePath env (makeSyntheticReadPart env x o lb)
            (inferWorktreeRoot msgs) = some x := by
          rw [extract_synthetic]
          exact hstable x hx
        have hpred : isCompletedReadFor env (inferWorktreeRoot msgs) x
            (ChatMessagePart.tool (makeSyntheticReadPart env x o lb)) = true := by
          obtain ⟨c, hst, _⟩ := makeSynthetic_state env x o lb
          simp [isCompletedReadFor, isCompletedToolPart, hst, makeSynthetic_tool, hexx]
        simp [optGuard, hpred]
      · rw [if_neg hxg]
        cases hlx : mget (finalizeScan env (protectedExtensionsOf config)
            (protectedPatternsOf config) invalidatedFiles (inferWorktreeRoot msgs)
            msgs).latestByFile x with
        | none => rfl
        | some l2 =>
          dsimp only []
          generalize (if l2.isAlreadyReadFormatted then l2.content
            else renderReadLikeOutput l2.content) = o
          generalize (match inferWorktreeRoot msgs with
            | some r => pathRelative env.cwd r x
            | none => x) = lb
          have hexx : extractPrimaryFilePath env (makeSyntheticReadPart env x o lb)
              (inferWorktreeRoot msgs) = some x := by
            rw [extract_synthetic]
            exact hstable x hx
          have hpredf : isCompletedReadFor env (inferWorktreeRoot msgs) g
              (ChatMessagePart.tool (makeSyntheticReadPart env x o lb)) = false := by
            simp [isCompletedReadFor, hexx, hxg]
          simp [optGuard, hpredf]
    have hy : (finalizeSynthsOf env msgs config invalidatedFiles).filter
        (isCompletedReadFor env (inferWorktreeRoot msgs) g) =
        [ChatMessagePart.tool (makeSyntheticReadPart env g
          (if l.isAlreadyReadFormatted then l.content
            else renderReadLikeOutput l.content)
          (match inferWorktreeRoot msgs with
            | some r => pathRelative env.cwd r g
            | none => g))] := by
      unfold finalizeSynthsOf finalizeSynthetics
      rw [filter_filterMap_my]
      exact filterMap_singleton_my hnd hg2 hpt
    rw [hy]
    rfl

/-- C8 counterexample: finalizing an edit of the unstable path `/a/b /.`
with `/a/b` invalidated attaches a synthetic read whose key re-resolves to
the invalidated `/a/b`, so a second run wipes it: running the pass twice
differs from running it once. -/
theorem claim_C8_counterexample :
    (finalizeEditedFilesForNextStep sampleEnv
        (finalizeEditedFilesForNextStep sampleEnv c8ceMsgs emptyConfig ["/a/b"]).1
        emptyConfig ["/a/b"]).1 ≠
      (finalizeEditedFilesForNextStep sampleEnv c8ceMsgs emptyConfig ["/a/b"]).1 := by
  decide

/-- C8 witness: on an assistant window with one ordinary edit the amended
idempotence statement applies. -/
theorem claim_C8_finalize_idempotent_witness :
    (finalizeEditedFilesForNextStep sampleEnv
        (finalizeEditedFilesForNextStep sampleEnv c8wMsgs emptyConfig []).1
        emptyConfig []).1 =
      (finalizeEditedFilesForNextStep sampleEnv c8wMsgs emptyConfig []).1 ∧
    ∀ g ∈ finalizeEditedOf sampleEnv c8wMsgs emptyConfig [],
      ((finalizeSynthsOf sampleEnv c8wMsgs emptyConfig []).filter
        (isCompletedReadFor sampleEnv (inferWorktreeRoot c8wMsgs) g)).length = 1 ∧
      ∀ p ∈ allParts (finalizeWiped sampleEnv c8wMsgs emptyConfig []),
        isCompletedReadFor sampleEnv (inferWorktreeRoot c8wMsgs) g p = false :=
  claim_C8_finalize_idempotent sampleEnv c8wMsgs emptyConfig [] (by decide)
